import Mathlib

/-!
A verification development for `malloc.c`.

A shallow embedding of the allocator in `src/src/malloc.c`: the block header,
the global state (the header store, the payload bytes, the root `heapList`,
the next-fit cursor, the program break and the statistics counters), the four
search policies of `findFreeBlock`, `growHeap`, `malloc`, `free`, `calloc`
and `realloc`.

Conventions.
* Pointers are natural numbers, `0` is `NULL`, and `size_t` arithmetic is done
  modulo `W = 2 ^ 64`.
* `H` is `sizeof (struct _block)`; it is a parameter of every operation.
* The statistics counters are C `int`s; they are modelled as unbounded
  integers.
* Headers live in a store of their own (`State.mem`, indexed by the address of
  the header) and payload bytes in `State.bytes`.
* A loop is run with a bound on its number of iterations; running out of the
  bound is the outcome `Outcome.diverge`, a failed `assert` is
  `Outcome.abort`.
* `Run` is the reachability from the empty heap by valid calls. `Reach` is the
  reachability by valid calls whose requests are all in range
  (`H + ALIGN4 s < W`); the invariants of the list hold over `Reach` and fail
  over `Run`, where `sizeof (struct _block) + size` wraps.
-/

namespace Malloc

/-- The number of values of a `size_t` (and of a pointer): `2 ^ 64`. -/
def W : Nat := 18446744073709551616

/-- The search policy selected at compile time (`FIT`, `BEST`, `WORST`, `NEXT`). -/
inductive Fit where
  | first
  | best
  | worst
  | next
  deriving DecidableEq, Repr

/-- The header `struct _block`. -/
structure Block where
  size : Nat
  next : Nat
  prev : Nat
  free : Bool
  deriving DecidableEq, Repr

/-- The statistics counters of the translation unit. They are C `int`s; here they are
unbounded integers, which is how the statements below take them. The two differ once a
counter leaves the range of `int`: after `malloc(2 ^ 31)` the program has a negative
`num_requested` and a negative `max_heap`. -/
structure Counters where
  num_mallocs : Int
  num_frees : Int
  num_reuses : Int
  num_grows : Int
  num_splits : Int
  num_coalesces : Int
  num_blocks : Int
  num_requested : Int
  max_heap : Int
  deriving DecidableEq, Repr

/-- The global state of the allocator together with the state of the operating system's
break: `brk` is the current program break and `limit` the address past which the
operating system refuses to move it. The headers (`mem`) and the payload bytes (`bytes`) are
two stores: a write to a payload byte does not change a header here. In the program it does
when a payload covers a header, which happens after a request whose size wraps and, under
next-fit, after a merge that leaves the cursor on an absorbed header. -/
structure State where
  mem : Nat → Block
  bytes : Nat → Nat
  heapList : Nat
  last_allocated : Nat
  atexit_registered : Int
  ctr : Counters
  brk : Nat
  limit : Nat

/-- The result of running an operation. -/
inductive Outcome (α : Type) where
  | ret (val : α) (st : State)
  | abort
  | diverge

/-- The macro `ALIGN4(s)`, `(((((s) - 1) >> 2) << 2) + 4)`, on a `size_t`. -/
def ALIGN4 (s : Nat) : Nat :=
  ((((s + W - 1) % W) / 4) * 4 % W + 4) % W

/-- The macro `BLOCK_DATA(b)`, `(b) + 1` on a `struct _block *`. -/
def BLOCK_DATA (H b : Nat) : Nat := (b + H) % W

/-- The macro `BLOCK_HEADER(ptr)`, `(struct _block *)(ptr) - 1`. -/
def BLOCK_HEADER (H ptr : Nat) : Nat := (ptr + W - H % W) % W

/-- A store to the header at address `a`. -/
def setBlock (mem : Nat → Block) (a : Nat) (b : Block) : Nat → Block :=
  fun x => if x = a then b else mem x

/-- The content of a header that has not been written yet. -/
def emptyBlock : Block := ⟨0, 0, 0, false⟩

/-- The state before the first call: no block, every counter zero, the break at `b0`. -/
def initState (b0 lim : Nat) : State :=
  { mem := fun _ => emptyBlock
    bytes := fun _ => 0
    heapList := 0
    last_allocated := 0
    atexit_registered := 0
    ctr := ⟨0, 0, 0, 0, 0, 0, 0, 0, 0⟩
    brk := b0
    limit := lim }

/-! ## `findFreeBlock` -/

/-- The loop of the first-fit policy: the pair is `(curr, last)` at loop exit. -/
def firstLoop (mem : Nat → Block) (size : Nat) : Nat → Nat → Nat → Option (Nat × Nat)
  | 0, _, _ => none
  | fuel + 1, curr, last =>
    if curr ≠ 0 ∧ ¬ ((mem curr).free = true ∧ (mem curr).size ≥ size) then
      firstLoop mem size fuel (mem curr).next curr
    else some (curr, last)

/-- The loop of the best-fit policy, with the locals `best_block` and `smallest_size`;
the result is `(best_block, last)` at loop exit. -/
def bestLoop (mem : Nat → Block) (size : Nat) :
    Nat → Nat → Nat → Nat → Nat → Option (Nat × Nat)
  | 0, _, _, _, _ => none
  | fuel + 1, curr, last, best_block, smallest_size =>
    if curr ≠ 0 then
      if (mem curr).free = true ∧ (mem curr).size ≥ size ∧ (mem curr).size < smallest_size then
        bestLoop mem size fuel (mem curr).next curr curr (mem curr).size
      else bestLoop mem size fuel (mem curr).next curr best_block smallest_size
    else some (best_block, last)

/-- The loop of the worst-fit policy, with the locals `worst_block` and `largest_size`. -/
def worstLoop (mem : Nat → Block) (size : Nat) :
    Nat → Nat → Nat → Nat → Nat → Option (Nat × Nat)
  | 0, _, _, _, _ => none
  | fuel + 1, curr, last, worst_block, largest_size =>
    if curr ≠ 0 then
      if (mem curr).free = true ∧ (mem curr).size ≥ size ∧ (mem curr).size > largest_size then
        worstLoop mem size fuel (mem curr).next curr curr (mem curr).size
      else worstLoop mem size fuel (mem curr).next curr worst_block largest_size
    else some (worst_block, last)

/-- The `do ... while (curr != last_allocated)` loop of the next-fit policy, entered at
the top of its body; the result is `(curr, last, last_allocated)` at loop exit. -/
def nextLoop (mem : Nat → Block) (heapList size last_allocated : Nat) :
    Nat → Nat → Nat → Option (Nat × Nat × Nat)
  | 0, _, _ => none
  | fuel + 1, curr, last =>
    if (mem curr).free = true ∧ (mem curr).size ≥ size then
      some (curr, last, curr)
    else
      let curr1 := if (mem curr).next ≠ 0 then (mem curr).next else heapList
      if curr1 ≠ last_allocated then
        nextLoop mem heapList size last_allocated fuel curr1 curr
      else some (curr1, curr, last_allocated)

/-- The function `findFreeBlock (&last, size)`: the value is the returned block and the
new value of `*last`. The loops are run for at most `brk + 1` iterations, which is more than
the number of headers that fit below the break. -/
def findFreeBlock (fit : Fit) (st : State) (last size : Nat) : Outcome (Nat × Nat) :=
  match fit with
  | Fit.first =>
    match firstLoop st.mem size (st.brk + 1) st.heapList last with
    | none => Outcome.diverge
    | some r => Outcome.ret r st
  | Fit.best =>
    match bestLoop st.mem size (st.brk + 1) st.heapList last 0 (W - 1) with
    | none => Outcome.diverge
    | some r => Outcome.ret r st
  | Fit.worst =>
    match worstLoop st.mem size (st.brk + 1) st.heapList last 0 0 with
    | none => Outcome.diverge
    | some r => Outcome.ret r st
  | Fit.next =>
    if st.heapList = 0 then Outcome.ret (0, last) st
    else
      let la := if st.last_allocated = 0 then st.heapList else st.last_allocated
      match nextLoop st.mem st.heapList size la (st.brk + 1) la last with
      | none => Outcome.diverge
      | some (curr, last1, la1) =>
        let curr1 := if (st.mem curr).free = false ∨ (st.mem curr).size < size then 0 else curr
        Outcome.ret (curr1, last1) { st with last_allocated := la1 }

/-! ## The operating system's break -/

/-- Modelled from the spec: the OS heap-extension primitive `sbrk`, which is not part of the
repository. Called with zero it reports the current break; called with a positive delta it
extends the break and returns the old one, or returns the failure sentinel `(void *) -1`
when the extension is denied. A delta that is negative as an `intptr_t` is denied. -/
def sbrk (st : State) (incr : Nat) : Nat × State :=
  if incr = 0 then (st.brk, st)
  else if incr < W / 2 ∧ st.brk + incr ≤ st.limit then
    (st.brk, { st with brk := st.brk + incr })
  else (W - 1, st)

/-! ## `growHeap`, `malloc`, `free`, `calloc`, `realloc` -/

/-- The success path of `growHeap` (lines 194-217), with `curr` the old break: the root is
set if it was null, `last->next` is set if `last` is non-null, the new header is written and
the counters are updated. -/
def growState (H : Nat) (st : State) (last size curr : Nat) : State :=
  let heapList1 := if st.heapList = 0 then curr else st.heapList
  let mem1 := if last ≠ 0 then setBlock st.mem last { st.mem last with next := curr }
    else st.mem
  let mem2 := setBlock mem1 curr { size := size, next := 0, prev := last, free := false }
  { st with
    mem := mem2
    heapList := heapList1
    ctr := { st.ctr with
      num_grows := st.ctr.num_grows + 1
      num_blocks := st.ctr.num_blocks + 1
      max_heap := st.ctr.max_heap + ((size + H) % W : Nat) } }

/-- The function `growHeap (last, size)`. -/
def growHeap (H : Nat) (st : State) (last size : Nat) : Outcome Nat :=
  let r0 := sbrk st 0
  let curr := r0.1
  let r1 := sbrk r0.2 ((H + size) % W)
  let prev := r1.1
  if curr ≠ prev then Outcome.abort
  else if curr = W - 1 then Outcome.ret 0 r1.2
  else Outcome.ret curr (growState H r1.2 last size curr)

/-- The split of `malloc` (lines 266-282), run when `next` is non-null and
`next->size > size + sizeof(struct _block) + 4`. -/
def splitBlock (H : Nat) (st : State) (next size : Nat) : State :=
  let new_block := (BLOCK_DATA H next + size) % W
  let nb : Block :=
    { size := ((st.mem next).size + W - size % W + W - H % W) % W
      free := true
      next := (st.mem next).next
      prev := next }
  let mem1 := setBlock st.mem new_block nb
  let mem2 := if (mem1 new_block).next ≠ 0 then
      setBlock mem1 (mem1 new_block).next { mem1 (mem1 new_block).next with prev := new_block }
    else mem1
  let mem3 := setBlock mem2 next { mem2 next with next := new_block }
  let mem4 := setBlock mem3 next { mem3 next with size := size }
  { st with
    mem := mem4
    ctr := { st.ctr with
      num_splits := st.ctr.num_splits + 1
      num_blocks := st.ctr.num_blocks + 1 } }

/-- The registration of `printStatistics` at the first call (lines 235-239). -/
def registerAtexit (st : State) : State :=
  if st.atexit_registered = 0 then { st with atexit_registered := 1 } else st

/-- The statement `if (next) num_reuses++` (lines 255-258). -/
def countReuse (st : State) (next : Nat) : State :=
  if next ≠ 0 then { st with ctr := { st.ctr with num_reuses := st.ctr.num_reuses + 1 } }
  else st

/-- The conditional split of `malloc` (lines 266-282). -/
def maybeSplit (H : Nat) (st : State) (next size : Nat) : State :=
  if next ≠ 0 ∧ (st.mem next).size > (size + H + 4) % W then splitBlock H st next size
  else st

/-- The end of `malloc` (lines 297-300): the block is marked in use and the counters
`num_requested` and `num_mallocs` are updated. -/
def markUsed (st : State) (next size : Nat) : State :=
  { st with
    mem := setBlock st.mem next { st.mem next with free := false }
    ctr := { st.ctr with
      num_requested := st.ctr.num_requested + (size : Nat)
      num_mallocs := st.ctr.num_mallocs + 1 } }

/-- The function `malloc (size)`. -/
def malloc (fit : Fit) (H : Nat) (st0 : State) (size0 : Nat) : Outcome Nat :=
  let st := registerAtexit st0
  let size := ALIGN4 size0
  if size = 0 then Outcome.ret 0 st
  else
    match findFreeBlock fit st st.heapList size with
    | Outcome.abort => Outcome.abort
    | Outcome.diverge => Outcome.diverge
    | Outcome.ret (next, last) st1 =>
      let st3 := maybeSplit H (countReuse st1 next) next size
      let grown : Outcome Nat := if next = 0 then growHeap H st3 last size
        else Outcome.ret next st3
      match grown with
      | Outcome.abort => Outcome.abort
      | Outcome.diverge => Outcome.diverge
      | Outcome.ret next1 st4 =>
        if next1 = 0 then Outcome.ret 0 st4
        else Outcome.ret (BLOCK_DATA H next1) (markUsed st4 next1 size)

/-- The left merge of `free` (lines 332-343). -/
def coalescePrev (H : Nat) (st : State) (curr : Nat) : Nat × State :=
  if (st.mem curr).prev ≠ 0 ∧ (st.mem (st.mem curr).prev).free = true then
    let p := (st.mem curr).prev
    let mem1 := setBlock st.mem p
      { st.mem p with size := ((st.mem p).size + (H + (st.mem curr).size) % W) % W }
    let mem2 := setBlock mem1 (mem1 curr).prev
      { mem1 (mem1 curr).prev with next := (mem1 curr).next }
    let mem3 := if (mem2 curr).next ≠ 0 then
        setBlock mem2 (mem2 curr).next { mem2 (mem2 curr).next with prev := (mem2 curr).prev }
      else mem2
    ((mem3 curr).prev,
      { st with
        mem := mem3
        ctr := { st.ctr with
          num_coalesces := st.ctr.num_coalesces + 1
          num_blocks := st.ctr.num_blocks - 1 } })
  else (curr, st)

/-- The right merge of `free` (lines 345-355). -/
def coalesceNext (H : Nat) (st : State) (curr : Nat) : State :=
  if (st.mem curr).next ≠ 0 ∧ (st.mem (st.mem curr).next).free = true then
    let mem1 := setBlock st.mem curr
      { st.mem curr with
        size := ((st.mem curr).size + (H + (st.mem (st.mem curr).next).size) % W) % W }
    let mem2 := setBlock mem1 curr { mem1 curr with next := (mem1 (mem1 curr).next).next }
    let mem3 := if (mem2 curr).next ≠ 0 then
        setBlock mem2 (mem2 curr).next { mem2 (mem2 curr).next with prev := curr }
      else mem2
    { st with
      mem := mem3
      ctr := { st.ctr with
        num_coalesces := st.ctr.num_coalesces + 1
        num_blocks := st.ctr.num_blocks - 1 } }
  else st

/-- The statement `curr->free = true` of `free` (line 326). -/
def markFree (st : State) (curr : Nat) : State :=
  { st with mem := setBlock st.mem curr { st.mem curr with free := true } }

/-- The statement `num_frees++` of `free` (line 356). -/
def countFree (st : State) : State :=
  { st with ctr := { st.ctr with num_frees := st.ctr.num_frees + 1 } }

/-- The function `free (ptr)`. -/
def free (H : Nat) (st : State) (ptr : Nat) : Outcome Unit :=
  if ptr = 0 then Outcome.ret () st
  else
    let curr := BLOCK_HEADER H ptr
    if (st.mem curr).free ≠ false then Outcome.abort
    else
      let r := coalescePrev H (markFree st curr) curr
      Outcome.ret () (countFree (coalesceNext H r.2 r.1))

/-- The call `memset (ptr, 0, n)`. -/
def memset0 (bytes : Nat → Nat) (ptr n : Nat) : Nat → Nat :=
  fun x => if ptr ≤ x ∧ x < ptr + n then 0 else bytes x

/-- The call `memcpy (dst, src, n)`. -/
def memcpy (bytes : Nat → Nat) (dst src n : Nat) : Nat → Nat :=
  fun x => if dst ≤ x ∧ x < dst + n then bytes (src + (x - dst)) else bytes x

/-- Sequencing of two operations: `f` is run on the value and the state that `o` returned
with; a failed `assert` or a loop that does not end in `o` ends the whole. -/
def Outcome.bind {α β : Type} (o : Outcome α) (f : α → State → Outcome β) : Outcome β :=
  match o with
  | Outcome.ret v st => f v st
  | Outcome.abort => Outcome.abort
  | Outcome.diverge => Outcome.diverge

/-- The function `calloc (nmemb, size)`. -/
def calloc (fit : Fit) (H : Nat) (st : State) (nmemb size : Nat) : Outcome Nat :=
  let total_size := (nmemb * size) % W
  (malloc fit H st total_size).bind fun ptr st1 =>
    if ptr ≠ 0 then Outcome.ret ptr { st1 with bytes := memset0 st1.bytes ptr total_size }
    else Outcome.ret ptr st1

/-- The function `realloc (ptr, size)`. -/
def realloc (fit : Fit) (H : Nat) (st : State) (ptr size : Nat) : Outcome Nat :=
  if ptr = 0 then malloc fit H st size
  else if size = 0 then (free H st ptr).bind fun _ st1 => Outcome.ret 0 st1
  else
    let curr := BLOCK_HEADER H ptr
    if (st.mem curr).size ≥ size then Outcome.ret ptr st
    else
      (malloc fit H st size).bind fun new_ptr st1 =>
        if new_ptr ≠ 0 then
          (free H { st1 with bytes := memcpy st1.bytes new_ptr ptr (st1.mem curr).size }
            ptr).bind fun _ st3 => Outcome.ret new_ptr st3
        else Outcome.ret new_ptr st1

/-! ## Observing a state -/

/-- The addresses met by following `next` from `a`, for at most `fuel` steps. -/
def chainFrom (mem : Nat → Block) : Nat → Nat → List Nat
  | 0, _ => []
  | fuel + 1, a => if a = 0 then [] else a :: chainFrom mem fuel (mem a).next

/-- The block list of a state: the headers reachable from the root via `next`. -/
def blockAddrs (st : State) : List Nat := chainFrom st.mem (st.brk + 1) st.heapList

/-- The block list with, for every block, its address, size and free flag. -/
def view (st : State) : List (Nat × Nat × Bool) :=
  (blockAddrs st).map fun a => (a, (st.mem a).size, (st.mem a).free)

/-- The state an operation returned with, or the given state when it did not return. -/
def Outcome.stateD {α : Type} (o : Outcome α) (d : State) : State :=
  match o with
  | Outcome.ret _ st => st
  | _ => d

/-- The value an operation returned, if it returned. -/
def Outcome.val? {α : Type} (o : Outcome α) : Option α :=
  match o with
  | Outcome.ret v _ => some v
  | _ => none

/-- The state an operation returned with, if it returned. -/
def Outcome.state? {α : Type} (o : Outcome α) : Option State :=
  match o with
  | Outcome.ret _ st => some st
  | _ => none

/-- Whether an operation ended in a failed `assert`. -/
def Outcome.isAbort {α : Type} (o : Outcome α) : Bool :=
  match o with
  | Outcome.abort => true
  | _ => false

/-- The words of the spec, "`s` rounded up to the next multiple of 4". -/
def roundUp4 (s : Nat) : Nat := (s + 3) / 4 * 4

/-- The state of the counterexample to C6: `malloc(100)` on the empty heap, then `free`. -/
def reuseWholeState : State :=
  ((free 32 ((malloc Fit.first 32 (initState 1000 100000) 100).stateD (initState 0 0)) 1032).stateD
    (initState 0 0))

/-! ## Valid call sequences and the representation invariant -/

/-- A pointer is live in a state when it is the payload address of a block of the list that
is in use. -/
def Live (H : Nat) (st : State) (p : Nat) : Prop :=
  ∃ a ∈ blockAddrs st, BLOCK_DATA H a = p ∧ (st.mem a).free = false

instance (H : Nat) (st : State) (p : Nat) : Decidable (Live H st p) := by
  unfold Live; infer_instance

/-- The states reached from the empty heap (break at `b0`, limit `lim`) by a sequence of
valid calls in which every request is in range. A call is valid when it returns (no `assert`
fails, so `sbrk` granted every extension it was asked for) and when the pointer given to `free`
or `realloc` is null or live; `Run` is the reachability by valid calls. A request is in range
when the header and the aligned payload have a length that a `size_t` holds,
`H + ALIGN4 s < W`, so that `sbrk` is asked for the whole block. The bound is a further
condition, not a part of what makes a call valid: for a larger request
`sizeof(struct _block) + size` wraps in `growHeap`, the call returns all the same, and the
invariants that hold over `Reach` fail over `Run`. Between two calls the caller may store a byte
anywhere in the payload of a live block. -/
inductive Reach (fit : Fit) (H b0 lim : Nat) : State → Prop where
  | init : Reach fit H b0 lim (initState b0 lim)
  | malloc {st st' : State} {s p : Nat} :
      Reach fit H b0 lim st → s < W → H + ALIGN4 s < W →
      Malloc.malloc fit H st s = Outcome.ret p st' → Reach fit H b0 lim st'
  | calloc {st st' : State} {n s p : Nat} :
      Reach fit H b0 lim st → H + ALIGN4 ((n * s) % W) < W →
      Malloc.calloc fit H st n s = Outcome.ret p st' → Reach fit H b0 lim st'
  | realloc {st st' : State} {p s q : Nat} :
      Reach fit H b0 lim st → (p = 0 ∨ Live H st p) → s < W → H + ALIGN4 s < W →
      Malloc.realloc fit H st p s = Outcome.ret q st' → Reach fit H b0 lim st'
  | free {st st' : State} {p : Nat} :
      Reach fit H b0 lim st → (p = 0 ∨ Live H st p) →
      Malloc.free H st p = Outcome.ret () st' → Reach fit H b0 lim st'
  | write {st : State} {p x v : Nat} :
      Reach fit H b0 lim st → Live H st p → p ≤ x →
      x < p + (st.mem (BLOCK_HEADER H p)).size →
      Reach fit H b0 lim { st with bytes := fun y => if y = x then v else st.bytes y }

/-- The conditions on the parameters: the header is not empty, the first break is not the
null address, and the break never passes `W / 2`. -/
structure Params (H b0 lim : Nat) : Prop where
  hpos : 0 < H
  bpos : 0 < b0
  blim : b0 ≤ lim
  limW : lim ≤ W / 2

/-- The list `l` of header addresses is linked in `mem`: the first header has `prev = p`,
every header's `next` is the header that follows it in `l` (`n` for the last one), and every
block ends where the one that follows it starts (at `e` for the last one). -/
def Seg (H : Nat) (mem : Nat → Block) : Nat → List Nat → Nat → Nat → Prop
  | _, [], _, _ => True
  | p, x :: l, n, e =>
    0 < x ∧ (mem x).prev = p ∧ (mem x).next = l.headD n ∧
      x + H + (mem x).size = l.headD e ∧ Seg H mem x l n e

/-- Following `next` from `c` visits the addresses of `l`, in order, and then reaches null. -/
def Path (mem : Nat → Block) : Nat → List Nat → Prop
  | c, [] => c = 0
  | c, x :: l => c = x ∧ x ≠ 0 ∧ Path mem (mem x).next l

/-- No two blocks that follow each other in `l` are both free. -/
def NoAdjFree (mem : Nat → Block) : List Nat → Prop
  | x :: y :: l => ¬ ((mem x).free = true ∧ (mem y).free = true) ∧ NoAdjFree mem (y :: l)
  | _ => True

/-- The representation invariant: `l` is the block list of `st`. The list starts at the root
and is doubly linked, its blocks tile the memory between the root and the break, no two
neighbours are both free, and the break is within the limit. -/
structure Inv (H : Nat) (st : State) (l : List Nat) : Prop where
  seg : Seg H st.mem 0 l 0 st.brk
  root : st.heapList = l.headD 0
  noadj : NoAdjFree st.mem l
  brk_pos : 0 < st.brk
  brk_le : st.brk ≤ st.limit
  lim_le : st.limit ≤ W / 2

/-- The test of the Locator: the block at `x` is free and holds `size` bytes. -/
def Fits (mem : Nat → Block) (size x : Nat) : Prop :=
  (mem x).free = true ∧ size ≤ (mem x).size

instance (mem : Nat → Block) (size x : Nat) : Decidable (Fits mem size x) := by
  unfold Fits; infer_instance

/-- The locals `(best_block, smallest_size)` of the best-fit loop after it has visited the
blocks of `l`. -/
def bestScan (mem : Nat → Block) (size : Nat) : List Nat → Nat × Nat → Nat × Nat
  | [], acc => acc
  | x :: l, acc =>
    if (mem x).free = true ∧ (mem x).size ≥ size ∧ (mem x).size < acc.2 then
      bestScan mem size l (x, (mem x).size)
    else bestScan mem size l acc

/-- The locals `(worst_block, largest_size)` of the worst-fit loop after it has visited the
blocks of `l`. -/
def worstScan (mem : Nat → Block) (size : Nat) : List Nat → Nat × Nat → Nat × Nat
  | [], acc => acc
  | x :: l, acc =>
    if (mem x).free = true ∧ (mem x).size ≥ size ∧ (mem x).size > acc.2 then
      worstScan mem size l (x, (mem x).size)
    else worstScan mem size l acc

/-- The header store after the block at `c` has absorbed the block `y` that follows it: the
size of `c` grows by the header and the payload of `y`, the successor of `y` becomes the
successor of `c`, and that successor's `prev` is `c`. -/
def absorbMem (H : Nat) (mem : Nat → Block) (c y : Nat) : Nat → Block := fun x =>
  if x = c then
    { mem c with size := ((mem c).size + (H + (mem y).size) % W) % W, next := (mem y).next }
  else if x = (mem y).next ∧ (mem y).next ≠ 0 then { mem x with prev := c }
  else mem x

/-- The counters after one merge. -/
def countCoalesce (c : Counters) : Counters :=
  { c with num_coalesces := c.num_coalesces + 1, num_blocks := c.num_blocks - 1 }

/-- The state `st` with the next-fit cursor `last_allocated` set to `x`. -/
def withCursor (st : State) (x : Nat) : State :=
  { st with last_allocated := x }

/-- The state `malloc` returns with when it hands out the free block `f` whole. -/
def reuseResult (st : State) (f r : Nat) : State :=
  markUsed (countReuse (registerAtexit st) f) f r

/-- The state `malloc` returns with when it splits the free block `f`. -/
def splitResult (H : Nat) (st : State) (f r : Nat) : State :=
  markUsed (splitBlock H (countReuse (registerAtexit st) f) f r) f r

/-- The state `malloc` returns with when it grows the heap behind the block `last`. -/
def growResult (H : Nat) (st : State) (last r : Nat) : State :=
  markUsed (growState H { registerAtexit st with brk := st.brk + (H + r) } last r st.brk)
    st.brk r

/-- The state after the block at `c` has absorbed its successor `y`: one merge of `free`. -/
def absorbState (H : Nat) (st : State) (c y : Nat) : State :=
  { st with mem := absorbMem H st.mem c y, ctr := countCoalesce st.ctr }

/-- The block `free` goes on with after the left merge, and the state then, when the freed
block is `a` and `l1` holds the blocks before it. -/
def freeLeft (H : Nat) (st : State) (l1 : List Nat) (a : Nat) : Nat × State :=
  match l1.getLast? with
  | some q =>
    if (st.mem q).free = true then (q, absorbState H (markFree st a) q a)
    else (a, markFree st a)
  | none => (a, markFree st a)

/-- The state after the right merge of `free`, when `st0` is the state at the call, `st2` the
state after the left merge, `c` the block `free` goes on with and `l2` the blocks after it. -/
def freeRight (H : Nat) (st0 st2 : State) (c : Nat) (l2 : List Nat) : State :=
  match l2.head? with
  | some z => if (st0.mem z).free = true then absorbState H st2 c z else st2
  | none => st2

/-- The state `free` returns with when the freed block is `a`, `l1` holds the blocks of the
list before it and `l2` the blocks after it. -/
def freeResult (H : Nat) (st : State) (l1 : List Nat) (a : Nat) (l2 : List Nat) : State :=
  countFree (freeRight H st (freeLeft H st l1 a).2 (freeLeft H st l1 a).1 l2)

/-- The blocks before the freed block `a` that are left in the list, followed by the block
that covers `a`. -/
def freeListLeft (mem : Nat → Block) (l1 : List Nat) (a : Nat) : List Nat :=
  match l1.getLast? with
  | some q => if (mem q).free = true then l1 else l1 ++ [a]
  | none => l1 ++ [a]

/-- The blocks after the freed block that are left in the list. -/
def freeListRight (mem : Nat → Block) (l2 : List Nat) : List Nat :=
  match l2.head? with
  | some z => if (mem z).free = true then l2.tail else l2
  | none => l2

/-- The block list after `free` of the block `a`. -/
def freeList (mem : Nat → Block) (l1 : List Nat) (a : Nat) (l2 : List Nat) : List Nat :=
  freeListLeft mem l1 a ++ freeListRight mem l2

/-- The state of `free` between its two merges. The block `a` of the state `st0` is being
freed; in the state `st2` the block `c` covers it, the blocks `L1` come before `c` and the
blocks `l2` after it. -/
structure Mid (H : Nat) (st0 st2 : State) (a : Nat) (L1 : List Nat) (c : Nat)
    (l2 : List Nat) : Prop where
  seg : Seg H st2.mem 0 (L1 ++ c :: l2) 0 st0.brk
  cfree : (st2.mem c).free = true
  flags : ∀ x, x ≠ a → (st2.mem x).free = (st0.mem x).free
  lastL1 : ∀ w, L1.getLast? = some w → (st0.mem w).free = false
  noadj1 : NoAdjFree st0.mem L1
  noadj2 : NoAdjFree st0.mem l2
  root : st2.heapList = (L1 ++ [c]).headD 0
  notin1 : a ∉ L1
  notin2 : a ∉ l2
  brk_eq : st2.brk = st0.brk
  limit_eq : st2.limit = st0.limit

/-- The blocks of `l` are laid end to end in memory from the address `pos` to the address
`e`: each header is where the payload of the block before it ends. -/
def Tiles (H : Nat) (mem : Nat → Block) : Nat → List Nat → Nat → Prop
  | pos, [], e => pos = e
  | pos, a :: l, e => a = pos ∧ Tiles H mem (a + H + (mem a).size) l e

/-- The root is null and the break is where it was at the start, or the root is the first
address the operating system handed out. -/
def Base (b0 : Nat) (st : State) : Prop :=
  (st.heapList = 0 ∧ st.brk = b0) ∨ (st.heapList = b0 ∧ st.heapList ≠ 0)

/-! ## Concrete runs -/

/-- The state after `malloc(s)`, or the state itself when the call does not return. -/
def afterMalloc (fit : Fit) (H : Nat) (st : State) (s : Nat) : State :=
  (malloc fit H st s).stateD st

/-- The state after `free(p)`, or the state itself when the call does not return. -/
def afterFree (H : Nat) (st : State) (p : Nat) : State :=
  (free H st p).stateD st

/-- The empty heap of the concrete runs: header size 32, break at 1000, limit 100000. -/
def heap0 : State := initState 1000 100000

/-- Next-fit run, step 1: `A = malloc(8)`, which returns 1032. -/
def nextRun1 : State := afterMalloc Fit.next 32 heap0 8

/-- Next-fit run, step 2: `B = malloc(8)`, which returns 1072. -/
def nextRun2 : State := afterMalloc Fit.next 32 nextRun1 8

/-- Next-fit run, step 3: `C = malloc(8)`, which returns 1112. -/
def nextRun3 : State := afterMalloc Fit.next 32 nextRun2 8

/-- Next-fit run, step 4: `free(B)`. -/
def nextRun4 : State := afterFree 32 nextRun3 1072

/-- Next-fit run, step 5: `malloc(8)`, which returns `B` again and leaves the cursor on it. -/
def nextRun5 : State := afterMalloc Fit.next 32 nextRun4 8

/-- Next-fit run, step 6: `free(B)`. -/
def nextRun6 : State := afterFree 32 nextRun5 1072

/-- Next-fit run, step 7: `free(A)`, which absorbs `B` into `A`. -/
def nextRun7 : State := afterFree 32 nextRun6 1032

/-- Next-fit run, step 8: `malloc(8)`, which returns 1072, the payload of the absorbed `B`. -/
def nextRun8 : State := afterMalloc Fit.next 32 nextRun7 8

/-- Next-fit run, step 9: `malloc(48)`, which returns 1032, the payload of `A`. -/
def nextRun9 : State := afterMalloc Fit.next 32 nextRun8 48

/-! ## The block list as a list of triples, and `free` in the words of the spec -/

/-- The triples (address, size, free flag) of the headers at the addresses `l`. -/
def viewOf (mem : Nat → Block) (l : List Nat) : List (Nat × Nat × Bool) :=
  l.map fun a => (a, (mem a).size, (mem a).free)

/-- The words of the spec for the left merge of a block at `b` of size `s`, when `V1` holds the
blocks before it: "if the predecessor block exists and is free, absorb the current block into
it: the predecessor's size grows by the header size and the current size, the current block is
spliced out, and the current block becomes the predecessor". The result is the blocks left
before the current block, then its address and its size. -/
def mergeLeft (H : Nat) (V1 : List (Nat × Nat × Bool)) (b s : Nat) :
    List (Nat × Nat × Bool) × Nat × Nat :=
  match V1.getLast? with
  | some (q, sq, true) => (V1.dropLast, q, sq + H + s)
  | _ => (V1, b, s)

/-- The words of the spec for the right merge of the free block at `c` of size `sc`, when `V2`
holds the blocks after it: "if the successor exists and is free, absorb the successor into the
current block: its size grows by the header size and the successor's size, and the successor is
spliced out". The result is the current block followed by the blocks left after it. -/
def mergeRight (H : Nat) (c sc : Nat) (V2 : List (Nat × Nat × Bool)) :
    List (Nat × Nat × Bool) :=
  match V2 with
  | (_, sz, true) :: V2' => (c, sc + H + sz, true) :: V2'
  | _ => (c, sc, true) :: V2

/-- The block list the spec asks for after `free` of the block at `b` of size `s`, when `V1` holds
the blocks before it and `V2` the blocks after it. -/
def coalesced (H : Nat) (V1 : List (Nat × Nat × Bool)) (b s : Nat)
    (V2 : List (Nat × Nat × Bool)) : List (Nat × Nat × Bool) :=
  (mergeLeft H V1 b s).1 ++
    mergeRight H (mergeLeft H V1 b s).2.1 (mergeLeft H V1 b s).2.2 V2

/-- Whether the last block of `V1` is free. -/
def leftFree (V1 : List (Nat × Nat × Bool)) : Bool :=
  match V1.getLast? with
  | some (_, _, f) => f
  | none => false

/-- Whether the first block of `V2` is free. -/
def rightFree (V2 : List (Nat × Nat × Bool)) : Bool :=
  match V2.head? with
  | some (_, _, f) => f
  | none => false

/-- The number of neighbours, 0, 1 or 2, that a block between `V1` and `V2` absorbs when it is
freed. -/
def absorbedCount (V1 V2 : List (Nat × Nat × Bool)) : Nat :=
  (if leftFree V1 = true then 1 else 0) + (if rightFree V2 = true then 1 else 0)

/-- The sum over the blocks of the list of the header size plus the payload size. -/
def heapBytes (H : Nat) (st : State) : Nat :=
  ((view st).map fun b => H + b.2.1).sum

/-- The coalescing scenario: three blocks `A`, `B`, `C` of the same size allocated in order on
the empty heap. -/
def scenarioABC (fit : Fit) (H b0 lim s : Nat) : State :=
  afterMalloc fit H (afterMalloc fit H (afterMalloc fit H (initState b0 lim) s) s) s

/-- The coalescing scenario after `free(B)` and `free(A)`. -/
def scenarioBA (fit : Fit) (H b0 lim s : Nat) : State :=
  afterFree H (afterFree H (scenarioABC fit H b0 lim s) (b0 + (H + ALIGN4 s) + H)) (b0 + H)

/-- The coalescing scenario after `free(B)`, `free(A)` and `free(C)`. -/
def scenarioBAC (fit : Fit) (H b0 lim s : Nat) : State :=
  afterFree H (scenarioBA fit H b0 lim s) (b0 + 2 * (H + ALIGN4 s) + H)

/-- First-fit run, step 1: `A = malloc(8)` on the empty heap, which returns 1032. -/
def firstRun1 : State := afterMalloc Fit.first 32 heap0 8

/-- First-fit run, step 2: `B = malloc(8)`, which returns 1072. -/
def firstRun2 : State := afterMalloc Fit.first 32 firstRun1 8

/-- First-fit run, step 3: `C = malloc(8)`, which returns 1112. -/
def firstRun3 : State := afterMalloc Fit.first 32 firstRun2 8

/-- First-fit run, step 4: `free(B)`. -/
def firstRun4 : State := afterFree 32 firstRun3 1072

/-- A heap with one free block of size 100: `malloc(100)` on the empty heap, then `free`. -/
def oneFree : State := afterFree 32 (afterMalloc Fit.first 32 heap0 100) 1032

/-- First-fit run, after `A = malloc(8)` and a store of the byte 7 at `A + 1`. -/
def firstRun1w : State :=
  { firstRun1 with bytes := fun y => if y = 1033 then 7 else firstRun1.bytes y }

/-- Best-fit run, step 1: `A = malloc(8)` on the empty heap, which returns 1032. -/
def bestRun1 : State := afterMalloc Fit.best 32 heap0 8

/-- Best-fit run, step 2: `B = malloc(24)`, which returns 1072. -/
def bestRun2 : State := afterMalloc Fit.best 32 bestRun1 24

/-- Best-fit run, step 3: `C = malloc(8)`, which returns 1128. -/
def bestRun3 : State := afterMalloc Fit.best 32 bestRun2 8

/-- Best-fit run, step 4: `D = malloc(16)`, which returns 1168. -/
def bestRun4 : State := afterMalloc Fit.best 32 bestRun3 16

/-- Best-fit run, step 5: `E = malloc(8)`, which returns 1216. -/
def bestRun5 : State := afterMalloc Fit.best 32 bestRun4 8

/-- Best-fit run, step 6: `free(B)`. -/
def bestRun6 : State := afterFree 32 bestRun5 1072

/-- Best-fit run, step 7: `free(D)`; the list is `A`, `B` (free, 24 bytes), `C`, `D` (free, 16
bytes), `E`. -/
def bestRun7 : State := afterFree 32 bestRun6 1168

/-- Whether an operation ran out of its bound on the number of loop iterations. -/
def Outcome.isDiverge {α : Type} (o : Outcome α) : Bool :=
  match o with
  | Outcome.diverge => true
  | _ => false

/-- Next-fit run, after step 5 (`A`, `B`, `C` in use, the cursor on `B`): one more `malloc(8)`,
which grows the heap. -/
def nextGrow : State := afterMalloc Fit.next 32 nextRun5 8

/-- The split threshold scenario, step 2: `malloc(1000)` on the empty heap, then `free` of the
pointer it returned. -/
def splitScenarioFreed (fit : Fit) (H b0 lim : Nat) : State :=
  afterFree H (afterMalloc fit H (initState b0 lim) 1000) (b0 + H)

/-- The split threshold scenario, step 3: `malloc(10)` after that. -/
def splitScenario (fit : Fit) (H b0 lim : Nat) : State :=
  afterMalloc fit H (splitScenarioFreed fit H b0 lim) 10

/-- The step of the next-fit scan: `curr->next ? curr->next : heapList`. -/
def nextStep (mem : Nat → Block) (heapList x : Nat) : Nat :=
  if (mem x).next ≠ 0 then (mem x).next else heapList

/-- The blocks `o` are the ones the next-fit scan visits after `cur`, in order, before it is
back at the cursor `la`: each is the step of the one before, none is the cursor, and the step
of the last one is the cursor. -/
def CycChain (mem : Nat → Block) (heapList la : Nat) : Nat → List Nat → Prop
  | cur, [] => nextStep mem heapList cur = la
  | cur, y :: o => nextStep mem heapList cur = y ∧ y ≠ la ∧ CycChain mem heapList la y o

/-- The states reached from the empty heap (break at `b0`, limit `lim`) by any sequence of
valid calls, with no bound on the sizes requested: every call returns, every size is a
`size_t`, and the pointer given to `free` or `realloc` is null or live. Between two calls the
caller may store a byte anywhere in the payload of a live block. -/
inductive Run (fit : Fit) (H b0 lim : Nat) : State → Prop where
  | init : Run fit H b0 lim (initState b0 lim)
  | malloc {st st' : State} {s p : Nat} :
      Run fit H b0 lim st → s < W →
      Malloc.malloc fit H st s = Outcome.ret p st' → Run fit H b0 lim st'
  | calloc {st st' : State} {n s p : Nat} :
      Run fit H b0 lim st → n < W → s < W →
      Malloc.calloc fit H st n s = Outcome.ret p st' → Run fit H b0 lim st'
  | realloc {st st' : State} {p s q : Nat} :
      Run fit H b0 lim st → (p = 0 ∨ Live H st p) → s < W →
      Malloc.realloc fit H st p s = Outcome.ret q st' → Run fit H b0 lim st'
  | free {st st' : State} {p : Nat} :
      Run fit H b0 lim st → (p = 0 ∨ Live H st p) →
      Malloc.free H st p = Outcome.ret () st' → Run fit H b0 lim st'
  | write {st : State} {p x v : Nat} :
      Run fit H b0 lim st → Live H st p → p ≤ x →
      x < p + (st.mem (BLOCK_HEADER H p)).size →
      Run fit H b0 lim { st with bytes := fun y => if y = x then v else st.bytes y }

/-- The request size `2 ^ 64 - 32`: with the header size 32, `sizeof(struct _block) + size`
wraps to 0. -/
def bigSize : Nat := 18446744073709551584

/-- Wrap-around run (first-fit, header size 32), step 2: after `A = malloc(8)`, the call
`malloc(2 ^ 64 - 32)`, which returns 1072 and leaves the break at 1040. -/
def wrapRun2 : State := afterMalloc Fit.first 32 firstRun1 bigSize

/-- Wrap-around run, step 3: `malloc(8)`, which returns 1072 again. -/
def wrapRun3 : State := afterMalloc Fit.first 32 wrapRun2 8

/-- Wrap-around run, step 4: `malloc(8)`, which returns 1112. -/
def wrapRun4 : State := afterMalloc Fit.first 32 wrapRun3 8

/-- Wrap-around run, after step 4: `free(1072)`. -/
def wrapRun5 : State := afterFree 32 wrapRun4 1072

/-- Wrap-around run, after step 3: `free(1032)`. -/
def wrapFree1 : State := afterFree 32 wrapRun3 1032

/-- Wrap-around run, after step 3: `free(1032)`, then `free(1072)`. -/
def wrapFree2 : State := afterFree 32 wrapFree1 1072

/-- Merge run (first-fit, header size 32), step 2: `A = malloc(8)`, then `free(A)`. -/
def mergeRun2 : State := afterFree 32 firstRun1 1032

/-- Merge run, step 3: `p = malloc(2 ^ 64 - 32)`, which returns 1072. -/
def mergeRun3 : State := afterMalloc Fit.first 32 mergeRun2 bigSize

/-- Merge run, step 4: `free(p)`. -/
def mergeRun4 : State := afterFree 32 mergeRun3 1072

/-- Merge run, step 5: the second `malloc(2 ^ 64 - 32)`. -/
def mergeRun5 : State := afterMalloc Fit.first 32 mergeRun4 bigSize

/-- Split run (first-fit, header size 32), step 2: after `A = malloc(8)`, the call
`p = malloc(2 ^ 64 - 4)`, which returns 1072 and moves the break to 1068. -/
def splitRun2 : State := afterMalloc Fit.first 32 firstRun1 18446744073709551612

/-- Split run, step 3: `free(p)`. -/
def splitRun3 : State := afterFree 32 splitRun2 1072

/-- Split run, step 4: `malloc(2 ^ 64 - 4)` again. -/
def splitRun4 : State := afterMalloc Fit.first 32 splitRun3 18446744073709551612

theorem firstLoop_sound (mem : Nat → Block) (size : Nat) :
    ∀ (fuel curr last r l : Nat), firstLoop mem size fuel curr last = some (r, l) →
      r ≠ 0 → (mem r).free = true ∧ size ≤ (mem r).size := by
  intro fuel
  induction fuel with
  | zero => intro curr last r l h; simp [firstLoop] at h
  | succ n ih =>
    intro curr last r l h hr
    unfold firstLoop at h
    split at h
    · exact ih _ _ _ _ h hr
    · rename_i hc
      simp only [Option.some.injEq, Prod.mk.injEq] at h
      obtain ⟨rfl, rfl⟩ := h
      by_contra hcon
      exact hc ⟨hr, fun hh => hcon ⟨hh.1, hh.2⟩⟩

theorem bestLoop_sound (mem : Nat → Block) (size : Nat) :
    ∀ (fuel curr last bb ss r l : Nat), bestLoop mem size fuel curr last bb ss = some (r, l) →
      (bb ≠ 0 → (mem bb).free = true ∧ size ≤ (mem bb).size) →
      r ≠ 0 → (mem r).free = true ∧ size ≤ (mem r).size := by
  intro fuel
  induction fuel with
  | zero => intro curr last bb ss r l h; simp [bestLoop] at h
  | succ n ih =>
    intro curr last bb ss r l h hbb hr
    unfold bestLoop at h
    split at h
    · split at h
      · rename_i hc
        exact ih _ _ _ _ _ _ h (fun _ => ⟨hc.1, hc.2.1⟩) hr
      · exact ih _ _ _ _ _ _ h hbb hr
    · simp only [Option.some.injEq, Prod.mk.injEq] at h
      obtain ⟨rfl, rfl⟩ := h
      exact hbb hr

theorem worstLoop_sound (mem : Nat → Block) (size : Nat) :
    ∀ (fuel curr last bb ss r l : Nat), worstLoop mem size fuel curr last bb ss = some (r, l) →
      (bb ≠ 0 → (mem bb).free = true ∧ size ≤ (mem bb).size) →
      r ≠ 0 → (mem r).free = true ∧ size ≤ (mem r).size := by
  intro fuel
  induction fuel with
  | zero => intro curr last bb ss r l h; simp [worstLoop] at h
  | succ n ih =>
    intro curr last bb ss r l h hbb hr
    unfold worstLoop at h
    split at h
    · split at h
      · rename_i hc
        exact ih _ _ _ _ _ _ h (fun _ => ⟨hc.1, hc.2.1⟩) hr
      · exact ih _ _ _ _ _ _ h hbb hr
    · simp only [Option.some.injEq, Prod.mk.injEq] at h
      obtain ⟨rfl, rfl⟩ := h
      exact hbb hr

/-- Whatever the policy and the state, `findFreeBlock` writes no header, and a block it
returns is free and large enough. -/
theorem findFreeBlock_sound (fit : Fit) (st st1 : State) (last size next last1 : Nat)
    (h : findFreeBlock fit st last size = Outcome.ret (next, last1) st1) :
    st1.mem = st.mem ∧ st1.bytes = st.bytes ∧ st1.heapList = st.heapList ∧ st1.ctr = st.ctr ∧
      st1.brk = st.brk ∧ st1.limit = st.limit ∧
      st1.atexit_registered = st.atexit_registered ∧
      (next ≠ 0 → (st.mem next).free = true ∧ size ≤ (st.mem next).size) := by
  cases fit with
  | first =>
    simp only [findFreeBlock] at h
    split at h
    · cases h
    · rename_i r hr
      cases h
      exact ⟨rfl, rfl, rfl, rfl, rfl, rfl, rfl, firstLoop_sound _ _ _ _ _ _ _ hr⟩
  | best =>
    simp only [findFreeBlock] at h
    split at h
    · cases h
    · rename_i r hr
      cases h
      exact ⟨rfl, rfl, rfl, rfl, rfl, rfl, rfl,
        bestLoop_sound _ _ _ _ _ _ _ _ _ hr (fun h0 => absurd rfl h0)⟩
  | worst =>
    simp only [findFreeBlock] at h
    split at h
    · cases h
    · rename_i r hr
      cases h
      exact ⟨rfl, rfl, rfl, rfl, rfl, rfl, rfl,
        worstLoop_sound _ _ _ _ _ _ _ _ _ hr (fun h0 => absurd rfl h0)⟩
  | next =>
    simp only [findFreeBlock] at h
    split at h
    · cases h
      exact ⟨rfl, rfl, rfl, rfl, rfl, rfl, rfl, fun h0 => absurd rfl h0⟩
    · split at h
      · cases h
      · rename_i c l1 la1 hr
        cases h
        refine ⟨rfl, rfl, rfl, rfl, rfl, rfl, rfl, ?_⟩
        intro hne
        split at hne
        · exact absurd rfl hne
        · rename_i hc
          rw [if_neg hc]
          push_neg at hc
          refine ⟨?_, hc.2⟩
          cases hf : (st.mem c).free
          · exact absurd hf hc.1
          · rfl

theorem ALIGN4_zero : ALIGN4 0 = 0 := by decide

theorem ALIGN4_eq_roundUp4 (s : Nat) (h0 : 0 < s) (h1 : s + 4 ≤ W) : ALIGN4 s = roundUp4 s := by
  unfold ALIGN4 roundUp4 W at *
  omega

theorem ALIGN4_big (s : Nat) (h1 : W < s + 4) (h2 : s < W) : ALIGN4 s = 0 := by
  unfold ALIGN4 W at *
  omega

theorem ALIGN4_lt (s : Nat) : ALIGN4 s < W := by
  unfold ALIGN4
  exact Nat.mod_lt _ (by decide)

theorem ALIGN4_mod4 (s : Nat) : ALIGN4 s % 4 = 0 := by
  unfold ALIGN4 W
  omega

@[simp] theorem registerAtexit_mem (st : State) : (registerAtexit st).mem = st.mem := by
  unfold registerAtexit; split <;> rfl

@[simp] theorem registerAtexit_bytes (st : State) : (registerAtexit st).bytes = st.bytes := by
  unfold registerAtexit; split <;> rfl

@[simp] theorem registerAtexit_heapList (st : State) :
    (registerAtexit st).heapList = st.heapList := by
  unfold registerAtexit; split <;> rfl

@[simp] theorem registerAtexit_last_allocated (st : State) :
    (registerAtexit st).last_allocated = st.last_allocated := by
  unfold registerAtexit; split <;> rfl

@[simp] theorem registerAtexit_ctr (st : State) : (registerAtexit st).ctr = st.ctr := by
  unfold registerAtexit; split <;> rfl

@[simp] theorem registerAtexit_brk (st : State) : (registerAtexit st).brk = st.brk := by
  unfold registerAtexit; split <;> rfl

@[simp] theorem registerAtexit_limit (st : State) : (registerAtexit st).limit = st.limit := by
  unfold registerAtexit; split <;> rfl

/-- C5: `malloc(0)` returns `NULL`; the header store (every block's size, free flag, next and
prev), the root pointer and every statistics counter are what they were before the call, and
so are the payload bytes, the next-fit cursor and the break. -/
theorem malloc_zero_rejected (fit : Fit) (H : Nat) (st : State) :
    ∃ st', malloc fit H st 0 = Outcome.ret 0 st' ∧ st'.mem = st.mem ∧
      st'.heapList = st.heapList ∧ st'.ctr = st.ctr ∧ st'.bytes = st.bytes ∧
      st'.last_allocated = st.last_allocated ∧ st'.brk = st.brk ∧ st'.limit = st.limit := by
  refine ⟨registerAtexit st, ?_, ?_⟩
  · simp only [malloc, ALIGN4_zero, if_true]
  · simp

/-- When the operating system denies the extension, `growHeap` fails its `assert`: the break
read by `sbrk(0)` is not the sentinel returned by the second call. -/
theorem growHeap_abort_of_denied (H : Nat) (st : State) (last size : Nat)
    (hb : st.brk ≠ W - 1) (hd : (sbrk st ((H + size) % W)).1 = W - 1) :
    growHeap H st last size = Outcome.abort := by
  have h0 : sbrk st 0 = (st.brk, st) := by simp [sbrk]
  simp only [growHeap, h0, hd]
  rw [if_pos hb]

/-- C4 (the code at the failing input): on the empty heap with the break at its limit, where
`sbrk` denies every extension, `malloc(8)` does not return `NULL`: it stops in the failed
`assert(curr == prev)` of `growHeap`, under each of the four policies. -/
theorem malloc_oom_aborts :
    (malloc Fit.first 32 (initState 1000 1000) 8).isAbort = true ∧
    (malloc Fit.best 32 (initState 1000 1000) 8).isAbort = true ∧
    (malloc Fit.worst 32 (initState 1000 1000) 8).isAbort = true ∧
    (malloc Fit.next 32 (initState 1000 1000) 8).isAbort = true ∧
    (sbrk (initState 1000 1000) (32 + 8)).1 = W - 1 := by
  decide

@[simp] theorem setBlock_same (mem : Nat → Block) (a : Nat) (b : Block) :
    setBlock mem a b a = b := by
  simp [setBlock]

theorem setBlock_other (mem : Nat → Block) (a x : Nat) (b : Block) (h : x ≠ a) :
    setBlock mem a b x = mem x := by
  simp [setBlock, h]

theorem sbrk_zero (st : State) : sbrk st 0 = (st.brk, st) := by simp [sbrk]

/-- The ways `growHeap` returns: with `NULL` when the break is the sentinel, or with the old
break after the break has moved by the header and the payload. -/
theorem growHeap_inv (H : Nat) (st st1 : State) (last size b : Nat)
    (h : growHeap H st last size = Outcome.ret b st1) :
    (sbrk st ((H + size) % W)).1 = st.brk ∧
      ((b = 0 ∧ st.brk = W - 1 ∧ st1 = (sbrk st ((H + size) % W)).2) ∨
       (b = st.brk ∧ st.brk ≠ W - 1 ∧
          st1 = growState H (sbrk st ((H + size) % W)).2 last size st.brk)) := by
  simp only [growHeap, sbrk_zero] at h
  split at h
  · cases h
  · rename_i heq
    push_neg at heq
    split at h
    · rename_i hw
      cases h
      exact ⟨heq.symm, Or.inl ⟨rfl, hw, rfl⟩⟩
    · rename_i hw
      cases h
      exact ⟨heq.symm, Or.inr ⟨rfl, hw, rfl⟩⟩

/-- The ways `malloc` returns. -/
theorem malloc_inv (fit : Fit) (H : Nat) (st st' : State) (s p : Nat)
    (h : malloc fit H st s = Outcome.ret p st') :
    (ALIGN4 s = 0 ∧ p = 0 ∧ st' = registerAtexit st) ∨
    (ALIGN4 s ≠ 0 ∧ ∃ next last st1,
      findFreeBlock fit (registerAtexit st) st.heapList (ALIGN4 s) = Outcome.ret (next, last) st1 ∧
      ((next ≠ 0 ∧ p = BLOCK_DATA H next ∧
          st' = markUsed (maybeSplit H (countReuse st1 next) next (ALIGN4 s)) next (ALIGN4 s)) ∨
       (next = 0 ∧ ∃ n1 st4, growHeap H st1 last (ALIGN4 s) = Outcome.ret n1 st4 ∧
          ((n1 = 0 ∧ p = 0 ∧ st' = st4) ∨
           (n1 ≠ 0 ∧ p = BLOCK_DATA H n1 ∧ st' = markUsed st4 n1 (ALIGN4 s)))))) := by
  simp only [malloc, registerAtexit_heapList] at h
  split at h
  · rename_i h0
    cases h
    exact Or.inl ⟨h0, rfl, rfl⟩
  · rename_i h0
    refine Or.inr ⟨h0, ?_⟩
    split at h
    · cases h
    · cases h
    · rename_i next last st1 hf
      refine ⟨next, last, st1, hf, ?_⟩
      by_cases hn : next = 0
      · subst hn
        refine Or.inr ⟨rfl, ?_⟩
        simp only [if_true] at h
        have e1 : countReuse st1 0 = st1 := by simp [countReuse]
        have e2 : maybeSplit H st1 0 (ALIGN4 s) = st1 := by simp [maybeSplit]
        rw [e1, e2] at h
        split at h
        · cases h
        · cases h
        · rename_i n1 st4 hg
          refine ⟨n1, st4, hg, ?_⟩
          split at h
          · rename_i hz
            cases h
            exact Or.inl ⟨hz, rfl, rfl⟩
          · rename_i hz
            cases h
            exact Or.inr ⟨hz, rfl, rfl⟩
      · refine Or.inl ⟨hn, ?_⟩
        simp only [if_neg hn] at h
        cases h
        exact ⟨rfl, rfl⟩

/-- The ways `free` returns. -/
theorem free_inv (H : Nat) (st st' : State) (ptr : Nat)
    (h : free H st ptr = Outcome.ret () st') :
    (ptr = 0 ∧ st' = st) ∨
    (ptr ≠ 0 ∧ (st.mem (BLOCK_HEADER H ptr)).free = false ∧
      st' = countFree (coalesceNext H
        (coalescePrev H (markFree st (BLOCK_HEADER H ptr)) (BLOCK_HEADER H ptr)).2
        (coalescePrev H (markFree st (BLOCK_HEADER H ptr)) (BLOCK_HEADER H ptr)).1)) := by
  simp only [free] at h
  split at h
  · rename_i h0
    cases h
    exact Or.inl ⟨h0, rfl⟩
  · rename_i h0
    split at h
    · cases h
    · rename_i hf
      cases h
      refine Or.inr ⟨h0, ?_, rfl⟩
      simpa using hf

@[simp] theorem markUsed_mem_same (st : State) (b size : Nat) :
    (markUsed st b size).mem b = { st.mem b with free := false } := by
  simp [markUsed]

theorem splitBlock_size (H : Nat) (st : State) (next size : Nat) :
    ((splitBlock H st next size).mem next).size = size := by
  simp [splitBlock]

theorem growState_size (H : Nat) (st : State) (last size curr : Nat) :
    ((growState H st last size curr).mem curr).size = size := by
  simp [growState]

/-- C6 (amended): when `malloc(s)` returns a non-null pointer for `0 < s`, the pointer is the
payload address of a block `b` that is in use and whose recorded size is at least `s` rounded
up to the next multiple of 4. The size is equal to it, unless `b` was a free block of the state
before the call whose size does not exceed the aligned request plus the header size plus 4 (as
computed in `size_t`); such a block is handed out whole, with the size it had. -/
theorem malloc_usable_size (fit : Fit) (H : Nat) (st st' : State) (s p : Nat)
    (hs : 0 < s) (hw : s < W) (h : malloc fit H st s = Outcome.ret p st') (hp : p ≠ 0) :
    ∃ b, b ≠ 0 ∧ p = BLOCK_DATA H b ∧ (st'.mem b).free = false ∧
      roundUp4 s ≤ (st'.mem b).size ∧
      ((st'.mem b).size = roundUp4 s ∨
        ((st.mem b).free = true ∧ (st'.mem b).size = (st.mem b).size ∧
          ¬ (st.mem b).size > (roundUp4 s + H + 4) % W)) := by
  have hA : ALIGN4 s ≠ 0 → ALIGN4 s = roundUp4 s := by
    intro hne
    by_cases h4 : s + 4 ≤ W
    · exact ALIGN4_eq_roundUp4 s hs h4
    · exact absurd (ALIGN4_big s (by omega) hw) hne
  rcases malloc_inv _ _ _ _ _ _ h with ⟨-, hp0, -⟩ | ⟨hne, next, last, st1, hf, hcase⟩
  · exact absurd hp0 hp
  · have hr := hA hne
    obtain ⟨hmem, -, -, -, -, -, -, hfit⟩ := findFreeBlock_sound _ _ _ _ _ _ _ hf
    rw [registerAtexit_mem] at hmem hfit
    rcases hcase with ⟨hn, rfl, rfl⟩ | ⟨-, n1, st4, hg, hc⟩
    · obtain ⟨hfree, hsz⟩ := hfit hn
      refine ⟨next, hn, rfl, by simp, ?_⟩
      by_cases hsp : (st.mem next).size > (ALIGN4 s + H + 4) % W
      · have e : maybeSplit H (countReuse st1 next) next (ALIGN4 s)
            = splitBlock H (countReuse st1 next) next (ALIGN4 s) := by
          simp [maybeSplit, countReuse, hn, hmem, hsp]
        rw [e]
        simp [splitBlock_size, hr]
      · have e : (maybeSplit H (countReuse st1 next) next (ALIGN4 s)).mem = st.mem := by
          simp [maybeSplit, countReuse, hn, hmem, hsp]
        simp only [markUsed_mem_same, e]
        rw [hr] at hsz hsp
        exact ⟨hsz, Or.inr ⟨hfree, trivial, hsp⟩⟩
    · rcases hc with ⟨-, rfl, -⟩ | ⟨hn1, rfl, rfl⟩
      · exact absurd rfl hp
      · rcases (growHeap_inv _ _ _ _ _ _ hg).2 with ⟨h0, -, -⟩ | ⟨hb, -, rfl⟩
        · exact absurd h0 hn1
        · subst hb
          refine ⟨st1.brk, hn1, rfl, by simp, ?_⟩
          simp [growState_size, hr]

/-- An operation whose value is known returned, with the state `stateD` reads off. -/
theorem Outcome.eq_ret_of_val {α : Type} (o : Outcome α) (v : α) (d : State)
    (h : o.val? = some v) : o = Outcome.ret v (o.stateD d) := by
  cases o with
  | ret val st => simp only [Outcome.val?, Option.some.injEq] at h; subst h; rfl
  | abort => simp [Outcome.val?] at h
  | diverge => simp [Outcome.val?] at h

/-- Witness of `malloc_usable_size`: `malloc(8)` on the empty heap. -/
theorem malloc_usable_size_witness :
    ∃ b, b ≠ 0 ∧ 1032 = BLOCK_DATA 32 b ∧
      (((malloc Fit.first 32 (initState 1000 100000) 8).stateD (initState 0 0)).mem b).free
        = false ∧
      roundUp4 8 ≤ (((malloc Fit.first 32 (initState 1000 100000) 8).stateD
        (initState 0 0)).mem b).size ∧
      ((((malloc Fit.first 32 (initState 1000 100000) 8).stateD (initState 0 0)).mem b).size
          = roundUp4 8 ∨
        (((initState 1000 100000).mem b).free = true ∧
          (((malloc Fit.first 32 (initState 1000 100000) 8).stateD (initState 0 0)).mem b).size
            = ((initState 1000 100000).mem b).size ∧
          ¬ ((initState 1000 100000).mem b).size > (roundUp4 8 + 32 + 4) % W)) :=
  malloc_usable_size Fit.first 32 (initState 1000 100000) _ 8 1032 (by decide) (by decide)
    (Outcome.eq_ret_of_val _ _ _ (by decide)) (by decide)

/-- C6 (counterexample): after `malloc(100)` and `free` on the empty heap, `malloc(80)`
succeeds, and the size recorded in the header of the block it returns is 100, not 80: the
free block of size 100 is too small to be split and is handed out whole. -/
theorem usable_size_counterexample :
    ∃ p st', malloc Fit.first 32 reuseWholeState 80 = Outcome.ret p st' ∧ p ≠ 0 ∧
      (st'.mem (BLOCK_HEADER 32 p)).size = 100 ∧ roundUp4 80 = 80 ∧
      (st'.mem (BLOCK_HEADER 32 p)).size ≠ roundUp4 80 :=
  ⟨1032, (malloc Fit.first 32 reuseWholeState 80).stateD (initState 0 0),
    Outcome.eq_ret_of_val _ _ _ (by decide), by decide, by decide, by decide, by decide⟩

/-! ## Linked segments -/

theorem Seg_congr (H : Nat) (mem mem' : Nat → Block) :
    ∀ (l : List Nat) (p n e : Nat), (∀ x ∈ l, mem' x = mem x) →
      Seg H mem p l n e → Seg H mem' p l n e := by
  intro l
  induction l with
  | nil => intro p n e _ _; trivial
  | cons x l ih =>
    intro p n e hag h
    obtain ⟨h0, h1, h2, h3, h4⟩ := h
    have hx : mem' x = mem x := hag x (List.mem_cons_self _ _)
    refine ⟨h0, ?_, ?_, ?_, ih _ _ _ (fun y hy => hag y (List.mem_cons_of_mem _ hy)) h4⟩
    · rw [hx]; exact h1
    · rw [hx]; exact h2
    · rw [hx]; exact h3

theorem Seg_append (H : Nat) (mem : Nat → Block) :
    ∀ (l1 l2 : List Nat) (p n e : Nat),
      Seg H mem p (l1 ++ l2) n e ↔
        Seg H mem p l1 (l2.headD n) (l2.headD e) ∧ Seg H mem (l1.getLastD p) l2 n e := by
  intro l1
  induction l1 with
  | nil => intro l2 p n e; simp [Seg]
  | cons x l ih =>
    intro l2 p n e
    have hh : ∀ d : Nat, (l ++ l2).headD d = l.headD (l2.headD d) := by
      intro d; cases l <;> simp
    have hl : (x :: l).getLastD p = l.getLastD x := by
      cases l <;> simp [List.getLastD]
    rw [List.cons_append]
    show (0 < x ∧ (mem x).prev = p ∧ (mem x).next = (l ++ l2).headD n ∧
        x + H + (mem x).size = (l ++ l2).headD e ∧ Seg H mem x (l ++ l2) n e) ↔
      (0 < x ∧ (mem x).prev = p ∧ (mem x).next = l.headD (l2.headD n) ∧
        x + H + (mem x).size = l.headD (l2.headD e) ∧
        Seg H mem x l (l2.headD n) (l2.headD e)) ∧ Seg H mem ((x :: l).getLastD p) l2 n e
    rw [ih, hh, hh, hl]
    tauto

theorem Seg_end_le (H : Nat) (mem : Nat → Block) :
    ∀ (l : List Nat) (p n e : Nat), Seg H mem p l n e →
      ∀ x ∈ l, x + H + (mem x).size ≤ e ∧ l.headD e ≤ x := by
  intro l
  induction l with
  | nil => intro p n e _ x hx; simp at hx
  | cons y l ih =>
    intro p n e h x hx
    obtain ⟨h0, h1, h2, h3, h4⟩ := h
    have ihl := ih _ _ _ h4
    have hye : y + H + (mem y).size ≤ e := by
      cases l with
      | nil => simpa using h3.le
      | cons z l' =>
        have := (ihl z (List.mem_cons_self _ _)).1
        simp only [List.headD_cons] at h3
        omega
    rcases List.mem_cons.1 hx with rfl | hxl
    · exact ⟨hye, by simp⟩
    · obtain ⟨a1, a2⟩ := ihl x hxl
      refine ⟨a1, ?_⟩
      simp only [List.headD_cons]
      cases l with
      | nil => simp at hxl
      | cons z l' =>
        simp only [List.headD_cons] at h3 a2
        omega

theorem Seg_head_lt (H : Nat) (mem : Nat → Block) (x : Nat) (l : List Nat)
    (p n e : Nat) (h : Seg H mem p (x :: l) n e) : ∀ y ∈ l, x + H + (mem x).size ≤ y := by
  intro y hy
  obtain ⟨h0, h1, h2, h3, h4⟩ := h
  have := (Seg_end_le H mem l _ _ _ h4 y hy).2
  omega

theorem Seg_sorted (H : Nat) (mem : Nat → Block) (hH : 0 < H) :
    ∀ (l : List Nat) (p n e : Nat), Seg H mem p l n e → l.Pairwise (· < ·) := by
  intro l
  induction l with
  | nil => intro p n e _; exact List.Pairwise.nil
  | cons x l ih =>
    intro p n e h
    refine List.Pairwise.cons ?_ (ih _ _ _ h.2.2.2.2)
    intro y hy
    have := Seg_head_lt H mem x l p n e h y hy
    omega

theorem Seg_nodup (H : Nat) (mem : Nat → Block) (hH : 0 < H) (l : List Nat) (p n e : Nat)
    (h : Seg H mem p l n e) : l.Nodup :=
  (Seg_sorted H mem hH l p n e h).imp (fun hab => Nat.ne_of_lt hab)

theorem Seg_pos (H : Nat) (mem : Nat → Block) :
    ∀ (l : List Nat) (p n e : Nat), Seg H mem p l n e → ∀ x ∈ l, 0 < x := by
  intro l
  induction l with
  | nil => intro p n e _ x hx; simp at hx
  | cons y l ih =>
    intro p n e h x hx
    rcases List.mem_cons.1 hx with rfl | hxl
    · exact h.1
    · exact ih _ _ _ h.2.2.2.2 x hxl

theorem Seg_length (H : Nat) (mem : Nat → Block) (hH : 0 < H) :
    ∀ (l : List Nat) (p n e : Nat), Seg H mem p l n e → l.headD e + l.length ≤ e := by
  intro l
  induction l with
  | nil => intro p n e _; simp
  | cons x l ih =>
    intro p n e h
    obtain ⟨h0, h1, h2, h3, h4⟩ := h
    have := ih _ _ _ h4
    simp only [List.headD_cons, List.length_cons]
    omega

theorem Seg_path (H : Nat) (mem : Nat → Block) :
    ∀ (l : List Nat) (p e : Nat), Seg H mem p l 0 e → Path mem (l.headD 0) l := by
  intro l
  induction l with
  | nil => intro p e _; simp [Path]
  | cons x l ih =>
    intro p e h
    obtain ⟨h0, h1, h2, h3, h4⟩ := h
    refine ⟨rfl, by omega, ?_⟩
    rw [h2]
    exact ih _ _ h4

theorem NoAdjFree_congr (mem mem' : Nat → Block) :
    ∀ (l : List Nat), (∀ x ∈ l, (mem' x).free = (mem x).free) →
      NoAdjFree mem l → NoAdjFree mem' l := by
  intro l
  induction l with
  | nil => intro _ _; trivial
  | cons x l ih =>
    intro hag h
    cases l with
    | nil => trivial
    | cons y l' =>
      obtain ⟨h1, h2⟩ := h
      refine ⟨?_, ih (fun z hz => hag z (List.mem_cons_of_mem _ hz)) h2⟩
      rw [hag x (List.mem_cons_self _ _), hag y (List.mem_cons_of_mem _ (List.mem_cons_self _ _))]
      exact h1

/-! ## The loops of `findFreeBlock` on a linked list -/

theorem chainFrom_path (mem : Nat → Block) :
    ∀ (l : List Nat) (c fuel : Nat), Path mem c l → l.length ≤ fuel →
      chainFrom mem fuel c = l := by
  intro l
  induction l with
  | nil =>
    intro c fuel h _
    simp only [Path] at h
    subst h
    cases fuel <;> simp [chainFrom]
  | cons x l ih =>
    intro c fuel h hf
    obtain ⟨rfl, hx, hp⟩ := h
    cases fuel with
    | zero => simp at hf
    | succ k =>
      simp only [chainFrom, if_neg hx]
      rw [ih _ _ hp (by simpa using hf)]

theorem firstLoop_path (mem : Nat → Block) (size : Nat) :
    ∀ (l : List Nat) (c last fuel : Nat), Path mem c l → l.length < fuel →
      ∃ r last', firstLoop mem size fuel c last = some (r, last') ∧
        ((r = 0 ∧ (∀ x ∈ l, ¬ Fits mem size x) ∧ last' = l.getLastD last) ∨
         (∃ l1 l2, l = l1 ++ r :: l2 ∧ (∀ x ∈ l1, ¬ Fits mem size x) ∧ Fits mem size r ∧
            last' = l1.getLastD last)) := by
  intro l
  induction l with
  | nil =>
    intro c last fuel h hf
    simp only [Path] at h
    subst h
    cases fuel with
    | zero => simp at hf
    | succ k =>
      refine ⟨0, last, by simp [firstLoop], Or.inl ⟨rfl, by simp, rfl⟩⟩
  | cons x l ih =>
    intro c last fuel h hf
    obtain ⟨rfl, hx, hp⟩ := h
    cases fuel with
    | zero => simp at hf
    | succ k =>
      by_cases hfit : Fits mem size c
      · refine ⟨c, last, ?_, Or.inr ⟨[], l, rfl, by simp, hfit, rfl⟩⟩
        have : ¬ (c ≠ 0 ∧ ¬ ((mem c).free = true ∧ (mem c).size ≥ size)) := by
          intro hh; exact hh.2 hfit
        simp only [firstLoop, if_neg this]
      · have hc : c ≠ 0 ∧ ¬ ((mem c).free = true ∧ (mem c).size ≥ size) := ⟨hx, hfit⟩
        obtain ⟨r, last', he, hres⟩ := ih (mem c).next c k hp (by simpa using hf)
        refine ⟨r, last', ?_, ?_⟩
        · simp only [firstLoop, if_pos hc]; exact he
        · rcases hres with ⟨h0, hall, hl⟩ | ⟨l1, l2, hl, hall, hr, hlast⟩
          · refine Or.inl ⟨h0, ?_, ?_⟩
            · intro y hy
              rcases List.mem_cons.1 hy with rfl | hy'
              · exact hfit
              · exact hall y hy'
            · rw [hl]; cases l <;> simp [List.getLastD]
          · refine Or.inr ⟨c :: l1, l2, by simp [hl], ?_, hr, ?_⟩
            · intro y hy
              rcases List.mem_cons.1 hy with rfl | hy'
              · exact hfit
              · exact hall y hy'
            · rw [hlast]; cases l1 <;> simp [List.getLastD]

theorem bestLoop_path (mem : Nat → Block) (size : Nat) :
    ∀ (l : List Nat) (c last fuel bb ss : Nat), Path mem c l → l.length < fuel →
      bestLoop mem size fuel c last bb ss =
        some ((bestScan mem size l (bb, ss)).1, l.getLastD last) := by
  intro l
  induction l with
  | nil =>
    intro c last fuel bb ss h hf
    simp only [Path] at h
    subst h
    cases fuel with
    | zero => simp at hf
    | succ k => simp [bestLoop, bestScan]
  | cons x l ih =>
    intro c last fuel bb ss h hf
    obtain ⟨rfl, hx, hp⟩ := h
    have hl : (c :: l).getLastD last = l.getLastD c := by cases l <;> simp [List.getLastD]
    cases fuel with
    | zero => simp at hf
    | succ k =>
      simp only [bestLoop, bestScan, if_pos hx, hl]
      split
      · exact ih _ _ _ _ _ hp (by simpa using hf)
      · exact ih _ _ _ _ _ hp (by simpa using hf)

theorem worstLoop_path (mem : Nat → Block) (size : Nat) :
    ∀ (l : List Nat) (c last fuel bb ss : Nat), Path mem c l → l.length < fuel →
      worstLoop mem size fuel c last bb ss =
        some ((worstScan mem size l (bb, ss)).1, l.getLastD last) := by
  intro l
  induction l with
  | nil =>
    intro c last fuel bb ss h hf
    simp only [Path] at h
    subst h
    cases fuel with
    | zero => simp at hf
    | succ k => simp [worstLoop, worstScan]
  | cons x l ih =>
    intro c last fuel bb ss h hf
    obtain ⟨rfl, hx, hp⟩ := h
    have hl : (c :: l).getLastD last = l.getLastD c := by cases l <;> simp [List.getLastD]
    cases fuel with
    | zero => simp at hf
    | succ k =>
      simp only [worstLoop, worstScan, if_pos hx, hl]
      split
      · exact ih _ _ _ _ _ hp (by simpa using hf)
      · exact ih _ _ _ _ _ hp (by simpa using hf)

theorem bestScan_spec (mem : Nat → Block) (size : Nat) :
    ∀ (l : List Nat) (bb ss : Nat),
      ((∀ x ∈ l, ¬ (Fits mem size x ∧ (mem x).size < ss)) ∧
          bestScan mem size l (bb, ss) = (bb, ss)) ∨
      (∃ r, (bestScan mem size l (bb, ss)) = (r, (mem r).size) ∧ r ∈ l ∧ Fits mem size r ∧
          (mem r).size < ss ∧ ∀ x ∈ l, Fits mem size x → (mem r).size ≤ (mem x).size) := by
  intro l
  induction l with
  | nil => intro bb ss; exact Or.inl ⟨by simp, rfl⟩
  | cons y l ih =>
    intro bb ss
    by_cases hc : (mem y).free = true ∧ (mem y).size ≥ size ∧ (mem y).size < ss
    · simp only [bestScan, if_pos hc]
      have hfy : Fits mem size y := ⟨hc.1, hc.2.1⟩
      rcases ih y (mem y).size with ⟨hnone, he⟩ | ⟨r, he, hr, hfr, hlt, hmin⟩
      · refine Or.inr ⟨y, he, List.mem_cons_self _ _, hfy, hc.2.2, ?_⟩
        intro x hx hfx
        rcases List.mem_cons.1 hx with rfl | hx'
        · exact le_refl _
        · have := hnone x hx'
          by_contra hcon
          exact this ⟨hfx, by omega⟩
      · refine Or.inr ⟨r, he, List.mem_cons_of_mem _ hr, hfr, by omega, ?_⟩
        intro x hx hfx
        rcases List.mem_cons.1 hx with rfl | hx'
        · omega
        · exact hmin x hx' hfx
    · simp only [bestScan, if_neg hc]
      rcases ih bb ss with ⟨hnone, he⟩ | ⟨r, he, hr, hfr, hlt, hmin⟩
      · refine Or.inl ⟨?_, he⟩
        intro x hx
        rcases List.mem_cons.1 hx with rfl | hx'
        · intro hh; exact hc ⟨hh.1.1, hh.1.2, hh.2⟩
        · exact hnone x hx'
      · refine Or.inr ⟨r, he, List.mem_cons_of_mem _ hr, hfr, hlt, ?_⟩
        intro x hx hfx
        rcases List.mem_cons.1 hx with rfl | hx'
        · by_contra hcon
          exact hc ⟨hfx.1, hfx.2, by omega⟩
        · exact hmin x hx' hfx

theorem worstScan_spec (mem : Nat → Block) (size : Nat) :
    ∀ (l : List Nat) (bb ss : Nat),
      ((∀ x ∈ l, ¬ (Fits mem size x ∧ (mem x).size > ss)) ∧
          worstScan mem size l (bb, ss) = (bb, ss)) ∨
      (∃ r, (worstScan mem size l (bb, ss)) = (r, (mem r).size) ∧ r ∈ l ∧ Fits mem size r ∧
          (mem r).size > ss ∧ ∀ x ∈ l, Fits mem size x → (mem x).size ≤ (mem r).size) := by
  intro l
  induction l with
  | nil => intro bb ss; exact Or.inl ⟨by simp, rfl⟩
  | cons y l ih =>
    intro bb ss
    by_cases hc : (mem y).free = true ∧ (mem y).size ≥ size ∧ (mem y).size > ss
    · simp only [worstScan, if_pos hc]
      have hfy : Fits mem size y := ⟨hc.1, hc.2.1⟩
      rcases ih y (mem y).size with ⟨hnone, he⟩ | ⟨r, he, hr, hfr, hlt, hmin⟩
      · refine Or.inr ⟨y, he, List.mem_cons_self _ _, hfy, hc.2.2, ?_⟩
        intro x hx hfx
        rcases List.mem_cons.1 hx with rfl | hx'
        · exact le_refl _
        · have := hnone x hx'
          by_contra hcon
          exact this ⟨hfx, by omega⟩
      · refine Or.inr ⟨r, he, List.mem_cons_of_mem _ hr, hfr, by omega, ?_⟩
        intro x hx hfx
        rcases List.mem_cons.1 hx with rfl | hx'
        · omega
        · exact hmin x hx' hfx
    · simp only [worstScan, if_neg hc]
      rcases ih bb ss with ⟨hnone, he⟩ | ⟨r, he, hr, hfr, hlt, hmin⟩
      · refine Or.inl ⟨?_, he⟩
        intro x hx
        rcases List.mem_cons.1 hx with rfl | hx'
        · intro hh; exact hc ⟨hh.1.1, hh.1.2, hh.2⟩
        · exact hnone x hx'
      · refine Or.inr ⟨r, he, List.mem_cons_of_mem _ hr, hfr, hlt, ?_⟩
        intro x hx hfx
        rcases List.mem_cons.1 hx with rfl | hx'
        · by_contra hcon
          exact hc ⟨hfx.1, hfx.2, by omega⟩
        · exact hmin x hx' hfx

theorem getLastD_headD (l : List Nat) (d : Nat) : l.getLastD (l.headD d) = l.getLastD d := by
  cases l <;> simp [List.getLastD]

theorem Inv.length_lt {H : Nat} {st : State} {l : List Nat} (hH : 0 < H) (h : Inv H st l) :
    l.length < st.brk + 1 := by
  have := Seg_length H st.mem hH l _ _ _ h.seg
  omega

theorem Inv.path {H : Nat} {st : State} {l : List Nat} (h : Inv H st l) :
    Path st.mem st.heapList l := by
  rw [h.root]
  exact Seg_path H st.mem l _ _ h.seg

theorem Inv.blockAddrs {H : Nat} {st : State} {l : List Nat} (hH : 0 < H) (h : Inv H st l) :
    blockAddrs st = l :=
  chainFrom_path st.mem l _ _ h.path (Nat.le_of_lt (h.length_lt hH))

theorem Inv.size_lt {H : Nat} {st : State} {l : List Nat} (h : Inv H st l) :
    ∀ x ∈ l, x + H + (st.mem x).size ≤ W / 2 := by
  intro x hx
  have := (Seg_end_le H st.mem l _ _ _ h.seg x hx).1
  have := h.brk_le
  have := h.lim_le
  omega

/-- The Locator on a well-formed heap, under the first-fit, best-fit or worst-fit policy: it
returns, it changes nothing, and either it finds no block, no block of the list fits and
`*last` is the tail of the list (null when the list is empty), or the block it finds is a
block of the list that fits. -/
theorem locate_spec (fit : Fit) (H : Nat) (st : State) (l : List Nat) (size : Nat)
    (hfit : fit ≠ Fit.next) (hH : 0 < H) (hs : 0 < size) (h : Inv H st l) :
    ∃ r last, findFreeBlock fit st st.heapList size = Outcome.ret (r, last) st ∧
      ((r = 0 ∧ (∀ x ∈ l, ¬ Fits st.mem size x) ∧ last = l.getLastD 0) ∨
       (r ∈ l ∧ Fits st.mem size r)) := by
  have hlen := h.length_lt hH
  have hpath := h.path
  have hlast : l.getLastD st.heapList = l.getLastD 0 := by
    rw [h.root]; exact getLastD_headD l 0
  cases fit with
  | next => exact absurd rfl hfit
  | first =>
    obtain ⟨r, last', he, hres⟩ := firstLoop_path st.mem size l _ st.heapList _ hpath hlen
    refine ⟨r, last', by simp [findFreeBlock, he], ?_⟩
    rcases hres with ⟨h0, hall, hl⟩ | ⟨l1, l2, hl, -, hr, -⟩
    · exact Or.inl ⟨h0, hall, by rw [hl, hlast]⟩
    · exact Or.inr ⟨by simp [hl], hr⟩
  | best =>
    have he := bestLoop_path st.mem size l _ st.heapList _ 0 (W - 1) hpath hlen
    refine ⟨(bestScan st.mem size l (0, W - 1)).1, l.getLastD st.heapList,
      by simp only [findFreeBlock, he], ?_⟩
    rcases bestScan_spec st.mem size l 0 (W - 1) with ⟨hnone, hq⟩ | ⟨r, hq, hr, hfr, -, -⟩
    · refine Or.inl ⟨by rw [hq], ?_, hlast⟩
      intro x hx hfx
      have := h.size_lt x hx
      refine hnone x hx ⟨hfx, ?_⟩
      unfold W at *
      omega
    · exact Or.inr ⟨by rw [hq]; exact hr, by rw [hq]; exact hfr⟩
  | worst =>
    have he := worstLoop_path st.mem size l _ st.heapList _ 0 0 hpath hlen
    refine ⟨(worstScan st.mem size l (0, 0)).1, l.getLastD st.heapList,
      by simp only [findFreeBlock, he], ?_⟩
    rcases worstScan_spec st.mem size l 0 0 with ⟨hnone, hq⟩ | ⟨r, hq, hr, hfr, -, -⟩
    · refine Or.inl ⟨by rw [hq], ?_, hlast⟩
      intro x hx hfx
      refine hnone x hx ⟨hfx, ?_⟩
      have := hfx.2
      omega
    · exact Or.inr ⟨by rw [hq]; exact hr, by rw [hq]; exact hfr⟩

/-! ## The header store after a split and after a merge -/

theorem setBlock_apply (mem : Nat → Block) (a x : Nat) (b : Block) :
    setBlock mem a b x = if x = a then b else mem x := rfl

/-- The header store after `splitBlock`, header by header, when the new header `nb`, the
split block `r` and the successor of `r` are distinct. -/
theorem splitBlock_mem (H : Nat) (st : State) (r size nb : Nat)
    (hnb : nb = (BLOCK_DATA H r + size) % W) (h1 : nb ≠ r)
    (h2 : (st.mem r).next ≠ r) (h3 : (st.mem r).next ≠ nb) :
    (splitBlock H st r size).mem = fun x =>
      if x = r then { st.mem r with next := nb, size := size }
      else if x = nb then
        { size := ((st.mem r).size + W - size % W + W - H % W) % W
          free := true
          next := (st.mem r).next
          prev := r }
      else if x = (st.mem r).next ∧ (st.mem r).next ≠ 0 then { st.mem x with prev := nb }
      else st.mem x := by
  funext x
  subst hnb
  have h3' := Ne.symm h3
  have h2' := Ne.symm h2
  have h1' := Ne.symm h1
  simp only [splitBlock, setBlock_apply]
  split_ifs <;> simp_all [setBlock_apply]

theorem coalescePrev_merge (H : Nat) (st : State) (curr : Nat)
    (hp : (st.mem curr).prev ≠ 0) (hf : (st.mem (st.mem curr).prev).free = true)
    (h1 : (st.mem curr).prev ≠ curr) (h2 : (st.mem curr).next ≠ curr)
    (h3 : (st.mem curr).next ≠ (st.mem curr).prev) :
    coalescePrev H st curr = ((st.mem curr).prev,
      { st with
        mem := absorbMem H st.mem (st.mem curr).prev curr
        ctr := countCoalesce st.ctr }) := by
  have h1' := Ne.symm h1
  have h2' := Ne.symm h2
  have h3' := Ne.symm h3
  have hc : (st.mem curr).prev ≠ 0 ∧ (st.mem (st.mem curr).prev).free = true := ⟨hp, hf⟩
  simp only [coalescePrev, if_pos hc, countCoalesce]
  simp only [setBlock_apply, h1, h1', h2, h2', h3, h3', if_false, if_true]
  refine Prod.ext ?_ ?_
  · simp only
    split_ifs <;> simp only [setBlock_apply, h1', h2', if_false]
  · simp only
    congr 1
    funext x
    simp only [absorbMem]
    by_cases hn : (st.mem curr).next = 0
    · simp only [hn, ne_eq, not_true_eq_false, if_false, and_false, setBlock_apply]
      split_ifs <;> rfl
    · simp only [hn, ne_eq, not_false_eq_true, if_true, and_true, setBlock_apply]
      by_cases hx : x = (st.mem curr).next
      · subst hx
        simp only [if_true, h3, if_false]
      · simp only [hx, if_false]
        split_ifs <;> rfl

theorem coalescePrev_skip (H : Nat) (st : State) (curr : Nat)
    (h : ¬ ((st.mem curr).prev ≠ 0 ∧ (st.mem (st.mem curr).prev).free = true)) :
    coalescePrev H st curr = (curr, st) := by
  simp only [coalescePrev, if_neg h]

theorem coalesceNext_merge (H : Nat) (st : State) (curr : Nat)
    (hp : (st.mem curr).next ≠ 0) (hf : (st.mem (st.mem curr).next).free = true)
    (h1 : (st.mem curr).next ≠ curr)
    (h2 : (st.mem (st.mem curr).next).next ≠ curr) :
    coalesceNext H st curr =
      { st with
        mem := absorbMem H st.mem curr (st.mem curr).next
        ctr := countCoalesce st.ctr } := by
  have h1' := Ne.symm h1
  have h2' := Ne.symm h2
  have hc : (st.mem curr).next ≠ 0 ∧ (st.mem (st.mem curr).next).free = true := ⟨hp, hf⟩
  simp only [coalesceNext, if_pos hc, countCoalesce]
  simp only [setBlock_apply, h1, h1', h2, h2', if_false, if_true]
  congr 1
  funext x
  simp only [absorbMem]
  by_cases hn : (st.mem (st.mem curr).next).next = 0
  · simp only [hn, ne_eq, not_true_eq_false, if_false, and_false, setBlock_apply]
    split_ifs <;> rfl
  · simp only [hn, ne_eq, not_false_eq_true, if_true, and_true, setBlock_apply]
    by_cases hx : x = (st.mem (st.mem curr).next).next
    · subst hx
      simp only [if_true, h2, if_false]
    · simp only [hx, if_false]
      split_ifs <;> rfl

theorem coalesceNext_skip (H : Nat) (st : State) (curr : Nat)
    (h : ¬ ((st.mem curr).next ≠ 0 ∧ (st.mem (st.mem curr).next).free = true)) :
    coalesceNext H st curr = st := by
  simp only [coalesceNext, if_neg h]

/-- A merge keeps the list linked: when the block `c` absorbs its successor `y`, the list
without `y` is linked in the new header store. -/
theorem Seg_absorb (H : Nat) (mem : Nat → Block) (hH : 0 < H) (l1 l2 : List Nat) (c y e : Nat)
    (hW : e ≤ W / 2)
    (h : Seg H mem 0 (l1 ++ c :: y :: l2) 0 e) :
    Seg H (absorbMem H mem c y) 0 (l1 ++ c :: l2) 0 e := by
  have hsorted := Seg_sorted H mem hH _ _ _ _ h
  have hend := Seg_end_le H mem _ _ _ _ h
  rw [List.pairwise_append] at hsorted
  obtain ⟨-, hs2, hs12⟩ := hsorted
  rw [List.pairwise_cons] at hs2
  obtain ⟨hc2, hs3⟩ := hs2
  rw [List.pairwise_cons] at hs3
  obtain ⟨hy2, hs4⟩ := hs3
  rw [Seg_append] at h ⊢
  obtain ⟨hl1, hc0, hcp, hcn, hce, hy0, hyp, hyn, hye, hl2⟩ := h
  simp only [List.headD_cons] at hl1 hcn hce ⊢
  have hcy : c < y := hc2 y (List.mem_cons_self _ _)
  have hyend : y + H + (mem y).size ≤ e := (hend y (by simp)).1
  have hnext_ne_c : (mem y).next ≠ c := by
    rw [hyn]
    cases l2 with
    | nil => simpa using hc0.ne
    | cons z l2' =>
      have := hc2 z (by simp)
      simpa using this.ne'
  refine ⟨?_, hc0, ?_, ?_, ?_, ?_⟩
  · refine Seg_congr H mem _ l1 _ _ _ ?_ hl1
    intro x hx
    have hxc : x < c := hs12 x hx c (List.mem_cons_self _ _)
    have hx0 : x ≠ (mem y).next ∨ (mem y).next = 0 := by
      rw [hyn]
      cases l2 with
      | nil => right; rfl
      | cons z l2' =>
        left
        have := hs12 x hx z (by simp)
        simpa using this.ne
    simp only [absorbMem, if_neg hxc.ne]
    rcases hx0 with h1 | h1
    · simp [h1]
    · simp [h1]
  · simp [absorbMem, hcp]
  · simp [absorbMem, hyn]
  · simp only [absorbMem, if_true]
    have e1 : (H + (mem y).size) % W = H + (mem y).size := Nat.mod_eq_of_lt (by unfold W at *; omega)
    have e2 : ((mem c).size + (H + (mem y).size)) % W = (mem c).size + (H + (mem y).size) :=
      Nat.mod_eq_of_lt (by unfold W at *; omega)
    rw [e1, e2, ← hye]
    omega
  · cases l2 with
    | nil => trivial
    | cons z l2' =>
      obtain ⟨hz0, hzp, hzn, hze, hl3⟩ := hl2
      simp only [List.headD_cons] at hyn
      have hzc : z ≠ c := (hc2 z (by simp)).ne'
      rw [List.pairwise_cons] at hs4
      have hz : absorbMem H mem c y z = { mem z with prev := c } := by
        simp [absorbMem, hzc, hyn, hz0.ne']
      refine ⟨hz0, by rw [hz], by rw [hz]; exact hzn, by rw [hz]; exact hze, ?_⟩
      refine Seg_congr H mem _ l2' _ _ _ ?_ hl3
      intro x hx
      have hxz : z < x := hs4.1 x hx
      have hxc : c < x := hc2 x (by simp [hx])
      simp [absorbMem, hxc.ne', hyn, hxz.ne']

theorem Seg_relink (H : Nat) (mem mem' : Nat → Block) (n n' e : Nat) :
    ∀ (l : List Nat) (p : Nat), Seg H mem p l n e → l.Nodup →
      (∀ x ∈ l, mem' x = if x = l.getLastD 0 then { mem x with next := n' } else mem x) →
      Seg H mem' p l n' e := by
  intro l
  induction l with
  | nil => intro p _ _ _; trivial
  | cons x l ih =>
    intro p h hnd hm
    obtain ⟨h0, h1, h2, h3, h4⟩ := h
    rw [List.nodup_cons] at hnd
    cases l with
    | nil =>
      have hx := hm x (List.mem_cons_self _ _)
      simp only [List.getLastD_cons, List.getLast?_nil, Option.getD_none, List.getLastD_nil,
        if_true] at hx
      refine ⟨h0, by rw [hx]; exact h1, by rw [hx]; rfl, by rw [hx]; exact h3, trivial⟩
    | cons z l' =>
      have hlast : (x :: z :: l').getLastD 0 = (z :: l').getLastD 0 := by
        simp [List.getLastD]
      have hmem : (z :: l').getLastD 0 ∈ z :: l' := by
        have : (z :: l').getLastD 0 = (z :: l').getLast (by simp) := by
          simp [List.getLastD, List.getLast?_eq_getLast]
        rw [this]
        exact List.getLast_mem _
      have hxl : x ≠ (z :: l').getLastD 0 := by
        intro hh
        exact hnd.1 (hh ▸ hmem)
      have hx := hm x (List.mem_cons_self _ _)
      rw [hlast, if_neg hxl] at hx
      refine ⟨h0, by rw [hx]; exact h1, by rw [hx]; exact h2, by rw [hx]; exact h3, ?_⟩
      refine ih x h4 hnd.2 ?_
      intro w hw
      have := hm w (List.mem_cons_of_mem _ hw)
      rw [hlast] at this
      exact this

theorem getLastD_mem (l : List Nat) (d : Nat) (h : l ≠ []) : l.getLastD d ∈ l := by
  have : l.getLastD d = l.getLast h := by
    cases l with
    | nil => exact absurd rfl h
    | cons a l' => simp [List.getLastD, List.getLast?_eq_getLast]
  rw [this]
  exact List.getLast_mem _

/-- Growth keeps the list linked: the new block, at the old break `e`, is appended. -/
theorem Seg_grow (H : Nat) (st : State) (hH : 0 < H) (l : List Nat) (size e : Nat)
    (he : 0 < e) (h : Seg H st.mem 0 l 0 e) :
    Seg H (growState H st (l.getLastD 0) size e).mem 0 (l ++ [e]) 0 (e + H + size) := by
  have hend := Seg_end_le H st.mem _ _ _ _ h
  have hlt : ∀ x ∈ l, x ≠ e := by
    intro x hx
    have := (hend x hx).1
    omega
  rw [Seg_append]
  simp only [List.headD_cons]
  constructor
  · refine Seg_relink H st.mem _ 0 e e l 0 h (Seg_nodup H st.mem hH l _ _ _ h) ?_
    intro x hx
    have hxb := hlt x hx
    have hl : l ≠ [] := List.ne_nil_of_mem hx
    have hlast0 : l.getLastD 0 ≠ 0 :=
      (Seg_pos H st.mem l _ _ _ h _ (getLastD_mem l 0 hl)).ne'
    simp only [growState, setBlock_apply, if_neg hxb, if_pos hlast0]
    by_cases hxl : x = l.getLastD 0
    · rw [if_pos hxl, if_pos hxl, hxl]
    · rw [if_neg hxl, if_neg hxl]
  · refine ⟨he, ?_, ?_, ?_, trivial⟩
    · simp [growState, setBlock_apply]
    · simp [growState, setBlock_apply]
    · simp [growState, setBlock_apply]

/-- The header store after a split of the block `r` of a linked list. -/
theorem splitBlock_mem_wf (H : Nat) (st : State) (hH : 0 < H) (l1 l2 : List Nat)
    (r size e : Nat) (hW : e ≤ W / 2) (h : Seg H st.mem 0 (l1 ++ r :: l2) 0 e)
    (hbig : size + H + 4 < (st.mem r).size) :
    (splitBlock H st r size).mem = fun x =>
      if x = r then { st.mem r with next := r + H + size, size := size }
      else if x = r + H + size then
        { size := (st.mem r).size - size - H
          free := true
          next := (st.mem r).next
          prev := r }
      else if x = (st.mem r).next ∧ (st.mem r).next ≠ 0 then
        { st.mem x with prev := r + H + size }
      else st.mem x := by
  have hend := (Seg_end_le H st.mem _ _ _ _ h r (by simp)).1
  have hsorted := Seg_sorted H st.mem hH _ _ _ _ h
  rw [List.pairwise_append] at hsorted
  obtain ⟨-, hs2, -⟩ := hsorted
  rw [List.pairwise_cons] at hs2
  rw [Seg_append] at h
  obtain ⟨-, hr0, -, hrn, hre, -⟩ := h
  have hnb : r + H + size = (BLOCK_DATA H r + size) % W := by
    unfold BLOCK_DATA W at *
    omega
  have hsz : ((st.mem r).size + W - size % W + W - H % W) % W = (st.mem r).size - size - H := by
    unfold W at *
    omega
  have hnext : (st.mem r).next ≠ r ∧ (st.mem r).next ≠ r + H + size := by
    rw [hrn]
    cases l2 with
    | nil => simp only [List.headD_nil]; omega
    | cons z l2' =>
      simp only [List.headD_cons] at hre ⊢
      omega
  rw [splitBlock_mem H st r size (r + H + size) hnb (by omega) hnext.1 hnext.2, hsz]

/-- A split keeps the list linked: the remainder, whose header is at `r + H + size`, is
inserted right after the split block `r`. -/
theorem Seg_split (H : Nat) (st : State) (hH : 0 < H) (l1 l2 : List Nat)
    (r size e : Nat) (hW : e ≤ W / 2) (h : Seg H st.mem 0 (l1 ++ r :: l2) 0 e)
    (hbig : size + H + 4 < (st.mem r).size) :
    Seg H (splitBlock H st r size).mem 0 (l1 ++ r :: (r + H + size) :: l2) 0 e := by
  rw [splitBlock_mem_wf H st hH l1 l2 r size e hW h hbig]
  have hsorted := Seg_sorted H st.mem hH _ _ _ _ h
  rw [List.pairwise_append] at hsorted
  obtain ⟨-, hs2, hs12⟩ := hsorted
  rw [List.pairwise_cons] at hs2
  obtain ⟨hr2, hs3⟩ := hs2
  have hlow := Seg_head_lt H st.mem r l2 _ _ _ ((Seg_append H st.mem l1 (r :: l2) 0 0 e).1 h).2
  rw [Seg_append] at h ⊢
  obtain ⟨hl1, hr0, hrp, hrn, hre, hl2⟩ := h
  simp only [List.headD_cons] at hl1 ⊢
  refine ⟨?_, hr0, ?_, ?_, ?_, by omega, ?_, ?_, ?_, ?_⟩
  · refine Seg_congr H st.mem _ l1 _ _ _ ?_ hl1
    intro x hx
    have hxr : x < r := hs12 x hx r (List.mem_cons_self _ _)
    have hx0 : x ≠ (st.mem r).next ∨ (st.mem r).next = 0 := by
      rw [hrn]
      cases l2 with
      | nil => right; rfl
      | cons z l2' =>
        left
        have := hs12 x hx z (by simp)
        simpa using this.ne
    have h1 : x ≠ r + H + size := by omega
    simp only [if_neg hxr.ne, if_neg h1]
    rcases hx0 with h2 | h2
    · simp [h2]
    · simp [h2]
  · simp [hrp]
  · simp
  · simp
  · have : r + H + size ≠ r := by omega
    simp [this]
  · have : r + H + size ≠ r := by omega
    simp [this, hrn]
  · have : r + H + size ≠ r := by omega
    simp only [if_neg this, if_true]
    rw [← hre]
    omega
  · cases l2 with
    | nil => trivial
    | cons z l2' =>
      obtain ⟨hz0, hzp, hzn, hze, hl3⟩ := hl2
      simp only [List.headD_cons] at hrn hre
      rw [List.pairwise_cons] at hs3
      have hzr : z ≠ r := by omega
      have hznb : z ≠ r + H + size := by omega
      refine ⟨hz0, ?_, ?_, ?_, ?_⟩
      · simp [hzr, hznb, hrn, hz0.ne']
      · simp [hzr, hznb, hrn, hz0.ne', hzn]
      · simp [hzr, hznb, hrn, hz0.ne', hze]
      · refine Seg_congr H st.mem _ l2' _ _ _ ?_ hl3
        intro x hx
        have hxz : z < x := hs3.1 x hx
        have h1 : x ≠ r := by omega
        have h2 : x ≠ r + H + size := by omega
        simp [h1, h2, hrn, hxz.ne']

/-! ## `growHeap` and `malloc` on a well-formed heap -/

/-- On a heap whose break is within the limit, `growHeap` either gets the whole block from
the operating system and appends it, or is denied and fails its `assert`. -/
theorem growHeap_wf (H : Nat) (st : State) (last size : Nat) (hH : 0 < H)
    (hb0 : 0 < st.brk) (hb : st.brk ≤ st.limit) (hl : st.limit ≤ W / 2) (hs : H + size < W) :
    growHeap H st last size =
      if st.brk + H + size ≤ st.limit then
        Outcome.ret st.brk
          (growState H { st with brk := st.brk + (H + size) } last size st.brk)
      else Outcome.abort := by
  have hW : W = 18446744073709551616 := rfl
  have hmod : (H + size) % W = H + size := Nat.mod_eq_of_lt hs
  have hne : H + size ≠ 0 := by omega
  have hbw : st.brk ≠ W - 1 := by omega
  simp only [growHeap, sbrk_zero, hmod]
  by_cases hfit : st.brk + H + size ≤ st.limit
  · have hc : H + size < W / 2 ∧ st.brk + (H + size) ≤ st.limit := by
      constructor
      · omega
      · omega
    simp only [sbrk, if_neg hne, if_pos hc, if_pos hfit, ne_eq, not_true_eq_false, if_false,
      if_neg hbw]
  · have hc : ¬ (H + size < W / 2 ∧ st.brk + (H + size) ≤ st.limit) := by
      intro hh; exact hfit (by omega)
    simp only [sbrk, if_neg hne, if_neg hc, if_neg hfit, ne_eq, hbw, not_false_eq_true, if_true]

theorem malloc_found (fit : Fit) (H : Nat) (st st1 : State) (s f last : Nat)
    (hs : ALIGN4 s ≠ 0)
    (hf : findFreeBlock fit (registerAtexit st) st.heapList (ALIGN4 s) =
      Outcome.ret (f, last) st1) (hf0 : f ≠ 0) :
    malloc fit H st s = Outcome.ret (BLOCK_DATA H f)
      (markUsed (maybeSplit H (countReuse st1 f) f (ALIGN4 s)) f (ALIGN4 s)) := by
  simp only [malloc, registerAtexit_heapList, if_neg hs, hf, if_neg hf0]

theorem malloc_notfound_ret (fit : Fit) (H : Nat) (st st1 st4 : State) (s last n1 : Nat)
    (hs : ALIGN4 s ≠ 0)
    (hf : findFreeBlock fit (registerAtexit st) st.heapList (ALIGN4 s) =
      Outcome.ret (0, last) st1)
    (hg : growHeap H st1 last (ALIGN4 s) = Outcome.ret n1 st4) (hn : n1 ≠ 0) :
    malloc fit H st s = Outcome.ret (BLOCK_DATA H n1) (markUsed st4 n1 (ALIGN4 s)) := by
  have e1 : countReuse st1 0 = st1 := by simp [countReuse]
  have e2 : maybeSplit H st1 0 (ALIGN4 s) = st1 := by simp [maybeSplit]
  simp only [malloc, registerAtexit_heapList, if_neg hs, hf, if_true, e1, e2, hg, if_neg hn]

theorem malloc_notfound_abort (fit : Fit) (H : Nat) (st st1 : State) (s last : Nat)
    (hs : ALIGN4 s ≠ 0)
    (hf : findFreeBlock fit (registerAtexit st) st.heapList (ALIGN4 s) =
      Outcome.ret (0, last) st1)
    (hg : growHeap H st1 last (ALIGN4 s) = Outcome.abort) :
    malloc fit H st s = Outcome.abort := by
  have e1 : countReuse st1 0 = st1 := by simp [countReuse]
  have e2 : maybeSplit H st1 0 (ALIGN4 s) = st1 := by simp [maybeSplit]
  simp only [malloc, registerAtexit_heapList, if_neg hs, hf, if_true, e1, e2, hg]

theorem Inv_registerAtexit {H : Nat} {st : State} {l : List Nat} (h : Inv H st l) :
    Inv H (registerAtexit st) l := by
  refine ⟨?_, ?_, ?_, ?_, ?_, ?_⟩
  · simpa using h.seg
  · simpa using h.root
  · simpa using h.noadj
  · simpa using h.brk_pos
  · simpa using h.brk_le
  · simpa using h.lim_le

/-! ## Neighbours that are not both free -/

theorem NoAdjFree_cons (mem : Nat → Block) (x : Nat) (l : List Nat) :
    NoAdjFree mem (x :: l) ↔
      (∀ y, l.head? = some y → ¬ ((mem x).free = true ∧ (mem y).free = true)) ∧
        NoAdjFree mem l := by
  cases l with
  | nil => simp [NoAdjFree]
  | cons y l' => simp [NoAdjFree]

theorem NoAdjFree_split (mem : Nat → Block) :
    ∀ (l1 : List Nat) (x : Nat) (l2 : List Nat),
      NoAdjFree mem (l1 ++ x :: l2) ↔ NoAdjFree mem (l1 ++ [x]) ∧ NoAdjFree mem (x :: l2) := by
  intro l1
  induction l1 with
  | nil => intro x l2; simp [NoAdjFree]
  | cons a l ih =>
    intro x l2
    simp only [List.cons_append]
    rw [NoAdjFree_cons, NoAdjFree_cons mem a (l ++ [x]), ih x l2]
    have hh : (l ++ x :: l2).head? = (l ++ [x]).head? := by cases l <;> simp
    rw [hh]
    tauto

theorem NoAdjFree_snoc (mem : Nat → Block) :
    ∀ (l : List Nat) (x : Nat),
      NoAdjFree mem (l ++ [x]) ↔ NoAdjFree mem l ∧
        (∀ y, l.getLast? = some y → ¬ ((mem y).free = true ∧ (mem x).free = true)) := by
  intro l
  induction l with
  | nil => intro x; simp [NoAdjFree]
  | cons a l ih =>
    intro x
    simp only [List.cons_append]
    rw [NoAdjFree_cons, NoAdjFree_cons mem a l, ih x]
    cases l with
    | nil => simp [NoAdjFree]
    | cons b l' =>
      simp only [List.cons_append, List.head?_cons, Option.some.injEq, forall_eq']
      have : (a :: b :: l').getLast? = (b :: l').getLast? := by simp [List.getLast?]
      rw [this]
      tauto

theorem NoAdjFree_mono (mem mem' : Nat → Block) :
    ∀ (l : List Nat), (∀ x ∈ l, (mem' x).free = true → (mem x).free = true) →
      NoAdjFree mem l → NoAdjFree mem' l := by
  intro l
  induction l with
  | nil => intro _ _; trivial
  | cons x l ih =>
    intro hag h
    cases l with
    | nil => trivial
    | cons y l' =>
      obtain ⟨h1, h2⟩ := h
      refine ⟨?_, ih (fun z hz => hag z (List.mem_cons_of_mem _ hz)) h2⟩
      intro hh
      exact h1 ⟨hag x (List.mem_cons_self _ _) hh.1,
        hag y (List.mem_cons_of_mem _ (List.mem_cons_self _ _)) hh.2⟩

theorem Seg_congr_fields (H : Nat) (mem mem' : Nat → Block) :
    ∀ (l : List Nat) (p n e : Nat),
      (∀ x ∈ l, (mem' x).size = (mem x).size ∧ (mem' x).next = (mem x).next ∧
        (mem' x).prev = (mem x).prev) →
      Seg H mem p l n e → Seg H mem' p l n e := by
  intro l
  induction l with
  | nil => intro p n e _ _; trivial
  | cons x l ih =>
    intro p n e hag h
    obtain ⟨h0, h1, h2, h3, h4⟩ := h
    obtain ⟨e1, e2, e3⟩ := hag x (List.mem_cons_self _ _)
    refine ⟨h0, ?_, ?_, ?_, ih _ _ _ (fun y hy => hag y (List.mem_cons_of_mem _ hy)) h4⟩
    · rw [e3]; exact h1
    · rw [e2]; exact h2
    · rw [e1]; exact h3

@[simp] theorem countReuse_mem (st : State) (f : Nat) : (countReuse st f).mem = st.mem := by
  unfold countReuse; split <;> rfl

@[simp] theorem countReuse_heapList (st : State) (f : Nat) :
    (countReuse st f).heapList = st.heapList := by
  unfold countReuse; split <;> rfl

@[simp] theorem countReuse_brk (st : State) (f : Nat) : (countReuse st f).brk = st.brk := by
  unfold countReuse; split <;> rfl

@[simp] theorem countReuse_limit (st : State) (f : Nat) :
    (countReuse st f).limit = st.limit := by
  unfold countReuse; split <;> rfl

@[simp] theorem countReuse_bytes (st : State) (f : Nat) :
    (countReuse st f).bytes = st.bytes := by
  unfold countReuse; split <;> rfl

@[simp] theorem markUsed_heapList (st : State) (f r : Nat) :
    (markUsed st f r).heapList = st.heapList := rfl

@[simp] theorem markUsed_brk (st : State) (f r : Nat) : (markUsed st f r).brk = st.brk := rfl

@[simp] theorem markUsed_limit (st : State) (f r : Nat) :
    (markUsed st f r).limit = st.limit := rfl

@[simp] theorem markUsed_bytes (st : State) (f r : Nat) :
    (markUsed st f r).bytes = st.bytes := rfl

theorem markUsed_mem (st : State) (f r : Nat) :
    (markUsed st f r).mem = setBlock st.mem f { st.mem f with free := false } := rfl

@[simp] theorem splitBlock_heapList (H : Nat) (st : State) (f r : Nat) :
    (splitBlock H st f r).heapList = st.heapList := rfl

@[simp] theorem splitBlock_brk (H : Nat) (st : State) (f r : Nat) :
    (splitBlock H st f r).brk = st.brk := rfl

@[simp] theorem splitBlock_limit (H : Nat) (st : State) (f r : Nat) :
    (splitBlock H st f r).limit = st.limit := rfl

@[simp] theorem splitBlock_bytes (H : Nat) (st : State) (f r : Nat) :
    (splitBlock H st f r).bytes = st.bytes := rfl

/-- Marking a block in use keeps the list linked. -/
theorem Seg_markUsed (H : Nat) (st : State) (f r : Nat) (l : List Nat) (p n e : Nat)
    (h : Seg H st.mem p l n e) : Seg H (markUsed st f r).mem p l n e := by
  refine Seg_congr_fields H st.mem _ l p n e ?_ h
  intro x _
  rw [markUsed_mem, setBlock_apply]
  split
  · rename_i hx; subst hx; exact ⟨rfl, rfl, rfl⟩
  · exact ⟨rfl, rfl, rfl⟩

theorem markUsed_free (st : State) (f r x : Nat) :
    ((markUsed st f r).mem x).free = if x = f then false else (st.mem x).free := by
  rw [markUsed_mem, setBlock_apply]
  split <;> rfl

theorem markUsed_size (st : State) (f r x : Nat) :
    ((markUsed st f r).mem x).size = (st.mem x).size := by
  rw [markUsed_mem, setBlock_apply]
  split
  · rename_i hx; subst hx; rfl
  · rfl

/-- Handing out a free block whole keeps the invariant, with the same list. -/
theorem Inv_reuse (H : Nat) (st : State) (l : List Nat) (f r : Nat) (h : Inv H st l) :
    Inv H (reuseResult st f r) l := by
  refine ⟨?_, ?_, ?_, ?_, ?_, ?_⟩
  · rw [show (reuseResult st f r).brk = st.brk by simp [reuseResult]]
    apply Seg_markUsed
    simpa using h.seg
  · simpa [reuseResult] using h.root
  · refine NoAdjFree_mono st.mem _ l ?_ h.noadj
    intro x _ hx
    simp only [reuseResult, markUsed_free, countReuse_mem, registerAtexit_mem] at hx
    split at hx
    · cases hx
    · exact hx
  · simpa [reuseResult] using h.brk_pos
  · simpa [reuseResult] using h.brk_le
  · simpa [reuseResult] using h.lim_le

theorem headD_append_cons (l1 : List Nat) (x d : Nat) (l2 : List Nat) :
    (l1 ++ x :: l2).headD d = (l1 ++ [x]).headD 0 := by
  cases l1 <;> simp

/-- The free flags after a split of the free block `f` of the list. -/
theorem splitResult_free (H : Nat) (st : State) (hH : 0 < H) (l1 l2 : List Nat) (f r : Nat)
    (h : Inv H st (l1 ++ f :: l2)) (hbig : r + H + 4 < (st.mem f).size) (x : Nat) :
    ((splitResult H st f r).mem x).free =
      if x = f then false else if x = f + H + r then true else (st.mem x).free := by
  have hW : st.brk ≤ W / 2 := le_trans h.brk_le h.lim_le
  have hseg : Seg H (countReuse (registerAtexit st) f).mem 0 (l1 ++ f :: l2) 0 st.brk := by
    simpa using h.seg
  have hm := splitBlock_mem_wf H (countReuse (registerAtexit st) f) hH l1 l2 f r st.brk hW hseg
    (by simpa using hbig)
  simp only [splitResult, markUsed_free, hm, countReuse_mem, registerAtexit_mem]
  split_ifs <;> rfl

/-- A split keeps the invariant: the remainder is inserted after the split block. -/
theorem Inv_split (H : Nat) (st : State) (hH : 0 < H) (l1 l2 : List Nat) (f r : Nat)
    (h : Inv H st (l1 ++ f :: l2)) (hfree : (st.mem f).free = true)
    (hbig : r + H + 4 < (st.mem f).size) :
    Inv H (splitResult H st f r) (l1 ++ f :: (f + H + r) :: l2) := by
  have hW : st.brk ≤ W / 2 := le_trans h.brk_le h.lim_le
  have hseg : Seg H (countReuse (registerAtexit st) f).mem 0 (l1 ++ f :: l2) 0 st.brk := by
    simpa using h.seg
  have hfl := splitResult_free H st hH l1 l2 f r h hbig
  have hsorted := Seg_sorted H st.mem hH _ _ _ _ h.seg
  rw [List.pairwise_append] at hsorted
  obtain ⟨-, hs2, hs12⟩ := hsorted
  rw [List.pairwise_cons] at hs2
  have hlow := Seg_head_lt H st.mem f l2 _ _ _
    ((Seg_append H st.mem l1 (f :: l2) 0 0 st.brk).1 h.seg).2
  have hna := (NoAdjFree_split st.mem l1 f l2).1 h.noadj
  refine ⟨?_, ?_, ?_, ?_, ?_, ?_⟩
  · rw [show (splitResult H st f r).brk = st.brk by simp [splitResult]]
    apply Seg_markUsed
    exact Seg_split H _ hH l1 l2 f r st.brk hW hseg (by simpa using hbig)
  · have := h.root
    rw [headD_append_cons] at this ⊢
    simpa [splitResult] using this
  · rw [NoAdjFree_split]
    constructor
    · refine NoAdjFree_mono st.mem _ _ ?_ hna.1
      intro x hx hxf
      rw [hfl] at hxf
      rcases List.mem_append.1 hx with hx1 | hx1
      · have hlt : x < f := hs12 x hx1 f (List.mem_cons_self _ _)
        rw [if_neg hlt.ne, if_neg (by omega)] at hxf
        exact hxf
      · simp only [List.mem_singleton] at hx1
        rw [if_pos hx1] at hxf
        cases hxf
    · rw [NoAdjFree_cons]
      constructor
      · intro y _ hh
        rw [hfl, if_pos rfl] at hh
        cases hh.1
      · have hna2 := (NoAdjFree_cons st.mem f l2).1 hna.2
        rw [NoAdjFree_cons]
        constructor
        · intro y hy hh
          have hyl : y ∈ l2 := List.mem_of_mem_head? hy
          have hyf := hlow y hyl
          rw [hfl y, if_neg (by omega), if_neg (by omega)] at hh
          exact hna2.1 y hy ⟨hfree, hh.2⟩
        · refine NoAdjFree_congr st.mem _ l2 ?_ hna2.2
          intro x hx
          have hxf := hlow x hx
          rw [hfl x, if_neg (by omega), if_neg (by omega)]
  · simpa [splitResult] using h.brk_pos
  · simpa [splitResult] using h.brk_le
  · simpa [splitResult] using h.lim_le

theorem growState_free (H : Nat) (st : State) (last size e x : Nat) :
    ((growState H st last size e).mem x).free = if x = e then false else (st.mem x).free := by
  simp only [growState, setBlock_apply]
  by_cases hx : x = e
  · simp only [if_pos hx]
  · simp only [if_neg hx]
    by_cases hl : last ≠ 0
    · simp only [if_pos hl, setBlock_apply]
      by_cases hxl : x = last
      · subst hxl; simp only [if_true]
      · simp only [if_neg hxl]
    · simp only [if_neg hl]

/-- Growth keeps the invariant: the new block is appended at the old break. -/
theorem Inv_grow (H : Nat) (st : State) (hH : 0 < H) (l : List Nat) (r : Nat)
    (h : Inv H st l) (hroom : st.brk + H + r ≤ st.limit) :
    Inv H (growResult H st (l.getLastD 0) r) (l ++ [st.brk]) := by
  have hend := Seg_end_le H st.mem _ _ _ _ h.seg
  have hpos := Seg_pos H st.mem _ _ _ _ h.seg
  have hfl : ∀ x, ((growResult H st (l.getLastD 0) r).mem x).free =
      if x = st.brk then false else (st.mem x).free := by
    intro x
    simp only [growResult, markUsed_free, growState_free, registerAtexit_mem]
    split_ifs <;> rfl
  refine ⟨?_, ?_, ?_, ?_, ?_, ?_⟩
  · rw [show (growResult H st (l.getLastD 0) r).brk = st.brk + H + r by
      simp [growResult, growState, Nat.add_assoc]]
    apply Seg_markUsed
    refine Seg_grow H _ hH l r st.brk h.brk_pos ?_
    simpa using h.seg
  · have hr := h.root
    cases l with
    | nil =>
      simp only [List.headD_nil] at hr
      simp [growResult, growState, hr]
    | cons a l' =>
      simp only [List.headD_cons] at hr
      have ha : 0 < a := hpos a (List.mem_cons_self _ _)
      simp [growResult, growState, hr, ha.ne']
  · rw [NoAdjFree_snoc]
    constructor
    · refine NoAdjFree_congr st.mem _ l ?_ h.noadj
      intro x hx
      have := (hend x hx).1
      rw [hfl x, if_neg (by omega)]
    · intro y _ hh
      rw [hfl st.brk, if_pos rfl] at hh
      cases hh.2
  · have := h.brk_pos
    simp only [growResult, markUsed_brk, growState]
    omega
  · simp only [growResult, markUsed_brk, markUsed_limit, growState, registerAtexit_limit]
    omega
  · simpa [growResult, growState] using h.lim_le

/-- The three ways of `malloc` on a well-formed heap, for a request whose aligned size is not
zero, under the first-fit, best-fit or worst-fit policy. Either no block of the list fits and
the heap grows (or `sbrk` denies the extension and the `assert` fails), or a block `f` of the
list fits and is split or handed out whole. -/
theorem malloc_wf (fit : Fit) (H : Nat) (st : State) (l : List Nat) (s : Nat)
    (hfit : fit ≠ Fit.next) (hH : 0 < H) (h : Inv H st l) (hsz : H + ALIGN4 s < W)
    (hr : ALIGN4 s ≠ 0) :
    ((∀ x ∈ l, ¬ Fits st.mem (ALIGN4 s) x) ∧
      ((st.brk + H + ALIGN4 s ≤ st.limit ∧
          malloc fit H st s =
            Outcome.ret (st.brk + H) (growResult H st (l.getLastD 0) (ALIGN4 s))) ∨
       (¬ st.brk + H + ALIGN4 s ≤ st.limit ∧ malloc fit H st s = Outcome.abort))) ∨
    (∃ f l1 l2, l = l1 ++ f :: l2 ∧ Fits st.mem (ALIGN4 s) f ∧
      ((ALIGN4 s + H + 4 < (st.mem f).size ∧
          malloc fit H st s = Outcome.ret (f + H) (splitResult H st f (ALIGN4 s))) ∨
       (¬ ALIGN4 s + H + 4 < (st.mem f).size ∧
          malloc fit H st s = Outcome.ret (f + H) (reuseResult st f (ALIGN4 s))))) := by
  have hW : W = 18446744073709551616 := rfl
  have h1 := Inv_registerAtexit h
  have hb := h.brk_le
  have hlim := h.lim_le
  obtain ⟨f, last, hloc, hres⟩ :=
    locate_spec fit H (registerAtexit st) l (ALIGN4 s) hfit hH (Nat.pos_of_ne_zero hr) h1
  simp only [registerAtexit_heapList, registerAtexit_mem] at hloc hres
  rcases hres with ⟨hf0, hnone, hlast⟩ | ⟨hfl, hffit⟩
  · subst hf0
    subst hlast
    refine Or.inl ⟨hnone, ?_⟩
    have hg := growHeap_wf H (registerAtexit st) (l.getLastD 0) (ALIGN4 s) hH
      (by simpa using h.brk_pos) (by simpa using hb) (by simpa using hlim) hsz
    simp only [registerAtexit_brk, registerAtexit_limit] at hg
    by_cases hroom : st.brk + H + ALIGN4 s ≤ st.limit
    · rw [if_pos hroom] at hg
      refine Or.inl ⟨hroom, ?_⟩
      rw [malloc_notfound_ret fit H st _ _ s _ _ hr hloc hg h.brk_pos.ne']
      have : BLOCK_DATA H st.brk = st.brk + H := by
        unfold BLOCK_DATA
        exact Nat.mod_eq_of_lt (by omega)
      rw [this]
      simp only [growResult, registerAtexit_limit]
    · rw [if_neg hroom] at hg
      exact Or.inr ⟨hroom, malloc_notfound_abort fit H st _ s _ hr hloc hg⟩
  · obtain ⟨l1, l2, hl⟩ := List.append_of_mem hfl
    refine Or.inr ⟨f, l1, l2, hl, hffit, ?_⟩
    have hf0 : 0 < f := Seg_pos H st.mem l _ _ _ h.seg f hfl
    have hfend := (Seg_end_le H st.mem l _ _ _ h.seg f hfl).1
    have hm := malloc_found fit H st _ s f last hr hloc hf0.ne'
    have hbd : BLOCK_DATA H f = f + H := by
      unfold BLOCK_DATA
      exact Nat.mod_eq_of_lt (by omega)
    have hle := hffit.2
    have hmod : (ALIGN4 s + H + 4) % W = ALIGN4 s + H + 4 := Nat.mod_eq_of_lt (by omega)
    rw [hbd] at hm
    by_cases hbig : ALIGN4 s + H + 4 < (st.mem f).size
    · refine Or.inl ⟨hbig, ?_⟩
      rw [hm]
      have : maybeSplit H (countReuse (registerAtexit st) f) f (ALIGN4 s) =
          splitBlock H (countReuse (registerAtexit st) f) f (ALIGN4 s) := by
        simp only [maybeSplit, countReuse_mem, registerAtexit_mem, hmod]
        rw [if_pos ⟨hf0.ne', hbig⟩]
      rw [this]
      rfl
    · refine Or.inr ⟨hbig, ?_⟩
      rw [hm]
      have : maybeSplit H (countReuse (registerAtexit st) f) f (ALIGN4 s) =
          countReuse (registerAtexit st) f := by
        simp only [maybeSplit, countReuse_mem, registerAtexit_mem, hmod]
        rw [if_neg (fun hh => hbig hh.2)]
      rw [this]
      rfl

/-- Under the first-fit, best-fit or worst-fit policy a call of `malloc` that returns keeps
the invariant. -/
theorem malloc_preserves (fit : Fit) (H : Nat) (st st' : State) (l : List Nat) (s p : Nat)
    (hfit : fit ≠ Fit.next) (hH : 0 < H) (h : Inv H st l) (hsz : H + ALIGN4 s < W)
    (hm : malloc fit H st s = Outcome.ret p st') : ∃ l', Inv H st' l' := by
  by_cases hr : ALIGN4 s = 0
  · rcases malloc_inv _ _ _ _ _ _ hm with ⟨-, -, rfl⟩ | ⟨hne, -⟩
    · exact ⟨l, Inv_registerAtexit h⟩
    · exact absurd hr hne
  · rcases malloc_wf fit H st l s hfit hH h hsz hr with
      ⟨-, ⟨hroom, he⟩ | ⟨-, he⟩⟩ | ⟨f, l1, l2, hl, hff, ⟨hbig, he⟩ | ⟨-, he⟩⟩
    · rw [he] at hm; cases hm
      exact ⟨_, Inv_grow H st hH l _ h hroom⟩
    · rw [he] at hm; cases hm
    · rw [he] at hm; cases hm
      subst hl
      exact ⟨_, Inv_split H st hH l1 l2 f _ h hff.1 hbig⟩
    · rw [he] at hm; cases hm
      exact ⟨_, Inv_reuse H st l f _ h⟩

/-! ## `free` on a well-formed heap -/

theorem absorbMem_free (H : Nat) (mem : Nat → Block) (c y x : Nat) :
    ((absorbMem H mem c y) x).free = (mem x).free := by
  simp only [absorbMem]
  by_cases h1 : x = c
  · subst h1; simp only [if_true]
  · simp only [if_neg h1]
    split <;> rfl

theorem getLastD_concat (l : List Nat) (q d : Nat) : (l ++ [q]).getLastD d = q := by
  simp [List.getLastD_eq_getLast?]

theorem coalesceNext_seg (H : Nat) (st : State) (hH : 0 < H) (l1 l2 : List Nat) (c y e : Nat)
    (h : Seg H st.mem 0 (l1 ++ c :: y :: l2) 0 e) (hf : (st.mem y).free = true) :
    coalesceNext H st c = absorbState H st c y := by
  have hsorted := Seg_sorted H st.mem hH _ _ _ _ h
  rw [List.pairwise_append] at hsorted
  obtain ⟨-, hs2, -⟩ := hsorted
  rw [List.pairwise_cons] at hs2
  obtain ⟨hc2, -⟩ := hs2
  rw [Seg_append] at h
  obtain ⟨-, hc0, -, hcn, -, hy0, -, hyn, -, -⟩ := h
  simp only [List.headD_cons] at hcn
  have hcy : c < y := hc2 y (List.mem_cons_self _ _)
  have hnn : (st.mem y).next ≠ c := by
    rw [hyn]
    cases l2 with
    | nil => simpa using hc0.ne
    | cons z l2' => simpa using (hc2 z (by simp)).ne'
  have := coalesceNext_merge H st c (by rw [hcn]; exact hy0.ne') (by rw [hcn]; exact hf)
    (by rw [hcn]; exact hcy.ne') (by rw [hcn]; exact hnn)
  rw [this, hcn]
  rfl

theorem coalesceNext_seg_skip (H : Nat) (st : State) (l1 l2 : List Nat) (c e : Nat)
    (h : Seg H st.mem 0 (l1 ++ c :: l2) 0 e)
    (hf : ∀ z, l2.head? = some z → (st.mem z).free = false) :
    coalesceNext H st c = st := by
  rw [Seg_append] at h
  obtain ⟨-, -, -, hcn, -, -⟩ := h
  apply coalesceNext_skip
  rw [hcn]
  cases l2 with
  | nil => simp
  | cons z l2' =>
    have := hf z rfl
    simp [this]

theorem coalescePrev_seg (H : Nat) (st : State) (hH : 0 < H) (l1 l2 : List Nat) (c y e : Nat)
    (h : Seg H st.mem 0 (l1 ++ c :: y :: l2) 0 e) (hf : (st.mem c).free = true) :
    coalescePrev H st y = (c, absorbState H st c y) := by
  have hsorted := Seg_sorted H st.mem hH _ _ _ _ h
  rw [List.pairwise_append] at hsorted
  obtain ⟨-, hs2, -⟩ := hsorted
  rw [List.pairwise_cons] at hs2
  obtain ⟨hc2, hs3⟩ := hs2
  rw [List.pairwise_cons] at hs3
  rw [Seg_append] at h
  obtain ⟨-, hc0, -, -, -, hy0, hyp, hyn, -, -⟩ := h
  have hcy : c < y := hc2 y (List.mem_cons_self _ _)
  have hnn : (st.mem y).next ≠ c ∧ (st.mem y).next ≠ y := by
    rw [hyn]
    cases l2 with
    | nil => simp only [List.headD_nil]; omega
    | cons z l2' =>
      have h1 := hc2 z (by simp)
      have h2 := hs3.1 z (by simp)
      simp only [List.headD_cons]
      omega
  have := coalescePrev_merge H st y (by rw [hyp]; exact hc0.ne') (by rw [hyp]; exact hf)
    (by rw [hyp]; exact hcy.ne) hnn.2 (by rw [hyp]; exact hnn.1)
  rw [this, hyp]
  rfl

theorem coalescePrev_seg_skip (H : Nat) (st : State) (l1 l2 : List Nat) (a e : Nat)
    (h : Seg H st.mem 0 (l1 ++ a :: l2) 0 e)
    (hf : ∀ q, l1.getLast? = some q → (st.mem q).free = false) :
    coalescePrev H st a = (a, st) := by
  rw [Seg_append] at h
  obtain ⟨-, -, hap, -⟩ := h
  apply coalescePrev_skip
  rw [hap]
  rcases List.eq_nil_or_concat l1 with rfl | ⟨l1', q, rfl⟩
  · simp
  · have := hf q (by simp)
    rw [List.concat_eq_append, getLastD_concat]
    simp [this]

theorem markFree_mem (st : State) (a : Nat) :
    (markFree st a).mem = setBlock st.mem a { st.mem a with free := true } := rfl

theorem markFree_free (st : State) (a x : Nat) :
    ((markFree st a).mem x).free = if x = a then true else (st.mem x).free := by
  rw [markFree_mem, setBlock_apply]
  split <;> rfl

theorem markFree_size (st : State) (a x : Nat) :
    ((markFree st a).mem x).size = (st.mem x).size := by
  rw [markFree_mem, setBlock_apply]
  split
  · rename_i hx; subst hx; rfl
  · rfl

theorem Seg_markFree (H : Nat) (st : State) (a : Nat) (l : List Nat) (p n e : Nat)
    (h : Seg H st.mem p l n e) : Seg H (markFree st a).mem p l n e := by
  refine Seg_congr_fields H st.mem _ l p n e ?_ h
  intro x _
  rw [markFree_mem, setBlock_apply]
  split
  · rename_i hx; subst hx; exact ⟨rfl, rfl, rfl⟩
  · exact ⟨rfl, rfl, rfl⟩

/-- The left merge of `free` on a well-formed heap. -/
theorem free_left (H : Nat) (st : State) (hH : 0 < H) (l1 l2 : List Nat) (a : Nat)
    (h : Inv H st (l1 ++ a :: l2)) :
    coalescePrev H (markFree st a) a = freeLeft H st l1 a ∧
      ∃ L1, freeListLeft st.mem l1 a = L1 ++ [(freeLeft H st l1 a).1] ∧
        Mid H st (freeLeft H st l1 a).2 a L1 (freeLeft H st l1 a).1 l2 := by
  have hW : st.brk ≤ W / 2 := le_trans h.brk_le h.lim_le
  have hseg1 : Seg H (markFree st a).mem 0 (l1 ++ a :: l2) 0 st.brk := Seg_markFree H st a _ _ _ _ h.seg
  have hnd := Seg_nodup H st.mem hH _ _ _ _ h.seg
  have hna := (NoAdjFree_split st.mem l1 a l2).1 h.noadj
  have hna2 := ((NoAdjFree_cons st.mem a l2).1 hna.2).2
  have hna1 := (NoAdjFree_snoc st.mem l1 a).1 hna.1
  have hnot1 : a ∉ l1 := by
    intro hh
    have := (List.nodup_append.1 hnd).2.2
    exact this hh (List.mem_cons_self _ _)
  have hnot2 : a ∉ l2 := by
    have := (List.nodup_append.1 hnd).2.1
    exact (List.nodup_cons.1 this).1
  -- the case where the left merge is skipped
  have skip : (∀ q, l1.getLast? = some q → (st.mem q).free = false) →
      freeLeft H st l1 a = (a, markFree st a) → freeListLeft st.mem l1 a = l1 ++ [a] →
      coalescePrev H (markFree st a) a = freeLeft H st l1 a ∧
      ∃ L1, freeListLeft st.mem l1 a = L1 ++ [(freeLeft H st l1 a).1] ∧
        Mid H st (freeLeft H st l1 a).2 a L1 (freeLeft H st l1 a).1 l2 := by
    intro hq e1 e2
    rw [e1]
    refine ⟨?_, l1, e2, ?_⟩
    · refine coalescePrev_seg_skip H _ l1 l2 a st.brk hseg1 ?_
      intro q hql
      have hqa : q ≠ a := fun hh => hnot1 (hh ▸ List.mem_of_mem_getLast? hql)
      rw [markFree_free, if_neg hqa]
      exact hq q hql
    · exact
        { seg := hseg1
          cfree := by simp [markFree_free]
          flags := fun x hx => by rw [markFree_free, if_neg hx]
          lastL1 := hq
          noadj1 := hna1.1
          noadj2 := hna2
          root := by
            have := h.root
            rw [headD_append_cons] at this
            exact this
          notin1 := hnot1
          notin2 := hnot2
          brk_eq := rfl
          limit_eq := rfl }
  rcases List.eq_nil_or_concat l1 with hl | ⟨l1', q, hl⟩
  · subst hl
    exact skip (by simp) (by simp [freeLeft]) (by simp [freeListLeft])
  · subst hl
    rw [List.concat_eq_append] at *
    by_cases hqf : (st.mem q).free = true
    · have e1 : freeLeft H st (l1' ++ [q]) a = (q, absorbState H (markFree st a) q a) := by
        simp [freeLeft, hqf]
      have e2 : freeListLeft st.mem (l1' ++ [q]) a = l1' ++ [q] := by
        simp [freeListLeft, hqf]
      have hqa : q ≠ a := fun hh => hnot1 (by simp [hh])
      have hqf1 : ((markFree st a).mem q).free = true := by
        rw [markFree_free, if_neg hqa]; exact hqf
      have hseg2 : Seg H (markFree st a).mem 0 (l1' ++ q :: a :: l2) 0 st.brk := by
        simpa using hseg1
      have hna3 := (NoAdjFree_snoc st.mem l1' q).1 hna1.1
      rw [e1]
      refine ⟨coalescePrev_seg H _ hH l1' l2 q a st.brk hseg2 hqf1, l1', e2, ?_⟩
      exact
        { seg := Seg_absorb H _ hH l1' l2 q a st.brk hW hseg2
          cfree := by
            simp only [absorbState, absorbMem_free]
            exact hqf1
          flags := fun x hx => by
            simp only [absorbState, absorbMem_free]
            rw [markFree_free, if_neg hx]
          lastL1 := fun w hw => by
            have := hna3.2 w hw
            cases hwf : (st.mem w).free
            · rfl
            · exact absurd ⟨hwf, hqf⟩ this
          noadj1 := hna3.1
          noadj2 := hna2
          root := by
            have := h.root
            show st.heapList = (l1' ++ [q]).headD 0
            rw [this]
            cases l1' <;> simp
          notin1 := fun hh => hnot1 (by simp [hh])
          notin2 := hnot2
          brk_eq := rfl
          limit_eq := rfl }
    · have hqf' : (st.mem q).free = false := by
        cases hq : (st.mem q).free
        · rfl
        · exact absurd hq hqf
      refine skip ?_ (by simp [freeLeft, hqf']) (by simp [freeListLeft, hqf'])
      intro w hw
      simp at hw
      subst hw
      exact hqf'

/-- The right merge of `free` on a well-formed heap, and the invariant after it. -/
theorem free_right (H : Nat) (st st2 : State) (hH : 0 < H) (L1 l2 : List Nat) (a c : Nat)
    (hb0 : 0 < st.brk) (hb : st.brk ≤ st.limit) (hlim : st.limit ≤ W / 2)
    (hm : Mid H st st2 a L1 c l2) :
    coalesceNext H st2 c = freeRight H st st2 c l2 ∧
      Inv H (countFree (freeRight H st st2 c l2)) (L1 ++ c :: freeListRight st.mem l2) := by
  have hW : st.brk ≤ W / 2 := le_trans hb hlim
  have hfl : ∀ x ∈ l2, (st2.mem x).free = (st.mem x).free := by
    intro x hx
    exact hm.flags x (fun hh => hm.notin2 (hh ▸ hx))
  have hfl1 : ∀ x ∈ L1, (st2.mem x).free = (st.mem x).free := by
    intro x hx
    exact hm.flags x (fun hh => hm.notin1 (hh ▸ hx))
  -- the invariant, from the facts on the final state `st3` and the final right part `L2`
  have fin : ∀ (st3 : State) (L2 : List Nat), Seg H st3.mem 0 (L1 ++ c :: L2) 0 st.brk →
      (∀ x, (st3.mem x).free = (st2.mem x).free) → st3.heapList = st2.heapList →
      st3.brk = st2.brk → st3.limit = st2.limit →
      (∀ x ∈ L2, x ∈ l2) → NoAdjFree st.mem L2 →
      (∀ z, L2.head? = some z → (st.mem z).free = false) →
      Inv H (countFree st3) (L1 ++ c :: L2) := by
    intro st3 L2 hseg hflags hroot hbrk hlimit hsub hna hhead
    refine ⟨?_, ?_, ?_, ?_, ?_, ?_⟩
    · show Seg H st3.mem 0 (L1 ++ c :: L2) 0 st3.brk
      rw [hbrk, hm.brk_eq]
      exact hseg
    · show st3.heapList = (L1 ++ c :: L2).headD 0
      rw [hroot, hm.root, headD_append_cons L1 c 0 L2]
    · show NoAdjFree st3.mem (L1 ++ c :: L2)
      rw [NoAdjFree_split]
      constructor
      · rw [NoAdjFree_snoc]
        constructor
        · refine NoAdjFree_congr st.mem _ L1 ?_ hm.noadj1
          intro x hx
          rw [hflags, hfl1 x hx]
        · intro y hy hh
          have hyL : y ∈ L1 := List.mem_of_mem_getLast? hy
          rw [hflags, hfl1 y hyL, hm.lastL1 y hy] at hh
          cases hh.1
      · rw [NoAdjFree_cons]
        constructor
        · intro y hy hh
          have hyL : y ∈ l2 := hsub y (List.mem_of_mem_head? hy)
          rw [hflags y, hfl y hyL, hhead y hy] at hh
          cases hh.2
        · refine NoAdjFree_congr st.mem _ L2 ?_ hna
          intro x hx
          rw [hflags, hfl x (hsub x hx)]
    · show 0 < st3.brk
      rw [hbrk, hm.brk_eq]; exact hb0
    · show st3.brk ≤ st3.limit
      rw [hbrk, hm.brk_eq, hlimit, hm.limit_eq]; exact hb
    · show st3.limit ≤ W / 2
      rw [hlimit, hm.limit_eq]; exact hlim
  cases l2 with
  | nil =>
    have e : freeRight H st st2 c [] = st2 := by simp [freeRight]
    rw [e]
    refine ⟨coalesceNext_seg_skip H st2 L1 [] c st.brk hm.seg (by simp), ?_⟩
    exact fin st2 [] hm.seg (fun _ => rfl) rfl rfl rfl (by simp) trivial (by simp)
  | cons z l2' =>
    have hz2 : (st2.mem z).free = (st.mem z).free := hfl z (List.mem_cons_self _ _)
    have hna := (NoAdjFree_cons st.mem z l2').1 hm.noadj2
    by_cases hzf : (st.mem z).free = true
    · have e : freeRight H st st2 c (z :: l2') = absorbState H st2 c z := by
        simp [freeRight, hzf]
      have e2 : freeListRight st.mem (z :: l2') = l2' := by simp [freeListRight, hzf]
      rw [e, e2]
      refine ⟨coalesceNext_seg H st2 hH L1 l2' c z st.brk hm.seg (by rw [hz2]; exact hzf), ?_⟩
      refine fin _ l2' (Seg_absorb H _ hH L1 l2' c z st.brk hW hm.seg) ?_ rfl rfl rfl
        (fun x hx => List.mem_cons_of_mem _ hx) hna.2 ?_
      · intro x
        simp only [absorbState, absorbMem_free]
      · intro y hy
        have := hna.1 y hy
        cases hyf : (st.mem y).free
        · rfl
        · exact absurd ⟨hzf, hyf⟩ this
    · have hzf' : (st.mem z).free = false := by
        cases hq : (st.mem z).free
        · rfl
        · exact absurd hq hzf
      have e : freeRight H st st2 c (z :: l2') = st2 := by simp [freeRight, hzf']
      have e2 : freeListRight st.mem (z :: l2') = z :: l2' := by simp [freeListRight, hzf']
      rw [e, e2]
      refine ⟨coalesceNext_seg_skip H st2 L1 (z :: l2') c st.brk hm.seg ?_, ?_⟩
      · intro y hy
        simp only [List.head?_cons, Option.some.injEq] at hy
        subst hy
        rw [hz2]; exact hzf'
      · refine fin st2 (z :: l2') hm.seg (fun _ => rfl) rfl rfl rfl (fun x hx => hx) hm.noadj2 ?_
        intro y hy
        simp only [List.head?_cons, Option.some.injEq] at hy
        subst hy
        exact hzf'

theorem Inv.block_data {H : Nat} {st : State} {l : List Nat} (h : Inv H st l) (a : Nat)
    (ha : a ∈ l) : BLOCK_DATA H a = a + H ∧ BLOCK_HEADER H (a + H) = a ∧ a + H ≠ 0 ∧ 0 < a := by
  have hW : W = 18446744073709551616 := rfl
  have h1 := h.size_lt a ha
  have h0 := Seg_pos H st.mem l _ _ _ h.seg a ha
  refine ⟨?_, ?_, by omega, h0⟩
  · unfold BLOCK_DATA
    exact Nat.mod_eq_of_lt (by omega)
  · unfold BLOCK_HEADER
    have : H % W = H := Nat.mod_eq_of_lt (by omega)
    rw [this]
    have : a + H + W - H = a + W := by omega
    rw [this, Nat.add_mod_right]
    exact Nat.mod_eq_of_lt (by omega)

/-- The function `free` on a well-formed heap: the call returns, with the state `freeResult`, and
the invariant holds for the list `freeList`. -/
theorem free_wf (H : Nat) (st : State) (hH : 0 < H) (l1 l2 : List Nat) (a : Nat)
    (h : Inv H st (l1 ++ a :: l2)) (hfree : (st.mem a).free = false) :
    free H st (a + H) = Outcome.ret () (freeResult H st l1 a l2) ∧
      Inv H (freeResult H st l1 a l2) (freeList st.mem l1 a l2) := by
  obtain ⟨-, hbh, hne, -⟩ := h.block_data a (by simp)
  obtain ⟨hcp, L1, hL1, hmid⟩ := free_left H st hH l1 l2 a h
  obtain ⟨hcn, hinv⟩ := free_right H st _ hH L1 l2 a _ h.brk_pos h.brk_le h.lim_le hmid
  constructor
  · simp only [free, if_neg hne, hbh, hfree, ne_eq, not_true_eq_false, if_false, hcp, hcn]
    rfl
  · have : freeList st.mem l1 a l2 =
        L1 ++ (freeLeft H st l1 a).1 :: freeListRight st.mem l2 := by
      simp [freeList, hL1]
    rw [this]
    exact hinv

/-- A valid call of `free` keeps the invariant. -/
theorem free_preserves (H : Nat) (st st' : State) (l : List Nat) (p : Nat) (hH : 0 < H)
    (h : Inv H st l) (hp : p = 0 ∨ Live H st p)
    (hf : free H st p = Outcome.ret () st') : ∃ l', Inv H st' l' := by
  rcases hp with rfl | ⟨a, ha, hpa, hfree⟩
  · simp only [free, if_true] at hf
    cases hf
    exact ⟨l, h⟩
  · rw [h.blockAddrs hH] at ha
    obtain ⟨l1, l2, rfl⟩ := List.append_of_mem ha
    rw [(h.block_data a ha).1] at hpa
    subst hpa
    obtain ⟨he, hinv⟩ := free_wf H st hH l1 l2 a h hfree
    rw [he] at hf
    cases hf
    exact ⟨_, hinv⟩

/-! ## The sizes and the free flags after `malloc` -/

theorem reuseResult_free (st : State) (f r x : Nat) :
    ((reuseResult st f r).mem x).free = if x = f then false else (st.mem x).free := by
  simp only [reuseResult, markUsed_free, countReuse_mem, registerAtexit_mem]

theorem reuseResult_size (st : State) (f r x : Nat) :
    ((reuseResult st f r).mem x).size = (st.mem x).size := by
  simp only [reuseResult, markUsed_size, countReuse_mem, registerAtexit_mem]

theorem growState_size_at (H : Nat) (st : State) (last size e x : Nat) :
    ((growState H st last size e).mem x).size = if x = e then size else (st.mem x).size := by
  simp only [growState, setBlock_apply]
  by_cases hx : x = e
  · simp only [if_pos hx]
  · simp only [if_neg hx]
    by_cases hl : last ≠ 0
    · simp only [if_pos hl, setBlock_apply]
      by_cases hxl : x = last
      · subst hxl; simp only [if_true]
      · simp only [if_neg hxl]
    · simp only [if_neg hl]

theorem growResult_free (H : Nat) (st : State) (last r x : Nat) :
    ((growResult H st last r).mem x).free = if x = st.brk then false else (st.mem x).free := by
  simp only [growResult, markUsed_free, growState_free, registerAtexit_mem]
  split_ifs <;> rfl

theorem growResult_size (H : Nat) (st : State) (last r x : Nat) :
    ((growResult H st last r).mem x).size = if x = st.brk then r else (st.mem x).size := by
  simp only [growResult, markUsed_size, growState_size_at, registerAtexit_mem]

/-- The sizes after a split of the free block `f` of the list. -/
theorem splitResult_size (H : Nat) (st : State) (hH : 0 < H) (l1 l2 : List Nat) (f r : Nat)
    (h : Inv H st (l1 ++ f :: l2)) (hbig : r + H + 4 < (st.mem f).size) (x : Nat) :
    ((splitResult H st f r).mem x).size =
      if x = f then r else if x = f + H + r then (st.mem f).size - r - H
      else (st.mem x).size := by
  have hW : st.brk ≤ W / 2 := le_trans h.brk_le h.lim_le
  have hseg : Seg H (countReuse (registerAtexit st) f).mem 0 (l1 ++ f :: l2) 0 st.brk := by
    simpa using h.seg
  have hm := splitBlock_mem_wf H (countReuse (registerAtexit st) f) hH l1 l2 f r st.brk hW hseg
    (by simpa using hbig)
  simp only [splitResult, markUsed_size, hm, countReuse_mem, registerAtexit_mem]
  split_ifs <;> rfl

/-- A block that is live before a call of `malloc` is live after it. -/
theorem malloc_live (fit : Fit) (H : Nat) (st st' : State) (l : List Nat) (s q : Nat)
    (hfit : fit ≠ Fit.next) (hH : 0 < H) (h : Inv H st l) (hsz : H + ALIGN4 s < W)
    (hm : malloc fit H st s = Outcome.ret q st') (a : Nat) (ha : a ∈ l)
    (hfree : (st.mem a).free = false) :
    ∃ l', Inv H st' l' ∧ a ∈ l' ∧ (st'.mem a).free = false ∧
      (st'.mem a).size = (st.mem a).size ∧ st'.bytes = st.bytes := by
  by_cases hr : ALIGN4 s = 0
  · rcases malloc_inv _ _ _ _ _ _ hm with ⟨-, -, rfl⟩ | ⟨hne, -⟩
    · exact ⟨l, Inv_registerAtexit h, ha, by simpa using hfree, by simp, by simp⟩
    · exact absurd hr hne
  · have haend := (Seg_end_le H st.mem l _ _ _ h.seg a ha).1
    rcases malloc_wf fit H st l s hfit hH h hsz hr with
      ⟨-, ⟨hroom, he⟩ | ⟨-, he⟩⟩ | ⟨f, l1, l2, hl, hff, ⟨hbig, he⟩ | ⟨-, he⟩⟩
    · rw [he] at hm; cases hm
      have hab : a ≠ st.brk := by omega
      refine ⟨_, Inv_grow H st hH l _ h hroom, by simp [ha], ?_, ?_, ?_⟩
      · rw [growResult_free, if_neg hab]; exact hfree
      · rw [growResult_size, if_neg hab]
      · simp [growResult, growState]
    · rw [he] at hm; cases hm
    · rw [he] at hm; cases hm
      subst hl
      have haf : a ≠ f := by
        intro hh; rw [hh, hff.1] at hfree; cases hfree
      have hsorted := Seg_sorted H st.mem hH _ _ _ _ h.seg
      rw [List.pairwise_append] at hsorted
      obtain ⟨-, hs2, hs12⟩ := hsorted
      have hlow := Seg_head_lt H st.mem f l2 _ _ _
        ((Seg_append H st.mem l1 (f :: l2) 0 0 st.brk).1 h.seg).2
      have hanb : a ≠ f + H + ALIGN4 s := by
        rcases List.mem_append.1 ha with h1 | h1
        · have := hs12 a h1 f (List.mem_cons_self _ _)
          omega
        · rcases List.mem_cons.1 h1 with h2 | h2
          · exact absurd h2 haf
          · have := hlow a h2
            omega
      refine ⟨_, Inv_split H st hH l1 l2 f _ h hff.1 hbig, ?_, ?_, ?_, ?_⟩
      · rcases List.mem_append.1 ha with h1 | h1
        · simp [h1]
        · rcases List.mem_cons.1 h1 with h2 | h2
          · exact absurd h2 haf
          · simp [h2]
      · rw [splitResult_free H st hH l1 l2 f _ h hbig, if_neg haf, if_neg hanb]; exact hfree
      · rw [splitResult_size H st hH l1 l2 f _ h hbig, if_neg haf, if_neg hanb]
      · simp [splitResult]
    · rw [he] at hm; cases hm
      have haf : a ≠ f := by
        intro hh; rw [hh, hff.1] at hfree; cases hfree
      refine ⟨l, Inv_reuse H st l f _ h, ha, ?_, ?_, ?_⟩
      · rw [reuseResult_free, if_neg haf]; exact hfree
      · rw [reuseResult_size]
      · simp [reuseResult]

/-! ## The invariant holds in every reachable state -/

theorem Inv_bytes {H : Nat} {st : State} {l : List Nat} (b : Nat → Nat) (h : Inv H st l) :
    Inv H { st with bytes := b } l :=
  ⟨h.seg, h.root, h.noadj, h.brk_pos, h.brk_le, h.lim_le⟩

theorem Inv_init (H b0 lim : Nat) (hp : Params H b0 lim) : Inv H (initState b0 lim) [] :=
  ⟨trivial, rfl, trivial, hp.bpos, hp.blim, hp.limW⟩

theorem Outcome.bind_eq_ret {α β : Type} (o : Outcome α) (f : α → State → Outcome β)
    (v : β) (s : State) :
    o.bind f = Outcome.ret v s ↔ ∃ v1 s1, o = Outcome.ret v1 s1 ∧ f v1 s1 = Outcome.ret v s := by
  cases o with
  | ret v1 s1 =>
    constructor
    · intro h; exact ⟨v1, s1, rfl, h⟩
    · rintro ⟨v2, s2, h1, h2⟩
      cases h1
      exact h2
  | abort =>
    constructor
    · intro h; cases h
    · rintro ⟨v2, s2, h1, -⟩; cases h1
  | diverge =>
    constructor
    · intro h; cases h
    · rintro ⟨v2, s2, h1, -⟩; cases h1

/-- The ways `calloc` returns. -/
theorem calloc_inv (fit : Fit) (H : Nat) (st st' : State) (n s p : Nat)
    (hm : calloc fit H st n s = Outcome.ret p st') :
    ∃ st1, malloc fit H st ((n * s) % W) = Outcome.ret p st1 ∧
      ((p = 0 ∧ st' = st1) ∨
       (p ≠ 0 ∧ st' = { st1 with bytes := memset0 st1.bytes p ((n * s) % W) })) := by
  unfold calloc at hm
  rw [Outcome.bind_eq_ret] at hm
  obtain ⟨ptr, st1, hmal, hres⟩ := hm
  by_cases hp : ptr ≠ 0
  · rw [if_pos hp] at hres
    injection hres with h1 h2
    subst h1 h2
    exact ⟨st1, hmal, Or.inr ⟨hp, rfl⟩⟩
  · rw [if_neg hp] at hres
    injection hres with h1 h2
    subst h1 h2
    exact ⟨st1, hmal, Or.inl ⟨not_not.1 hp, rfl⟩⟩

/-- The ways `realloc` returns. -/
theorem realloc_inv (fit : Fit) (H : Nat) (st st' : State) (p s q : Nat)
    (hm : realloc fit H st p s = Outcome.ret q st') :
    (p = 0 ∧ malloc fit H st s = Outcome.ret q st') ∨
    (p ≠ 0 ∧ s = 0 ∧ q = 0 ∧ free H st p = Outcome.ret () st') ∨
    (p ≠ 0 ∧ s ≠ 0 ∧ s ≤ (st.mem (BLOCK_HEADER H p)).size ∧ q = p ∧ st' = st) ∨
    (p ≠ 0 ∧ s ≠ 0 ∧ (st.mem (BLOCK_HEADER H p)).size < s ∧ ∃ st1,
      malloc fit H st s = Outcome.ret q st1 ∧
      ((q = 0 ∧ st' = st1) ∨
       (q ≠ 0 ∧
        free H
          { st1 with
            bytes := memcpy st1.bytes q p (st1.mem (BLOCK_HEADER H p)).size } p =
          Outcome.ret () st'))) := by
  unfold realloc at hm
  by_cases hp : p = 0
  · rw [if_pos hp] at hm
    exact Or.inl ⟨hp, hm⟩
  · rw [if_neg hp] at hm
    by_cases hs : s = 0
    · rw [if_pos hs, Outcome.bind_eq_ret] at hm
      obtain ⟨u, st1, hf, hres⟩ := hm
      injection hres with h1 h2
      subst h1 h2
      exact Or.inr (Or.inl ⟨hp, hs, rfl, hf⟩)
    · rw [if_neg hs] at hm
      by_cases hsz : (st.mem (BLOCK_HEADER H p)).size ≥ s
      · rw [if_pos hsz] at hm
        injection hm with h1 h2
        subst h1 h2
        exact Or.inr (Or.inr (Or.inl ⟨hp, hs, hsz, rfl, rfl⟩))
      · rw [if_neg hsz, Outcome.bind_eq_ret] at hm
        refine Or.inr (Or.inr (Or.inr ⟨hp, hs, by omega, ?_⟩))
        obtain ⟨new_ptr, st1, hmal, hres⟩ := hm
        by_cases hn : new_ptr ≠ 0
        · rw [if_pos hn, Outcome.bind_eq_ret] at hres
          obtain ⟨u, st3, hf, hres2⟩ := hres
          injection hres2 with h1 h2
          subst h1 h2
          exact ⟨st1, hmal, Or.inr ⟨hn, hf⟩⟩
        · rw [if_neg hn] at hres
          injection hres with h1 h2
          subst h1 h2
          exact ⟨st1, hmal, Or.inl ⟨not_not.1 hn, rfl⟩⟩

theorem calloc_preserves (fit : Fit) (H : Nat) (st st' : State) (l : List Nat) (n s p : Nat)
    (hfit : fit ≠ Fit.next) (hH : 0 < H) (h : Inv H st l)
    (hsz : H + ALIGN4 ((n * s) % W) < W)
    (hm : calloc fit H st n s = Outcome.ret p st') : ∃ l', Inv H st' l' := by
  obtain ⟨st1, hmal, hres⟩ := calloc_inv fit H st st' n s p hm
  obtain ⟨l', hl'⟩ := malloc_preserves fit H st st1 l _ p hfit hH h hsz hmal
  rcases hres with ⟨-, rfl⟩ | ⟨-, rfl⟩
  · exact ⟨l', hl'⟩
  · exact ⟨l', Inv_bytes _ hl'⟩

theorem blockAddrs_bytes (st : State) (b : Nat → Nat) :
    blockAddrs { st with bytes := b } = blockAddrs st := rfl

theorem realloc_preserves (fit : Fit) (H : Nat) (st st' : State) (l : List Nat) (p s q : Nat)
    (hfit : fit ≠ Fit.next) (hH : 0 < H) (h : Inv H st l) (hp : p = 0 ∨ Live H st p)
    (hsz : H + ALIGN4 s < W)
    (hm : realloc fit H st p s = Outcome.ret q st') : ∃ l', Inv H st' l' := by
  rcases realloc_inv fit H st st' p s q hm with
    ⟨-, hmal⟩ | ⟨hp0, -, -, hf⟩ | ⟨-, -, -, -, rfl⟩ | ⟨hp0, -, -, st1, hmal, hres⟩
  · exact malloc_preserves fit H st st' l s q hfit hH h hsz hmal
  · exact free_preserves H st _ l p hH h hp hf
  · exact ⟨l, h⟩
  · have hlive : Live H st p := hp.resolve_left hp0
    obtain ⟨a, ha, hpa, hfree⟩ := hlive
    rw [h.blockAddrs hH] at ha
    obtain ⟨l1, hl1, hal1, hf1, -, -⟩ :=
      malloc_live fit H st st1 l s q hfit hH h hsz hmal a ha hfree
    rcases hres with ⟨-, rfl⟩ | ⟨-, hf⟩
    · exact ⟨l1, hl1⟩
    · refine free_preserves H _ _ l1 p hH (Inv_bytes _ hl1) (Or.inr ?_) hf
      refine ⟨a, ?_, hpa, hf1⟩
      rw [blockAddrs_bytes, hl1.blockAddrs hH]
      exact hal1

/-- Under the first-fit, best-fit or worst-fit policy, every state reached from the empty
heap by valid calls satisfies the representation invariant, for some list of blocks. -/
theorem reach_inv (fit : Fit) (H b0 lim : Nat) (st : State) (hfit : fit ≠ Fit.next)
    (hp : Params H b0 lim) (hr : Reach fit H b0 lim st) : ∃ l, Inv H st l := by
  induction hr with
  | init => exact ⟨[], Inv_init H b0 lim hp⟩
  | malloc _ _ hsz hm ih =>
    obtain ⟨l, hl⟩ := ih
    exact malloc_preserves fit H _ _ l _ _ hfit hp.hpos hl hsz hm
  | calloc _ hsz hm ih =>
    obtain ⟨l, hl⟩ := ih
    exact calloc_preserves fit H _ _ l _ _ _ hfit hp.hpos hl hsz hm
  | realloc _ hlive _ hsz hm ih =>
    obtain ⟨l, hl⟩ := ih
    exact realloc_preserves fit H _ _ l _ _ _ hfit hp.hpos hl hlive hsz hm
  | free _ hlive hm ih =>
    obtain ⟨l, hl⟩ := ih
    exact free_preserves H _ _ l _ hp.hpos hl hlive hm
  | write _ _ _ _ ih =>
    obtain ⟨l, hl⟩ := ih
    exact ⟨l, Inv_bytes _ hl⟩

/-! ## What `free` and `malloc` leave unchanged -/

theorem coalescePrev_frame (H : Nat) (st : State) (curr : Nat) :
    (coalescePrev H st curr).2.heapList = st.heapList ∧
      (coalescePrev H st curr).2.brk = st.brk ∧
      (coalescePrev H st curr).2.limit = st.limit ∧
      (coalescePrev H st curr).2.bytes = st.bytes ∧
      (coalescePrev H st curr).2.last_allocated = st.last_allocated ∧
      (coalescePrev H st curr).2.atexit_registered = st.atexit_registered := by
  unfold coalescePrev
  split
  · exact ⟨rfl, rfl, rfl, rfl, rfl, rfl⟩
  · exact ⟨rfl, rfl, rfl, rfl, rfl, rfl⟩

theorem coalesceNext_frame (H : Nat) (st : State) (curr : Nat) :
    (coalesceNext H st curr).heapList = st.heapList ∧
      (coalesceNext H st curr).brk = st.brk ∧
      (coalesceNext H st curr).limit = st.limit ∧
      (coalesceNext H st curr).bytes = st.bytes ∧
      (coalesceNext H st curr).last_allocated = st.last_allocated ∧
      (coalesceNext H st curr).atexit_registered = st.atexit_registered := by
  unfold coalesceNext
  split
  · exact ⟨rfl, rfl, rfl, rfl, rfl, rfl⟩
  · exact ⟨rfl, rfl, rfl, rfl, rfl, rfl⟩

/-- Whatever the state, `free` changes neither the root, the break, the payload bytes nor
the next-fit cursor. -/
theorem free_frame (H : Nat) (st st' : State) (p : Nat)
    (h : free H st p = Outcome.ret () st') :
    st'.heapList = st.heapList ∧ st'.brk = st.brk ∧ st'.limit = st.limit ∧
      st'.bytes = st.bytes ∧ st'.last_allocated = st.last_allocated ∧
      st'.atexit_registered = st.atexit_registered := by
  rcases free_inv H st st' p h with ⟨-, rfl⟩ | ⟨-, -, rfl⟩
  · exact ⟨rfl, rfl, rfl, rfl, rfl, rfl⟩
  · obtain ⟨a1, a2, a3, a4, a5, a6⟩ := coalescePrev_frame H (markFree st (BLOCK_HEADER H p))
      (BLOCK_HEADER H p)
    obtain ⟨b1, b2, b3, b4, b5, b6⟩ := coalesceNext_frame H
      (coalescePrev H (markFree st (BLOCK_HEADER H p)) (BLOCK_HEADER H p)).2
      (coalescePrev H (markFree st (BLOCK_HEADER H p)) (BLOCK_HEADER H p)).1
    refine ⟨?_, ?_, ?_, ?_, ?_, ?_⟩
    · show (coalesceNext H _ _).heapList = _
      rw [b1, a1]; rfl
    · show (coalesceNext H _ _).brk = _
      rw [b2, a2]; rfl
    · show (coalesceNext H _ _).limit = _
      rw [b3, a3]; rfl
    · show (coalesceNext H _ _).bytes = _
      rw [b4, a4]; rfl
    · show (coalesceNext H _ _).last_allocated = _
      rw [b5, a5]; rfl
    · show (coalesceNext H _ _).atexit_registered = _
      rw [b6, a6]; rfl

theorem Inv.root_zero_iff {H : Nat} {st : State} {l : List Nat} (h : Inv H st l) :
    st.heapList = 0 ↔ l = [] := by
  rw [h.root]
  cases l with
  | nil => simp
  | cons a l' =>
    have := Seg_pos H st.mem _ _ _ _ h.seg a (List.mem_cons_self _ _)
    simp only [List.headD_cons]
    constructor
    · intro hh; omega
    · intro hh; cases hh

theorem malloc_base (fit : Fit) (H b0 : Nat) (st st' : State) (l : List Nat) (s p : Nat)
    (hfit : fit ≠ Fit.next) (hH : 0 < H) (h : Inv H st l) (hsz : H + ALIGN4 s < W)
    (hm : malloc fit H st s = Outcome.ret p st') (hb : Base b0 st) : Base b0 st' := by
  by_cases hr : ALIGN4 s = 0
  · rcases malloc_inv _ _ _ _ _ _ hm with ⟨-, -, rfl⟩ | ⟨hne, -⟩
    · simpa [Base] using hb
    · exact absurd hr hne
  · rcases malloc_wf fit H st l s hfit hH h hsz hr with
      ⟨-, ⟨hroom, he⟩ | ⟨-, he⟩⟩ | ⟨f, l1, l2, hl, hff, ⟨hbig, he⟩ | ⟨-, he⟩⟩
    · rw [he] at hm; cases hm
      have hbp := h.brk_pos
      have e : (growResult H st (l.getLastD 0) (ALIGN4 s)).heapList =
          if st.heapList = 0 then st.brk else st.heapList := by
        simp [growResult, growState]
      right
      rw [e]
      rcases hb with ⟨h0, hbrk⟩ | ⟨h1, h2⟩
      · rw [if_pos h0, hbrk]
        exact ⟨rfl, by omega⟩
      · rw [if_neg h2]
        exact ⟨h1, h2⟩
    · rw [he] at hm; cases hm
    · rw [he] at hm; cases hm
      simpa [Base, splitResult] using hb
    · rw [he] at hm; cases hm
      simpa [Base, reuseResult] using hb

theorem free_base (H b0 : Nat) (st st' : State) (p : Nat)
    (hf : free H st p = Outcome.ret () st') (hb : Base b0 st) : Base b0 st' := by
  obtain ⟨h1, h2, -⟩ := free_frame H st st' p hf
  simpa [Base, h1, h2] using hb

theorem Base_bytes (b0 : Nat) (st : State) (b : Nat → Nat) (hb : Base b0 st) :
    Base b0 { st with bytes := b } := hb

/-- Under the first-fit, best-fit or worst-fit policy, every state reached from the empty
heap by valid calls satisfies the representation invariant, and its root, when it is set, is
the first address the operating system handed out. -/
theorem reach_inv_base (fit : Fit) (H b0 lim : Nat) (st : State) (hfit : fit ≠ Fit.next)
    (hp : Params H b0 lim) (hr : Reach fit H b0 lim st) :
    (∃ l, Inv H st l) ∧ Base b0 st := by
  induction hr with
  | init => exact ⟨⟨[], Inv_init H b0 lim hp⟩, Or.inl ⟨rfl, rfl⟩⟩
  | malloc _ _ hsz hm ih =>
    obtain ⟨⟨l, hl⟩, hb⟩ := ih
    exact ⟨malloc_preserves fit H _ _ l _ _ hfit hp.hpos hl hsz hm,
      malloc_base fit H b0 _ _ l _ _ hfit hp.hpos hl hsz hm hb⟩
  | calloc _ hsz hm ih =>
    obtain ⟨⟨l, hl⟩, hb⟩ := ih
    refine ⟨calloc_preserves fit H _ _ l _ _ _ hfit hp.hpos hl hsz hm, ?_⟩
    obtain ⟨st1, hmal, hres⟩ := calloc_inv fit H _ _ _ _ _ hm
    have := malloc_base fit H b0 _ _ l _ _ hfit hp.hpos hl hsz hmal hb
    rcases hres with ⟨-, rfl⟩ | ⟨-, rfl⟩
    · exact this
    · exact this
  | realloc hreach hlive _ hsz hm ih =>
    obtain ⟨⟨l, hl⟩, hb⟩ := ih
    refine ⟨realloc_preserves fit H _ _ l _ _ _ hfit hp.hpos hl hlive hsz hm, ?_⟩
    rcases realloc_inv fit H _ _ _ _ _ hm with
      ⟨-, hmal⟩ | ⟨-, -, -, hf⟩ | ⟨-, -, -, -, rfl⟩ | ⟨-, -, -, st1, hmal, hres⟩
    · exact malloc_base fit H b0 _ _ l _ _ hfit hp.hpos hl hsz hmal hb
    · exact free_base H b0 _ _ _ hf hb
    · exact hb
    · have := malloc_base fit H b0 _ _ l _ _ hfit hp.hpos hl hsz hmal hb
      rcases hres with ⟨-, rfl⟩ | ⟨-, hf⟩
      · exact this
      · exact free_base H b0 _ _ _ hf (Base_bytes b0 _ _ this)
  | free _ hlive hm ih =>
    obtain ⟨⟨l, hl⟩, hb⟩ := ih
    exact ⟨free_preserves H _ _ l _ hp.hpos hl hlive hm, free_base H b0 _ _ _ hm hb⟩
  | write _ _ _ _ ih =>
    obtain ⟨⟨l, hl⟩, hb⟩ := ih
    exact ⟨⟨l, Inv_bytes _ hl⟩, hb⟩

/-! ## Link consistency and eager coalescing -/

theorem Seg_links (H : Nat) (mem : Nat → Block) (l : List Nat) (e : Nat)
    (h : Seg H mem 0 l 0 e) :
    ∀ b ∈ l,
      ((mem b).next ≠ 0 → (mem b).next ∈ l ∧ (mem (mem b).next).prev = b) ∧
      ((mem b).prev ≠ 0 → (mem b).prev ∈ l ∧ (mem (mem b).prev).next = b) := by
  intro b hb
  obtain ⟨l1, l2, rfl⟩ := List.append_of_mem hb
  rw [Seg_append] at h
  obtain ⟨h1, -, hbp, hbn, -, h2⟩ := h
  simp only [List.headD_cons] at h1
  constructor
  · intro hn
    rw [hbn] at hn ⊢
    cases l2 with
    | nil => exact absurd rfl hn
    | cons z l2' =>
      simp only [List.headD_cons]
      exact ⟨by simp, h2.2.1⟩
  · intro hp
    rw [hbp] at hp ⊢
    rcases List.eq_nil_or_concat l1 with rfl | ⟨l1', q, rfl⟩
    · exact absurd rfl hp
    · rw [List.concat_eq_append] at h1 ⊢
      rw [getLastD_concat]
      rw [Seg_append] at h1
      obtain ⟨-, -, -, hqn, -⟩ := h1
      exact ⟨by simp, hqn⟩

theorem Seg_tiles (H : Nat) (mem : Nat → Block) :
    ∀ (l : List Nat) (p n e : Nat), Seg H mem p l n e → Tiles H mem (l.headD e) l e := by
  intro l
  induction l with
  | nil => intro p n e _; rfl
  | cons a l ih =>
    intro p n e h
    obtain ⟨-, -, -, h3, h4⟩ := h
    refine ⟨rfl, ?_⟩
    rw [h3]
    exact ih _ _ _ h4

theorem NoAdjFree_next (H : Nat) (mem : Nat → Block) (l : List Nat) (e : Nat)
    (h : Seg H mem 0 l 0 e) (hn : NoAdjFree mem l) :
    ∀ b ∈ l, ¬ ((mem b).free = true ∧ (mem b).next ≠ 0 ∧ (mem (mem b).next).free = true) := by
  intro b hb
  obtain ⟨l1, l2, rfl⟩ := List.append_of_mem hb
  rw [Seg_append] at h
  obtain ⟨-, -, -, hbn, -, -⟩ := h
  have := ((NoAdjFree_cons mem b l2).1 ((NoAdjFree_split mem l1 b l2).1 hn).2).1
  rintro ⟨hf, hnn, hf2⟩
  rw [hbn] at hnn hf2
  cases l2 with
  | nil => exact hnn rfl
  | cons z l2' =>
    simp only [List.headD_cons] at hf2
    exact this z rfl ⟨hf, hf2⟩

/-- Link consistency when every request is in range: under the first-fit, best-fit or
worst-fit policy, in every state reached from the empty heap by valid calls with
`H + ALIGN4 s < W` for every size requested, every block `b` of the list satisfies: if `b.next` is not null then
it is a block of the list and `b.next.prev = b`, and if `b.prev` is not null then it is a block of
the list and `b.prev.next = b`; the root, when set, has `prev = NULL`; and the blocks reached
from the root via `next` are laid end to end from the first address the operating system
handed out to the current break, so that no block that was created and not absorbed is
missing from the list. -/
theorem link_consistency (fit : Fit) (H b0 lim : Nat) (st : State) (hfit : fit ≠ Fit.next)
    (hp : Params H b0 lim) (hr : Reach fit H b0 lim st) :
    (∀ b ∈ blockAddrs st,
      ((st.mem b).next ≠ 0 →
        (st.mem b).next ∈ blockAddrs st ∧ (st.mem (st.mem b).next).prev = b) ∧
      ((st.mem b).prev ≠ 0 →
        (st.mem b).prev ∈ blockAddrs st ∧ (st.mem (st.mem b).prev).next = b)) ∧
    (st.heapList ≠ 0 → st.heapList ∈ blockAddrs st ∧ (st.mem st.heapList).prev = 0) ∧
    Tiles H st.mem b0 (blockAddrs st) st.brk := by
  obtain ⟨⟨l, hl⟩, hb⟩ := reach_inv_base fit H b0 lim st hfit hp hr
  rw [hl.blockAddrs hp.hpos]
  refine ⟨Seg_links H st.mem l st.brk hl.seg, ?_, ?_⟩
  · intro hne
    have hroot := hl.root
    cases l with
    | nil => exact absurd hroot hne
    | cons a l' =>
      simp only [List.headD_cons] at hroot
      rw [hroot]
      exact ⟨by simp, hl.seg.2.1⟩
  · have ht := Seg_tiles H st.mem l _ _ _ hl.seg
    have hroot := hl.root
    cases l with
    | nil =>
      simp only [List.headD_nil] at hroot ht
      rcases hb with ⟨-, hbrk⟩ | ⟨-, h2⟩
      · show b0 = st.brk
        exact hbrk.symm
      · exact absurd hroot h2
    | cons a l' =>
      simp only [List.headD_cons] at hroot ht
      rcases hb with ⟨h0, -⟩ | ⟨h1, -⟩
      · have := Seg_pos H st.mem _ _ _ _ hl.seg a (List.mem_cons_self _ _)
        omega
      · rw [← h1, hroot]
        exact ht

/-- Eager coalescing when every request is in range: under the first-fit, best-fit or
worst-fit policy, in every state reached from the empty heap by valid calls with
`H + ALIGN4 s < W` for every size requested (so after every completed `malloc` or `free`), there
is no block `b` in the list such that both `b` and `b.next` are free. -/
theorem eager_coalescing (fit : Fit) (H b0 lim : Nat) (st : State) (hfit : fit ≠ Fit.next)
    (hp : Params H b0 lim) (hr : Reach fit H b0 lim st) :
    ∀ b ∈ blockAddrs st,
      ¬ ((st.mem b).free = true ∧ (st.mem b).next ≠ 0 ∧
        (st.mem (st.mem b).next).free = true) := by
  obtain ⟨l, hl⟩ := reach_inv fit H b0 lim st hfit hp hr
  rw [hl.blockAddrs hp.hpos]
  exact NoAdjFree_next H st.mem l st.brk hl.seg hl.noadj

theorem Reach.malloc_val {fit : Fit} {H b0 lim : Nat} {st : State} (s p : Nat)
    (hr : Reach fit H b0 lim st) (hs : s < W) (hsz : H + ALIGN4 s < W)
    (hv : (Malloc.malloc fit H st s).val? = some p) :
    Reach fit H b0 lim (afterMalloc fit H st s) :=
  Reach.malloc hr hs hsz (Outcome.eq_ret_of_val _ p st hv)

theorem Reach.free_val {fit : Fit} {H b0 lim : Nat} {st : State} (p : Nat)
    (hr : Reach fit H b0 lim st) (hl : p = 0 ∨ Live H st p)
    (hv : (Malloc.free H st p).val? = some ()) :
    Reach fit H b0 lim (afterFree H st p) :=
  Reach.free hr hl (Outcome.eq_ret_of_val _ () st hv)

theorem nextRun7_reach : Reach Fit.next 32 1000 100000 nextRun7 := by
  have r1 : Reach Fit.next 32 1000 100000 nextRun1 :=
    Reach.malloc_val 8 1032 Reach.init (by decide) (by decide) (by decide)
  have r2 : Reach Fit.next 32 1000 100000 nextRun2 :=
    Reach.malloc_val 8 1072 r1 (by decide) (by decide) (by decide)
  have r3 : Reach Fit.next 32 1000 100000 nextRun3 :=
    Reach.malloc_val 8 1112 r2 (by decide) (by decide) (by decide)
  have r4 : Reach Fit.next 32 1000 100000 nextRun4 :=
    Reach.free_val 1072 r3 (Or.inr (by decide)) (by decide)
  have r5 : Reach Fit.next 32 1000 100000 nextRun5 :=
    Reach.malloc_val 8 1072 r4 (by decide) (by decide) (by decide)
  have r6 : Reach Fit.next 32 1000 100000 nextRun6 :=
    Reach.free_val 1072 r5 (Or.inr (by decide)) (by decide)
  exact Reach.free_val 1032 r6 (Or.inr (by decide)) (by decide)

/-! ## The view of the block list -/

theorem viewOf_append (mem : Nat → Block) (l1 l2 : List Nat) :
    viewOf mem (l1 ++ l2) = viewOf mem l1 ++ viewOf mem l2 := by
  simp [viewOf]

theorem viewOf_cons (mem : Nat → Block) (a : Nat) (l : List Nat) :
    viewOf mem (a :: l) = (a, (mem a).size, (mem a).free) :: viewOf mem l := rfl

theorem viewOf_nil (mem : Nat → Block) : viewOf mem [] = [] := rfl

theorem viewOf_congr (mem mem' : Nat → Block) (l : List Nat)
    (h : ∀ x ∈ l, (mem' x).size = (mem x).size ∧ (mem' x).free = (mem x).free) :
    viewOf mem' l = viewOf mem l := by
  unfold viewOf
  apply List.map_congr_left
  intro x hx
  rw [(h x hx).1, (h x hx).2]

theorem Inv.view_eq {H : Nat} {st : State} {l : List Nat} (hH : 0 < H) (h : Inv H st l) :
    view st = viewOf st.mem l := by
  unfold view viewOf
  rw [h.blockAddrs hH]

theorem absorbMem_size (H : Nat) (mem : Nat → Block) (c y x : Nat) :
    ((absorbMem H mem c y) x).size =
      if x = c then ((mem c).size + (H + (mem y).size) % W) % W else (mem x).size := by
  simp only [absorbMem]
  by_cases h1 : x = c
  · subst h1; simp only [if_true]
  · simp only [if_neg h1]
    split <;> rfl

/-- The view after a merge: the block `c` has absorbed its successor `y`. -/
theorem viewOf_absorb (H : Nat) (mem : Nat → Block) (hH : 0 < H) (L1 L2 : List Nat)
    (c y e : Nat) (hW : e ≤ W / 2) (h : Seg H mem 0 (L1 ++ c :: y :: L2) 0 e) :
    viewOf (absorbMem H mem c y) (L1 ++ c :: L2) =
      viewOf mem L1 ++ (c, (mem c).size + H + (mem y).size, (mem c).free) :: viewOf mem L2 := by
  have hW' : W = 18446744073709551616 := rfl
  have hsorted := Seg_sorted H mem hH _ _ _ _ h
  have hend := Seg_end_le H mem _ _ _ _ h
  rw [List.pairwise_append] at hsorted
  obtain ⟨-, hs2, hs12⟩ := hsorted
  rw [List.pairwise_cons] at hs2
  obtain ⟨hc2, -⟩ := hs2
  have hyend := (hend y (by simp)).1
  have hcend := (hend c (by simp)).1
  have hcy : c < y := hc2 y (List.mem_cons_self _ _)
  rw [viewOf_append, viewOf_cons]
  congr 1
  · apply viewOf_congr
    intro x hx
    have : x ≠ c := (hs12 x hx c (List.mem_cons_self _ _)).ne
    rw [absorbMem_size, absorbMem_free, if_neg this]
    exact ⟨rfl, rfl⟩
  · congr 1
    · rw [absorbMem_size, if_pos rfl, absorbMem_free]
      have e1 : (H + (mem y).size) % W = H + (mem y).size := Nat.mod_eq_of_lt (by omega)
      have e2 : ((mem c).size + (H + (mem y).size)) % W = (mem c).size + (H + (mem y).size) :=
        Nat.mod_eq_of_lt (by omega)
      rw [e1, e2, Nat.add_assoc]
    · apply viewOf_congr
      intro x hx
      have : x ≠ c := (hc2 x (List.mem_cons_of_mem _ hx)).ne'
      rw [absorbMem_size, absorbMem_free, if_neg this]
      exact ⟨rfl, rfl⟩

theorem viewOf_markFree (st : State) (a : Nat) (l : List Nat) (h : a ∉ l) :
    viewOf (markFree st a).mem l = viewOf st.mem l := by
  apply viewOf_congr
  intro x hx
  have : x ≠ a := fun hh => h (hh ▸ hx)
  rw [markFree_size, markFree_free, if_neg this]
  exact ⟨rfl, rfl⟩

theorem mergeLeft_nil (H b s : Nat) : mergeLeft H [] b s = ([], b, s) := rfl

theorem mergeLeft_concat_free (H : Nat) (V : List (Nat × Nat × Bool)) (q sq b s : Nat) :
    mergeLeft H (V ++ [(q, sq, true)]) b s = (V, q, sq + H + s) := by
  simp [mergeLeft]

theorem mergeLeft_concat_used (H : Nat) (V : List (Nat × Nat × Bool)) (q sq b s : Nat) :
    mergeLeft H (V ++ [(q, sq, false)]) b s = (V ++ [(q, sq, false)], b, s) := by
  simp [mergeLeft]

theorem leftFree_nil : leftFree [] = false := rfl

theorem leftFree_concat (V : List (Nat × Nat × Bool)) (q sq : Nat) (f : Bool) :
    leftFree (V ++ [(q, sq, f)]) = f := by
  simp [leftFree]

/-- The view after the left merge of `free`, in the words of the spec. -/
theorem free_left_view (H : Nat) (st : State) (hH : 0 < H) (l1 l2 : List Nat) (a : Nat)
    (h : Inv H st (l1 ++ a :: l2)) (L1 : List Nat)
    (hL : freeListLeft st.mem l1 a = L1 ++ [(freeLeft H st l1 a).1]) :
    viewOf (freeLeft H st l1 a).2.mem L1 =
        (mergeLeft H (viewOf st.mem l1) a (st.mem a).size).1 ∧
      (freeLeft H st l1 a).1 = (mergeLeft H (viewOf st.mem l1) a (st.mem a).size).2.1 ∧
      ((freeLeft H st l1 a).2.mem (freeLeft H st l1 a).1).size =
        (mergeLeft H (viewOf st.mem l1) a (st.mem a).size).2.2 ∧
      viewOf (freeLeft H st l1 a).2.mem l2 = viewOf st.mem l2 ∧
      (freeLeft H st l1 a).2.ctr =
        (if leftFree (viewOf st.mem l1) = true then countCoalesce st.ctr else st.ctr) := by
  have hW : st.brk ≤ W / 2 := le_trans h.brk_le h.lim_le
  have hseg1 : Seg H (markFree st a).mem 0 (l1 ++ a :: l2) 0 st.brk :=
    Seg_markFree H st a _ _ _ _ h.seg
  have hnd := Seg_nodup H st.mem hH _ _ _ _ h.seg
  have hnot1 : a ∉ l1 := by
    intro hh
    exact (List.nodup_append.1 hnd).2.2 hh (List.mem_cons_self _ _)
  have hnot2 : a ∉ l2 := (List.nodup_cons.1 (List.nodup_append.1 hnd).2.1).1
  rcases List.eq_nil_or_concat l1 with hl | ⟨l1', q, hl⟩
  · subst hl
    have e1 : freeLeft H st [] a = (a, markFree st a) := by simp [freeLeft]
    have e2 : freeListLeft st.mem [] a = [] ++ [a] := by simp [freeListLeft]
    rw [e1] at hL ⊢
    rw [e2] at hL
    have hL1 : L1 = [] := (List.append_cancel_right hL).symm
    subst hL1
    refine ⟨rfl, rfl, ?_, viewOf_markFree st a l2 hnot2, ?_⟩
    · simp [viewOf_nil, mergeLeft_nil, markFree_size]
    · simp [viewOf_nil, leftFree_nil, markFree]
  · subst hl
    rw [List.concat_eq_append] at *
    have hv1 : viewOf st.mem (l1' ++ [q]) =
        viewOf st.mem l1' ++ [(q, (st.mem q).size, (st.mem q).free)] := by
      rw [viewOf_append]; rfl
    have hqa : q ≠ a := fun hh => hnot1 (by simp [hh])
    by_cases hqf : (st.mem q).free = true
    · have e1 : freeLeft H st (l1' ++ [q]) a = (q, absorbState H (markFree st a) q a) := by
        simp [freeLeft, hqf]
      have e2 : freeListLeft st.mem (l1' ++ [q]) a = l1' ++ [q] := by
        simp [freeListLeft, hqf]
      rw [e1] at hL ⊢
      rw [e2] at hL
      have hL1 : L1 = l1' := (List.append_cancel_right hL).symm
      subst hL1
      have hseg2 : Seg H (markFree st a).mem 0 (L1 ++ q :: a :: l2) 0 st.brk := by
        simpa using hseg1
      have hv := viewOf_absorb H (markFree st a).mem hH L1 l2 q a st.brk hW hseg2
      rw [viewOf_append, viewOf_cons] at hv
      have hnotL : a ∉ L1 := fun hh => hnot1 (by simp [hh])
      rw [viewOf_markFree st a L1 hnotL, viewOf_markFree st a l2 hnot2] at hv
      have hlen := List.append_inj hv
        (by rw [viewOf, viewOf, List.length_map, List.length_map])
      have hv2 := (List.cons.inj hlen.2)
      rw [hv1, hqf, mergeLeft_concat_free, leftFree_concat]
      refine ⟨hlen.1, rfl, ?_, hv2.2, by simp [absorbState, markFree]⟩
      have := congrArg (fun t => t.2.1) hv2.1
      simp only [markFree_size] at this
      exact this
    · have hqf' : (st.mem q).free = false := by
        cases hq : (st.mem q).free
        · rfl
        · exact absurd hq hqf
      have e1 : freeLeft H st (l1' ++ [q]) a = (a, markFree st a) := by
        simp [freeLeft, hqf']
      have e2 : freeListLeft st.mem (l1' ++ [q]) a = (l1' ++ [q]) ++ [a] := by
        simp [freeListLeft, hqf']
      rw [e1] at hL ⊢
      rw [e2] at hL
      have hL1 : L1 = l1' ++ [q] := (List.append_cancel_right hL).symm
      subst hL1
      rw [hv1, hqf', mergeLeft_concat_used, leftFree_concat]
      refine ⟨?_, rfl, ?_, viewOf_markFree st a l2 hnot2, by simp [markFree]⟩
      · rw [viewOf_markFree st a _ hnot1, hv1, hqf']
      · simp [markFree_size]

/-- The view after the right merge of `free`, in the words of the spec. -/
theorem free_right_view (H : Nat) (st st2 : State) (hH : 0 < H) (L1 l2 : List Nat) (a c : Nat)
    (hW : st.brk ≤ W / 2) (hm : Mid H st st2 a L1 c l2) :
    viewOf (freeRight H st st2 c l2).mem (L1 ++ c :: freeListRight st.mem l2) =
        viewOf st2.mem L1 ++ mergeRight H c (st2.mem c).size (viewOf st2.mem l2) ∧
      (freeRight H st st2 c l2).ctr =
        (if rightFree (viewOf st2.mem l2) = true then countCoalesce st2.ctr else st2.ctr) := by
  cases l2 with
  | nil =>
    have e : freeRight H st st2 c [] = st2 := by simp [freeRight]
    have e2 : freeListRight st.mem [] = [] := by simp [freeListRight]
    rw [e, e2]
    constructor
    · rw [viewOf_append, viewOf_cons, hm.cfree]
      rfl
    · simp [viewOf_nil, rightFree]
  | cons z l2' =>
    have hz2 : (st2.mem z).free = (st.mem z).free :=
      hm.flags z (fun hh => hm.notin2 (hh ▸ List.mem_cons_self _ _))
    by_cases hzf : (st.mem z).free = true
    · have e : freeRight H st st2 c (z :: l2') = absorbState H st2 c z := by
        simp [freeRight, hzf]
      have e2 : freeListRight st.mem (z :: l2') = l2' := by simp [freeListRight, hzf]
      rw [e, e2]
      constructor
      · have := viewOf_absorb H st2.mem hH L1 l2' c z st.brk hW hm.seg
        rw [show (absorbState H st2 c z).mem = absorbMem H st2.mem c z from rfl, this,
          viewOf_cons, hz2, hzf, hm.cfree]
        rfl
      · simp [viewOf_cons, rightFree, hz2, hzf, absorbState]
    · have hzf' : (st.mem z).free = false := by
        cases hq : (st.mem z).free
        · rfl
        · exact absurd hq hzf
      have e : freeRight H st st2 c (z :: l2') = st2 := by simp [freeRight, hzf']
      have e2 : freeListRight st.mem (z :: l2') = z :: l2' := by simp [freeListRight, hzf']
      rw [e, e2]
      constructor
      · rw [viewOf_append, viewOf_cons, hm.cfree, viewOf_cons, hz2, hzf']
        rfl
      · simp [viewOf_cons, rightFree, hz2, hzf']

/-- The block list after `free`, in the words of the spec, and the counters. -/
theorem free_view (H : Nat) (st : State) (hH : 0 < H) (l1 l2 : List Nat) (a : Nat)
    (h : Inv H st (l1 ++ a :: l2)) :
    viewOf (freeResult H st l1 a l2).mem (freeList st.mem l1 a l2) =
        coalesced H (viewOf st.mem l1) a (st.mem a).size (viewOf st.mem l2) ∧
      (freeResult H st l1 a l2).ctr =
        { st.ctr with
          num_frees := st.ctr.num_frees + 1
          num_coalesces := st.ctr.num_coalesces +
            (absorbedCount (viewOf st.mem l1) (viewOf st.mem l2) : Nat)
          num_blocks := st.ctr.num_blocks -
            (absorbedCount (viewOf st.mem l1) (viewOf st.mem l2) : Nat) } := by
  have hW : st.brk ≤ W / 2 := le_trans h.brk_le h.lim_le
  obtain ⟨-, L1, hL1, hmid⟩ := free_left H st hH l1 l2 a h
  obtain ⟨v1, v2, v3, v4, v5⟩ := free_left_view H st hH l1 l2 a h L1 hL1
  obtain ⟨w1, w2⟩ := free_right_view H st _ hH L1 l2 a _ hW hmid
  constructor
  · have hlist : freeList st.mem l1 a l2 =
        L1 ++ (freeLeft H st l1 a).1 :: freeListRight st.mem l2 := by
      simp [freeList, hL1]
    rw [hlist]
    show viewOf (freeRight H st _ _ l2).mem _ = _
    rw [w1, v1, v3, v4, coalesced, ← v2]
  · show (countFree (freeRight H st _ _ l2)).ctr = _
    simp only [countFree]
    rw [w2, v4, v5]
    unfold absorbedCount
    cases leftFree (viewOf st.mem l1) <;> cases rightFree (viewOf st.mem l2) <;>
      simp [countCoalesce]
    all_goals omega

theorem viewOf_split (mem : Nat → Block) (l : List Nat) (V1 V2 : List (Nat × Nat × Bool))
    (b s : Nat) (f : Bool) (h : viewOf mem l = V1 ++ (b, s, f) :: V2) :
    ∃ l1 l2, l = l1 ++ b :: l2 ∧ viewOf mem l1 = V1 ∧ viewOf mem l2 = V2 ∧
      (mem b).size = s ∧ (mem b).free = f := by
  unfold viewOf at h
  obtain ⟨l1, l', rfl, h1, h2⟩ := List.map_eq_append_iff.1 h
  obtain ⟨a, l2, rfl, h3, h4⟩ := List.map_eq_cons_iff.1 h2
  simp only [Prod.mk.injEq] at h3
  obtain ⟨rfl, h5, h6⟩ := h3
  exact ⟨l1, l2, rfl, h1, h4, h5, h6⟩

/-- The function `free` on a well-formed heap, in the words of the spec: when the block list is
`V1`, then the block at `b` of size `s`, in use, then `V2`, the call `free` of the payload of `b`
returns, the block list after it is `coalesced H V1 b s V2`, `num_frees` has grown by one, and
`num_coalesces` has grown and `num_blocks` has shrunk by the number of absorbed neighbours. -/
theorem free_spec (H : Nat) (st : State) (l : List Nat) (hH : 0 < H) (h : Inv H st l)
    (b s : Nat) (V1 V2 : List (Nat × Nat × Bool))
    (hv : view st = V1 ++ (b, s, false) :: V2) :
    ∃ st' l', free H st (BLOCK_DATA H b) = Outcome.ret () st' ∧ Inv H st' l' ∧
      view st' = coalesced H V1 b s V2 ∧
      st'.ctr =
        { st.ctr with
          num_frees := st.ctr.num_frees + 1
          num_coalesces := st.ctr.num_coalesces + (absorbedCount V1 V2 : Nat)
          num_blocks := st.ctr.num_blocks - (absorbedCount V1 V2 : Nat) } := by
  rw [h.view_eq hH] at hv
  obtain ⟨l1, l2, rfl, h1, h2, h3, h4⟩ := viewOf_split st.mem l V1 V2 b s false hv
  obtain ⟨he, hinv⟩ := free_wf H st hH l1 l2 b h h4
  obtain ⟨hview, hctr⟩ := free_view H st hH l1 l2 b h
  rw [(h.block_data b (by simp)).1]
  refine ⟨_, _, he, hinv, ?_, ?_⟩
  · rw [hinv.view_eq hH, hview, h1, h2, h3]
  · rw [hctr, h1, h2]

/-! ## The view after `malloc` -/

theorem growResult_view (H : Nat) (st : State) (hH : 0 < H) (l : List Nat) (r : Nat)
    (h : Inv H st l) (hroom : st.brk + H + r ≤ st.limit) :
    view (growResult H st (l.getLastD 0) r) = view st ++ [(st.brk, r, false)] := by
  have hend := Seg_end_le H st.mem _ _ _ _ h.seg
  rw [(Inv_grow H st hH l r h hroom).view_eq hH, h.view_eq hH, viewOf_append]
  congr 1
  · apply viewOf_congr
    intro x hx
    have : x ≠ st.brk := by
      have := (hend x hx).1
      omega
    rw [growResult_size, growResult_free, if_neg this, if_neg this]
    exact ⟨rfl, rfl⟩
  · rw [viewOf_cons, viewOf_nil, growResult_size, growResult_free, if_pos rfl, if_pos rfl]

theorem growResult_ctr (H : Nat) (st : State) (last r : Nat) (hr : r + H < W) :
    (growResult H st last r).ctr =
      { st.ctr with
        num_grows := st.ctr.num_grows + 1
        num_blocks := st.ctr.num_blocks + 1
        max_heap := st.ctr.max_heap + ((r + H : Nat) : Int)
        num_requested := st.ctr.num_requested + (r : Nat)
        num_mallocs := st.ctr.num_mallocs + 1 } := by
  simp [growResult, growState, markUsed, Nat.mod_eq_of_lt hr]

theorem reuseResult_view (H : Nat) (st : State) (hH : 0 < H) (l1 l2 : List Nat) (f r : Nat)
    (h : Inv H st (l1 ++ f :: l2)) :
    view (reuseResult st f r) =
      viewOf st.mem l1 ++ (f, (st.mem f).size, false) :: viewOf st.mem l2 := by
  have hnd := Seg_nodup H st.mem hH _ _ _ _ h.seg
  have hnot1 : f ∉ l1 := fun hh => (List.nodup_append.1 hnd).2.2 hh (List.mem_cons_self _ _)
  have hnot2 : f ∉ l2 := (List.nodup_cons.1 (List.nodup_append.1 hnd).2.1).1
  rw [(Inv_reuse H st _ f r h).view_eq hH, viewOf_append, viewOf_cons]
  congr 1
  · apply viewOf_congr
    intro x hx
    have : x ≠ f := fun hh => hnot1 (hh ▸ hx)
    rw [reuseResult_size, reuseResult_free, if_neg this]
    exact ⟨rfl, rfl⟩
  · congr 1
    · rw [reuseResult_size, reuseResult_free, if_pos rfl]
    · apply viewOf_congr
      intro x hx
      have : x ≠ f := fun hh => hnot2 (hh ▸ hx)
      rw [reuseResult_size, reuseResult_free, if_neg this]
      exact ⟨rfl, rfl⟩

theorem reuseResult_ctr (st : State) (f r : Nat) (hf : f ≠ 0) :
    (reuseResult st f r).ctr =
      { st.ctr with
        num_reuses := st.ctr.num_reuses + 1
        num_requested := st.ctr.num_requested + (r : Nat)
        num_mallocs := st.ctr.num_mallocs + 1 } := by
  simp [reuseResult, markUsed, countReuse, hf]

theorem splitResult_view (H : Nat) (st : State) (hH : 0 < H) (l1 l2 : List Nat) (f r : Nat)
    (h : Inv H st (l1 ++ f :: l2)) (hfree : (st.mem f).free = true)
    (hbig : r + H + 4 < (st.mem f).size) :
    view (splitResult H st f r) =
      viewOf st.mem l1 ++ (f, r, false) ::
        (f + H + r, (st.mem f).size - r - H, true) :: viewOf st.mem l2 := by
  have hsorted := Seg_sorted H st.mem hH _ _ _ _ h.seg
  rw [List.pairwise_append] at hsorted
  obtain ⟨-, hs2, hs12⟩ := hsorted
  have hlow := Seg_head_lt H st.mem f l2 _ _ _
    ((Seg_append H st.mem l1 (f :: l2) 0 0 st.brk).1 h.seg).2
  have hsz := splitResult_size H st hH l1 l2 f r h hbig
  have hfl := splitResult_free H st hH l1 l2 f r h hbig
  rw [(Inv_split H st hH l1 l2 f r h hfree hbig).view_eq hH, viewOf_append, viewOf_cons,
    viewOf_cons]
  have hne : f + H + r ≠ f := by omega
  congr 1
  · apply viewOf_congr
    intro x hx
    have := hs12 x hx f (List.mem_cons_self _ _)
    rw [hsz, hfl, if_neg (by omega), if_neg (by omega), if_neg (by omega), if_neg (by omega)]
    exact ⟨rfl, rfl⟩
  · congr 1
    · rw [hsz, hfl, if_pos rfl, if_pos rfl]
    · congr 1
      · rw [hsz, hfl, if_neg hne, if_neg hne, if_pos rfl, if_pos rfl]
      · apply viewOf_congr
        intro x hx
        have := hlow x hx
        rw [hsz, hfl, if_neg (by omega), if_neg (by omega), if_neg (by omega),
          if_neg (by omega)]
        exact ⟨rfl, rfl⟩

theorem splitResult_ctr (H : Nat) (st : State) (f r : Nat) (hf : f ≠ 0) :
    (splitResult H st f r).ctr =
      { st.ctr with
        num_reuses := st.ctr.num_reuses + 1
        num_splits := st.ctr.num_splits + 1
        num_blocks := st.ctr.num_blocks + 1
        num_requested := st.ctr.num_requested + (r : Nat)
        num_mallocs := st.ctr.num_mallocs + 1 } := by
  simp [splitResult, markUsed, splitBlock, countReuse, hf]

/-! ## The split rule -/

theorem maybeSplit_cursor (H : Nat) (st : State) (f r x : Nat) :
    maybeSplit H (withCursor st x) f r = withCursor (maybeSplit H st f r) x := by
  by_cases hc : f ≠ 0 ∧ (st.mem f).size > (r + H + 4) % W
  · have hc2 : f ≠ 0 ∧ ((withCursor st x).mem f).size > (r + H + 4) % W := hc
    simp only [maybeSplit, if_pos hc, if_pos hc2]
    rfl
  · have hc2 : ¬ (f ≠ 0 ∧ ((withCursor st x).mem f).size > (r + H + 4) % W) := hc
    simp only [maybeSplit, if_neg hc, if_neg hc2]

theorem countReuse_cursor (st : State) (f x : Nat) :
    countReuse (withCursor st x) f = withCursor (countReuse st f) x := by
  by_cases hc : f ≠ 0
  · simp only [countReuse, if_pos hc]
    rfl
  · simp only [countReuse, if_neg hc]

theorem markUsed_cursor (st : State) (f r x : Nat) :
    markUsed (withCursor st x) f r = withCursor (markUsed st f r) x := rfl

theorem findFreeBlock_state (fit : Fit) (st st1 : State) (last size f last1 : Nat)
    (h : findFreeBlock fit st last size = Outcome.ret (f, last1) st1) :
    st1 = withCursor st st1.last_allocated := by
  obtain ⟨h1, h2, h3, h4, h5, h6, h7, -⟩ := findFreeBlock_sound fit st st1 last size f last1 h
  cases st1
  cases st
  simp only at h1 h2 h3 h4 h5 h6 h7
  subst h1 h2 h3 h4 h5 h6 h7
  rfl

/-- When the Locator returns a block `f` of a well-formed list, `malloc` returns the payload of
`f`, and its state is the state after the split, when `f` is large enough for one, or after
handing out `f` whole; the next-fit cursor apart. -/
theorem malloc_found_wf (fit : Fit) (H : Nat) (st st1 : State) (l : List Nat) (s f last : Nat)
    (h : Inv H st l) (hr : ALIGN4 s ≠ 0)
    (hloc : findFreeBlock fit (registerAtexit st) st.heapList (ALIGN4 s) =
      Outcome.ret (f, last) st1) (hf : f ∈ l) :
    Fits st.mem (ALIGN4 s) f ∧
    malloc fit H st s = Outcome.ret (f + H)
      (if ALIGN4 s + H + 4 < (st.mem f).size then
        withCursor (splitResult H st f (ALIGN4 s)) st1.last_allocated
       else withCursor (reuseResult st f (ALIGN4 s)) st1.last_allocated) := by
  have hW : W = 18446744073709551616 := rfl
  have hb := h.brk_le
  have hlim := h.lim_le
  have hf0 : 0 < f := Seg_pos H st.mem l _ _ _ h.seg f hf
  have hfend := (Seg_end_le H st.mem l _ _ _ h.seg f hf).1
  have hsound := (findFreeBlock_sound fit _ st1 _ _ f last hloc).2.2.2.2.2.2.2 hf0.ne'
  rw [registerAtexit_mem] at hsound
  have hfit : Fits st.mem (ALIGN4 s) f := hsound
  refine ⟨hfit, ?_⟩
  have hm := malloc_found fit H st _ s f last hr hloc hf0.ne'
  have hbd : BLOCK_DATA H f = f + H := (h.block_data f hf).1
  have hle := hfit.2
  have hmod : (ALIGN4 s + H + 4) % W = ALIGN4 s + H + 4 := Nat.mod_eq_of_lt (by omega)
  have hst := findFreeBlock_state fit _ st1 _ _ f last hloc
  rw [hbd] at hm
  rw [hm, hst, countReuse_cursor, maybeSplit_cursor, markUsed_cursor]
  by_cases hbig : ALIGN4 s + H + 4 < (st.mem f).size
  · rw [if_pos hbig]
    have : maybeSplit H (countReuse (registerAtexit st) f) f (ALIGN4 s) =
        splitBlock H (countReuse (registerAtexit st) f) f (ALIGN4 s) := by
      simp only [maybeSplit, countReuse_mem, registerAtexit_mem, hmod]
      rw [if_pos ⟨hf0.ne', hbig⟩]
    rw [this]
    rfl
  · rw [if_neg hbig]
    have : maybeSplit H (countReuse (registerAtexit st) f) f (ALIGN4 s) =
        countReuse (registerAtexit st) f := by
      simp only [maybeSplit, countReuse_mem, registerAtexit_mem, hmod]
      rw [if_neg (fun hh => hbig hh.2)]
    rw [this]
    rfl

theorem view_cursor (st : State) (x : Nat) : view (withCursor st x) = view st := rfl

theorem heapBytes_cursor (H : Nat) (st : State) (x : Nat) :
    heapBytes H (withCursor st x) = heapBytes H st := rfl

theorem blockAddrs_cursor (st : State) (x : Nat) :
    blockAddrs (withCursor st x) = blockAddrs st := rfl

@[simp] theorem withCursor_mem (st : State) (x : Nat) : (withCursor st x).mem = st.mem := rfl

@[simp] theorem withCursor_ctr (st : State) (x : Nat) : (withCursor st x).ctr = st.ctr := rfl

@[simp] theorem withCursor_bytes (st : State) (x : Nat) :
    (withCursor st x).bytes = st.bytes := rfl

theorem Inv_cursor {H : Nat} {st : State} {l : List Nat} (x : Nat) (h : Inv H st l) :
    Inv H (withCursor st x) l :=
  ⟨h.seg, h.root, h.noadj, h.brk_pos, h.brk_le, h.lim_le⟩

theorem heapBytes_eq (H : Nat) (st : State) (V : List (Nat × Nat × Bool)) (h : view st = V) :
    heapBytes H st = (V.map fun b => H + b.2.1).sum := by
  rw [heapBytes, h]

/-! ## The split rule -/

theorem Seg_mid (H : Nat) (mem : Nat → Block) (l1 l2 : List Nat) (f e : Nat)
    (h : Seg H mem 0 (l1 ++ f :: l2) 0 e) :
    (mem f).prev = l1.getLastD 0 ∧ (mem f).next = l2.headD 0 ∧
      (∀ z, l2.head? = some z → (mem z).prev = f) := by
  rw [Seg_append] at h
  obtain ⟨-, -, hp, hn, -, h2⟩ := h
  refine ⟨hp, hn, ?_⟩
  intro z hz
  cases l2 with
  | nil => cases hz
  | cons y l2' =>
    simp only [List.head?_cons, Option.some.injEq] at hz
    subst hz
    exact h2.2.1

/-- The links around the remainder after a split. -/
theorem splitResult_links (H : Nat) (st : State) (hH : 0 < H) (l1 l2 : List Nat) (f r : Nat)
    (h : Inv H st (l1 ++ f :: l2)) (hfree : (st.mem f).free = true)
    (hbig : r + H + 4 < (st.mem f).size) :
    ((splitResult H st f r).mem f).next = f + H + r ∧
      ((splitResult H st f r).mem (f + H + r)).prev = f ∧
      ((splitResult H st f r).mem (f + H + r)).next = (st.mem f).next ∧
      ((st.mem f).next ≠ 0 →
        ((splitResult H st f r).mem (st.mem f).next).prev = f + H + r) := by
  have hinv := Inv_split H st hH l1 l2 f r h hfree hbig
  have hmid := Seg_mid H st.mem l1 l2 f st.brk h.seg
  have hmid1 := Seg_mid H _ l1 ((f + H + r) :: l2) f _ hinv.seg
  have hseg2 : Seg H (splitResult H st f r).mem 0
      ((l1 ++ [f]) ++ (f + H + r) :: l2) 0 (splitResult H st f r).brk := by
    rw [List.append_assoc]
    exact hinv.seg
  have hmid2 := Seg_mid H _ (l1 ++ [f]) l2 (f + H + r) _ hseg2
  refine ⟨hmid1.2.1, ?_, ?_, ?_⟩
  · rw [hmid2.1, getLastD_concat]
  · rw [hmid2.2.1, hmid.2.1]
  · intro hn
    rw [hmid.2.1] at hn ⊢
    cases l2 with
    | nil => exact absurd rfl hn
    | cons z l2' => exact hmid2.2.2 z rfl

theorem sum_view_split (H : Nat) (V1 V2 : List (Nat × Nat × Bool)) (f r S nb : Nat)
    (b1 b2 b3 : Bool) (hbig : r + H + 4 < S) :
    ((V1 ++ (f, r, b1) :: (nb, S - r - H, b2) :: V2).map fun b => H + b.2.1).sum =
      ((V1 ++ (f, S, b3) :: V2).map fun b => H + b.2.1).sum := by
  simp only [List.map_append, List.map_cons, List.sum_append, List.sum_cons]
  omega

/-- The split rule on a well-formed heap (its sizes are then below `W / 2`, and no sum of
the rule wraps). Let the Locator, run by `malloc(s)` for the
aligned size `r = ALIGN4 s ≠ 0`, return a block `f` of the list; `f` is then free with a size
`S ≥ r`, and `malloc` returns the payload of `f`. (a) If `S > r + H + 4`, then afterwards `f` is
in use with size `r`, its immediate successor is a new free block of size `S - r - H` whose header
is `r` bytes past the start of the payload of `f` (at `f + H + r`), the successor of the new block
is the old successor of `f`, whose `prev` is now the new block, and `num_splits` and `num_blocks`
have each grown by 1. (b) Otherwise no block is created: the list has the same blocks, `f` keeps
its size `S` and its links, is in use, and `num_splits` and `num_blocks` are unchanged. In both
cases the sum over the blocks of the list of header size plus size is unchanged. -/
theorem split_rule (fit : Fit) (H : Nat) (st st1 : State) (l : List Nat) (s f last : Nat)
    (hH : 0 < H) (h : Inv H st l) (hr : ALIGN4 s ≠ 0)
    (hloc : findFreeBlock fit (registerAtexit st) st.heapList (ALIGN4 s) =
      Outcome.ret (f, last) st1) (hf : f ∈ l) :
    ∃ st' l1 l2, l = l1 ++ f :: l2 ∧
      (st.mem f).free = true ∧ ALIGN4 s ≤ (st.mem f).size ∧
      malloc fit H st s = Outcome.ret (BLOCK_DATA H f) st' ∧
      view st = viewOf st.mem l1 ++ (f, (st.mem f).size, true) :: viewOf st.mem l2 ∧
      heapBytes H st' = heapBytes H st ∧
      (ALIGN4 s + H + 4 < (st.mem f).size →
        view st' = viewOf st.mem l1 ++ (f, ALIGN4 s, false) ::
          (f + H + ALIGN4 s, (st.mem f).size - ALIGN4 s - H, true) :: viewOf st.mem l2 ∧
        (st'.mem f).next = f + H + ALIGN4 s ∧
        (st'.mem (f + H + ALIGN4 s)).prev = f ∧
        (st'.mem (f + H + ALIGN4 s)).next = (st.mem f).next ∧
        ((st.mem f).next ≠ 0 → (st'.mem (st.mem f).next).prev = f + H + ALIGN4 s) ∧
        st'.ctr.num_splits = st.ctr.num_splits + 1 ∧
        st'.ctr.num_blocks = st.ctr.num_blocks + 1) ∧
      (¬ ALIGN4 s + H + 4 < (st.mem f).size →
        view st' = viewOf st.mem l1 ++ (f, (st.mem f).size, false) :: viewOf st.mem l2 ∧
        blockAddrs st' = blockAddrs st ∧
        (st'.mem f).next = (st.mem f).next ∧ (st'.mem f).prev = (st.mem f).prev ∧
        st'.ctr.num_splits = st.ctr.num_splits ∧
        st'.ctr.num_blocks = st.ctr.num_blocks) := by
  obtain ⟨hfit, hm⟩ := malloc_found_wf fit H st st1 l s f last h hr hloc hf
  obtain ⟨l1, l2, rfl⟩ := List.append_of_mem hf
  have hf0 : f ≠ 0 := (h.block_data f hf).2.2.2.ne'
  have hv0 : view st = viewOf st.mem l1 ++ (f, (st.mem f).size, true) :: viewOf st.mem l2 := by
    rw [h.view_eq hH, viewOf_append, viewOf_cons, hfit.1]
  have hmid := Seg_mid H st.mem l1 l2 f st.brk h.seg
  rw [(h.block_data f hf).1]
  by_cases hbig : ALIGN4 s + H + 4 < (st.mem f).size
  · rw [if_pos hbig] at hm
    have hview := splitResult_view H st hH l1 l2 f _ h hfit.1 hbig
    have hlinks := splitResult_links H st hH l1 l2 f _ h hfit.1 hbig
    have hctr := splitResult_ctr H st f (ALIGN4 s) hf0
    refine ⟨_, l1, l2, rfl, hfit.1, hfit.2, hm, hv0, ?_, ?_, fun hn => absurd hbig hn⟩
    · rw [heapBytes_cursor, heapBytes_eq H _ _ hview, heapBytes_eq H st _ hv0]
      exact sum_view_split H _ _ f _ _ _ false true true hbig
    · intro _
      rw [view_cursor, withCursor_mem, withCursor_ctr, hctr]
      exact ⟨hview, hlinks.1, hlinks.2.1, hlinks.2.2.1, hlinks.2.2.2, rfl, rfl⟩
  · rw [if_neg hbig] at hm
    have hview := reuseResult_view H st hH l1 l2 f (ALIGN4 s) h
    have hinv := Inv_reuse H st _ f (ALIGN4 s) h
    have hmid1 := Seg_mid H _ l1 l2 f _ hinv.seg
    have hctr := reuseResult_ctr st f (ALIGN4 s) hf0
    refine ⟨_, l1, l2, rfl, hfit.1, hfit.2, hm, hv0, ?_, fun hn => absurd hn hbig, ?_⟩
    · rw [heapBytes_cursor, heapBytes_eq H _ _ hview, heapBytes_eq H st _ hv0]
      simp only [List.map_append, List.map_cons]
    · intro _
      rw [view_cursor, blockAddrs_cursor, withCursor_mem, withCursor_ctr, hctr,
        hinv.blockAddrs hH, h.blockAddrs hH, hmid1.1, hmid1.2.1, hmid.1, hmid.2.1]
      exact ⟨hview, rfl, rfl, rfl, rfl, rfl⟩

/-! ## Reuse over growth -/

/-- Under the first-fit, best-fit or worst-fit policy, on a well-formed heap, a call of `malloc`
that returns a non-null pointer returns the payload of a block of the new list that is in use
and holds the aligned request. -/
theorem malloc_block (fit : Fit) (H : Nat) (st st1 : State) (l : List Nat) (s p : Nat)
    (hfit : fit ≠ Fit.next) (hH : 0 < H) (h : Inv H st l) (hsz : H + ALIGN4 s < W)
    (hm : malloc fit H st s = Outcome.ret p st1) (hp : p ≠ 0) :
    ∃ l' a V1 V2 sz, Inv H st1 l' ∧ a ∈ l' ∧ p = BLOCK_DATA H a ∧ p = a + H ∧
      view st1 = V1 ++ (a, sz, false) :: V2 ∧ ALIGN4 s ≤ sz ∧ ALIGN4 s ≠ 0 := by
  by_cases hr : ALIGN4 s = 0
  · rcases malloc_inv _ _ _ _ _ _ hm with ⟨-, hp0, -⟩ | ⟨hne, -⟩
    · exact absurd hp0 hp
    · exact absurd hr hne
  · rcases malloc_wf fit H st l s hfit hH h hsz hr with
      ⟨-, ⟨hroom, he⟩ | ⟨-, he⟩⟩ | ⟨f, l1, l2, hl, hff, ⟨hbig, he⟩ | ⟨-, he⟩⟩
    · rw [he] at hm
      injection hm with h1 h2
      subst h1 h2
      have hinv := Inv_grow H st hH l _ h hroom
      have hmem : st.brk ∈ l ++ [st.brk] := by simp
      exact ⟨_, st.brk, view st, [], ALIGN4 s, hinv, hmem, (hinv.block_data _ hmem).1.symm, rfl,
        growResult_view H st hH l _ h hroom, le_refl _, hr⟩
    · rw [he] at hm; cases hm
    · rw [he] at hm
      injection hm with h1 h2
      subst h1 h2 hl
      have hinv := Inv_split H st hH l1 l2 f _ h hff.1 hbig
      have hmem : f ∈ l1 ++ f :: (f + H + ALIGN4 s) :: l2 := by simp
      exact ⟨_, f, viewOf st.mem l1, _, ALIGN4 s, hinv, hmem,
        (hinv.block_data _ hmem).1.symm, rfl,
        splitResult_view H st hH l1 l2 f _ h hff.1 hbig, le_refl _, hr⟩
    · rw [he] at hm
      injection hm with h1 h2
      subst h1 h2 hl
      have hinv := Inv_reuse H st _ f (ALIGN4 s) h
      have hmem : f ∈ l1 ++ f :: l2 := by simp
      exact ⟨_, f, viewOf st.mem l1, _, (st.mem f).size, hinv, hmem,
        (hinv.block_data _ hmem).1.symm, rfl,
        reuseResult_view H st hH l1 l2 f _ h, hff.2, hr⟩

theorem mergeRight_has (H c sc : Nat) (V2 : List (Nat × Nat × Bool)) :
    ∃ sc', (c, sc', true) ∈ mergeRight H c sc V2 ∧ sc ≤ sc' := by
  unfold mergeRight
  split
  · exact ⟨_, List.mem_cons_self _ _, by omega⟩
  · exact ⟨_, List.mem_cons_self _ _, le_refl _⟩

theorem mergeLeft_size (H : Nat) (V1 : List (Nat × Nat × Bool)) (b s : Nat) :
    s ≤ (mergeLeft H V1 b s).2.2 := by
  unfold mergeLeft
  split
  · simp only; omega
  · exact le_refl _

/-- After `free` of a block of size `s`, the list holds a free block of size at least `s`. -/
theorem coalesced_has_free (H : Nat) (V1 V2 : List (Nat × Nat × Bool)) (b s : Nat) :
    ∃ c sc, (c, sc, true) ∈ coalesced H V1 b s V2 ∧ s ≤ sc := by
  obtain ⟨sc', h1, h2⟩ := mergeRight_has H (mergeLeft H V1 b s).2.1 (mergeLeft H V1 b s).2.2 V2
  refine ⟨(mergeLeft H V1 b s).2.1, sc', ?_, le_trans (mergeLeft_size H V1 b s) h2⟩
  unfold coalesced
  exact List.mem_append_right _ h1

theorem viewOf_mem (mem : Nat → Block) (l : List Nat) (c sc : Nat) (f : Bool)
    (h : (c, sc, f) ∈ viewOf mem l) : c ∈ l ∧ (mem c).size = sc ∧ (mem c).free = f := by
  unfold viewOf at h
  obtain ⟨a, ha, he⟩ := List.mem_map.1 h
  simp only [Prod.mk.injEq] at he
  obtain ⟨rfl, h1, h2⟩ := he
  exact ⟨ha, h1, h2⟩

/-- Under the first-fit, best-fit or worst-fit policy, on a well-formed heap that holds a free
block large enough for the aligned request, `malloc` returns a non-null pointer, counts one
reuse and does not grow the heap. -/
theorem malloc_reuses (fit : Fit) (H : Nat) (st : State) (l : List Nat) (s c : Nat)
    (hfit : fit ≠ Fit.next) (hH : 0 < H) (h : Inv H st l) (hsz : H + ALIGN4 s < W)
    (hr : ALIGN4 s ≠ 0) (hc : c ∈ l) (hcf : Fits st.mem (ALIGN4 s) c) :
    ∃ q st', malloc fit H st s = Outcome.ret q st' ∧ q ≠ 0 ∧
      st'.ctr.num_reuses = st.ctr.num_reuses + 1 ∧ st'.ctr.num_grows = st.ctr.num_grows := by
  rcases malloc_wf fit H st l s hfit hH h hsz hr with
    ⟨hnone, -⟩ | ⟨f, l1, l2, hl, hff, ⟨hbig, he⟩ | ⟨-, he⟩⟩
  · exact absurd hcf (hnone c hc)
  · have hf0 : 0 < f := Seg_pos H st.mem l _ _ _ h.seg f (by simp [hl])
    refine ⟨_, _, he, by omega, ?_, ?_⟩
    · rw [splitResult_ctr H st f _ hf0.ne']
    · rw [splitResult_ctr H st f _ hf0.ne']
  · have hf0 : 0 < f := Seg_pos H st.mem l _ _ _ h.seg f (by simp [hl])
    refine ⟨_, _, he, by omega, ?_, ?_⟩
    · rw [reuseResult_ctr st f _ hf0.ne']
    · rw [reuseResult_ctr st f _ hf0.ne']

/-- Reuse over growth when every request is in range: under the first-fit, best-fit or
worst-fit policy, in every state reached from the empty heap by valid calls with
`H + ALIGN4 s < W` for every size requested, and for every size `s` with `H + ALIGN4 s < W` (a call
that returns a non-null pointer has `s > 0`), if `malloc(s)` returns a non-null pointer `p`, then `free(p)` returns, and the second `malloc(s)` after it returns a non-null pointer,
increases `num_reuses` by exactly 1 and leaves `num_grows` unchanged. -/
theorem reuse_over_growth (fit : Fit) (H b0 lim : Nat) (st st1 : State) (s p : Nat)
    (hfit : fit ≠ Fit.next) (hp : Params H b0 lim) (hr : Reach fit H b0 lim st)
    (hsz : H + ALIGN4 s < W)
    (hm : malloc fit H st s = Outcome.ret p st1) (hp0 : p ≠ 0) :
    ∃ st2, free H st1 p = Outcome.ret () st2 ∧
      ∃ q st3, malloc fit H st2 s = Outcome.ret q st3 ∧ q ≠ 0 ∧
        st3.ctr.num_reuses = st2.ctr.num_reuses + 1 ∧
        st3.ctr.num_grows = st2.ctr.num_grows := by
  obtain ⟨l, hl⟩ := reach_inv fit H b0 lim st hfit hp hr
  obtain ⟨l1, a, V1, V2, sz, hinv1, -, hpa, -, hv1, hle, hne⟩ :=
    malloc_block fit H st st1 l s p hfit hp.hpos hl hsz hm hp0
  obtain ⟨st2, l2, hfree, hinv2, hv2, -⟩ := free_spec H st1 l1 hp.hpos hinv1 a sz V1 V2 hv1
  rw [← hpa] at hfree
  refine ⟨st2, hfree, ?_⟩
  obtain ⟨c, sc, hc, hsc⟩ := coalesced_has_free H V1 V2 a sz
  rw [← hv2, hinv2.view_eq hp.hpos] at hc
  obtain ⟨hcl, hcs, hcf⟩ := viewOf_mem st2.mem l2 c sc true hc
  exact malloc_reuses fit H st2 l2 s c hfit hp.hpos hinv2 hsz hne hcl
    ⟨hcf, by rw [hcs]; omega⟩

/-! ## The round trip of `realloc` -/

theorem ALIGN4_ge (s : Nat) (hs : s < W) (h : ALIGN4 s ≠ 0) : s ≤ ALIGN4 s := by
  unfold ALIGN4 W at *
  omega

theorem mem_dropLast_of_ne_getLast {α : Type} (l : List α) (x y : α)
    (hx : x ∈ l) (hy : l.getLast? = some y) (hne : x ≠ y) : x ∈ l.dropLast := by
  rcases List.eq_nil_or_concat l with rfl | ⟨l', z, rfl⟩
  · cases hx
  · rw [List.concat_eq_append] at *
    simp at hy
    subst hy
    rw [List.dropLast_concat]
    rcases List.mem_append.1 hx with h1 | h1
    · exact h1
    · simp only [List.mem_singleton] at h1
      exact absurd h1 hne

/-- A block in use other than the freed one is in the list after `free`, unchanged. -/
theorem coalesced_keeps_used (H : Nat) (V1 V2 : List (Nat × Nat × Bool)) (b s x sx : Nat)
    (h : (x, sx, false) ∈ V1 ∨ (x, sx, false) ∈ V2) :
    (x, sx, false) ∈ coalesced H V1 b s V2 := by
  unfold coalesced
  rcases h with h | h
  · apply List.mem_append_left
    unfold mergeLeft
    split
    · rename_i q sq hq
      exact mem_dropLast_of_ne_getLast V1 _ _ h hq (by simp)
    · exact h
  · apply List.mem_append_right
    unfold mergeRight
    split
    · rename_i z sz V2'
      rcases List.mem_cons.1 h with h1 | h1
      · simp at h1
      · exact List.mem_cons_of_mem _ h1
    · exact List.mem_cons_of_mem _ h

/-- A block of the list after `free` is a block of the list before it, or is free. -/
theorem coalesced_only (H : Nat) (V1 V2 : List (Nat × Nat × Bool)) (b s x sx : Nat)
    (h : (x, sx, false) ∈ coalesced H V1 b s V2) :
    (x, sx, false) ∈ V1 ∨ (x, sx, false) ∈ V2 := by
  unfold coalesced at h
  rcases List.mem_append.1 h with h1 | h1
  · left
    unfold mergeLeft at h1
    split at h1
    · exact List.mem_of_mem_dropLast h1
    · exact h1
  · right
    unfold mergeRight at h1
    split at h1
    · rcases List.mem_cons.1 h1 with h2 | h2
      · simp at h2
      · exact List.mem_cons_of_mem _ h2
    · rcases List.mem_cons.1 h1 with h2 | h2
      · simp at h2
      · exact h2

theorem view_bytes (st : State) (b : Nat → Nat) : view { st with bytes := b } = view st := rfl

theorem memcpy_apply (bytes : Nat → Nat) (dst src n i : Nat) (hi : i < n) :
    memcpy bytes dst src n (dst + i) = bytes (src + i) := by
  unfold memcpy
  rw [if_pos ⟨by omega, by omega⟩]
  congr 1
  omega

/-- The realloc round trip when every request is in range: under the first-fit, best-fit or
worst-fit policy, in every state reached from the empty heap by valid calls with
`H + ALIGN4 s < W` for every size requested, for every live pointer `p` whose block has size `n`
and every `newSize > n` with `H + ALIGN4 newSize < W` for which `realloc(p, newSize)` returns a non-null pointer `q`: for every offset
`i < n` the byte at `q + i` after the call is the byte at `p + i` before the call, `q` is the payload
of a block of the list that is in use with size at least `newSize`, and `p` is no longer live. -/
theorem realloc_round_trip (fit : Fit) (H b0 lim : Nat) (st st' : State) (p newSize q : Nat)
    (hfit : fit ≠ Fit.next) (hp : Params H b0 lim) (hr : Reach fit H b0 lim st)
    (hlive : Live H st p) (hnew : (st.mem (BLOCK_HEADER H p)).size < newSize)
    (hsW : newSize < W) (hsz : H + ALIGN4 newSize < W)
    (hm : realloc fit H st p newSize = Outcome.ret q st') (hq : q ≠ 0) :
    (∀ i, i < (st.mem (BLOCK_HEADER H p)).size → st'.bytes (q + i) = st.bytes (p + i)) ∧
      (∃ c ∈ blockAddrs st', BLOCK_DATA H c = q ∧ (st'.mem c).free = false ∧
        newSize ≤ (st'.mem c).size) ∧
      ¬ Live H st' p := by
  have hH := hp.hpos
  obtain ⟨l, hl⟩ := reach_inv fit H b0 lim st hfit hp hr
  obtain ⟨a, ha, hpa, hfree⟩ := hlive
  rw [hl.blockAddrs hH] at ha
  obtain ⟨hbd, hbh, hp0, -⟩ := hl.block_data a ha
  rw [hbd] at hpa
  subst hpa
  rw [hbh] at hnew ⊢
  rcases realloc_inv fit H st st' _ newSize q hm with
    ⟨h0, -⟩ | ⟨-, h0, -⟩ | ⟨-, -, h0, -⟩ | ⟨-, -, -, st1, hmal, hres⟩
  · exact absurd h0 hp0
  · omega
  · rw [hbh] at h0; omega
  · rcases hres with ⟨h0, -⟩ | ⟨-, hf⟩
    · exact absurd h0 hq
    · rw [hbh] at hf
      obtain ⟨l1, hinv1, hal1, hf1, hs1, hb1⟩ :=
        malloc_live fit H st st1 l newSize q hfit hH hl hsz hmal a ha hfree
      obtain ⟨l1', c, W1, W2, szc, hinv1', -, hqc, -, hvc, hle, hne⟩ :=
        malloc_block fit H st st1 l newSize q hfit hH hl hsz hmal hq
      have hge := ALIGN4_ge newSize hsW hne
      obtain ⟨la, lb, rfl⟩ := List.append_of_mem hal1
      have hva : view st1 = viewOf st1.mem la ++ (a, (st.mem a).size, false) ::
          viewOf st1.mem lb := by
        rw [hinv1.view_eq hH, viewOf_append, viewOf_cons, hs1, hf1]
      have hnd := Seg_nodup H st1.mem hH _ _ _ _ hinv1.seg
      have hnot1 : a ∉ la := fun hh =>
        (List.nodup_append.1 hnd).2.2 hh (List.mem_cons_self _ _)
      have hnot2 : a ∉ lb := (List.nodup_cons.1 (List.nodup_append.1 hnd).2.1).1
      obtain ⟨st2, l2, hfree2, hinv2, hv2, -⟩ :=
        free_spec H _ _ hH
          (Inv_bytes (memcpy st1.bytes q (a + H) (st1.mem a).size) hinv1) a (st.mem a).size
          (viewOf st1.mem la) (viewOf st1.mem lb) (by rw [view_bytes]; exact hva)
      rw [hbd, hf] at hfree2
      injection hfree2 with _ hst
      subst hst
      refine ⟨?_, ?_, ?_⟩
      · intro i hi
        rw [(free_frame H _ _ _ hf).2.2.2.1]
        show memcpy st1.bytes q (a + H) (st1.mem a).size (q + i) = _
        rw [hs1, memcpy_apply _ _ _ _ _ hi, hb1]
      · have hcin : (c, szc, false) ∈ view st1 := by rw [hvc]; simp
        rw [hva] at hcin
        have hcin2 : (c, szc, false) ∈ viewOf st1.mem la ∨ (c, szc, false) ∈ viewOf st1.mem lb := by
          rcases List.mem_append.1 hcin with h1 | h1
          · exact Or.inl h1
          · rcases List.mem_cons.1 h1 with h2 | h2
            · simp only [Prod.mk.injEq] at h2
              omega
            · exact Or.inr h2
        have := coalesced_keeps_used H _ _ a (st.mem a).size c szc hcin2
        rw [← hv2, hinv2.view_eq hH] at this
        obtain ⟨hc1, hc2, hc3⟩ := viewOf_mem _ _ _ _ _ this
        refine ⟨c, by rw [hinv2.blockAddrs hH]; exact hc1, hqc.symm, hc3, ?_⟩
        rw [hc2]; omega
      · rintro ⟨a', ha', hpa', hfree'⟩
        rw [hinv2.blockAddrs hH] at ha'
        rw [(hinv2.block_data a' ha').1] at hpa'
        have haa : a' = a := by omega
        subst haa
        have hin : (a', (st'.mem a').size, false) ∈ view st' := by
          rw [hinv2.view_eq hH, ← hfree']
          unfold viewOf
          exact List.mem_map.2 ⟨a', ha', rfl⟩
        rw [hv2] at hin
        rcases coalesced_only H _ _ _ _ _ _ hin with h1 | h1
        · exact hnot1 (viewOf_mem _ _ _ _ _ h1).1
        · exact hnot2 (viewOf_mem _ _ _ _ _ h1).1

/-! ## The coalescing scenario -/

/-- On a well-formed heap whose blocks are all in use, `malloc` grows the heap, when the
operating system has room for the block. -/
theorem malloc_grows_wf (fit : Fit) (H : Nat) (st : State) (l : List Nat) (s : Nat)
    (hfit : fit ≠ Fit.next) (hH : 0 < H) (h : Inv H st l) (hsz : H + ALIGN4 s < W)
    (hr : ALIGN4 s ≠ 0) (hused : ∀ e ∈ view st, e.2.2 = false)
    (hroom : st.brk + H + ALIGN4 s ≤ st.limit) :
    (malloc fit H st s).val? = some (st.brk + H) ∧
      Inv H (afterMalloc fit H st s) (l ++ [st.brk]) ∧
      view (afterMalloc fit H st s) = view st ++ [(st.brk, ALIGN4 s, false)] ∧
      (afterMalloc fit H st s).brk = st.brk + (H + ALIGN4 s) ∧
      (afterMalloc fit H st s).limit = st.limit := by
  rcases malloc_wf fit H st l s hfit hH h hsz hr with
    ⟨-, ⟨-, he⟩ | ⟨hno, -⟩⟩ | ⟨f, l1, l2, hl, hff, -⟩
  · have e : afterMalloc fit H st s = growResult H st (l.getLastD 0) (ALIGN4 s) := by
      unfold afterMalloc; rw [he]; rfl
    rw [e, he]
    refine ⟨rfl, Inv_grow H st hH l _ h hroom, growResult_view H st hH l _ h hroom, ?_, ?_⟩
    · simp [growResult, growState]
    · simp [growResult, growState]
  · exact absurd hroom hno
  · exfalso
    have hin : (f, (st.mem f).size, (st.mem f).free) ∈ view st := by
      rw [h.view_eq hH]
      unfold viewOf
      exact List.mem_map.2 ⟨f, by simp [hl], rfl⟩
    have := hused _ hin
    simp only at this
    rw [hff.1] at this
    cases this

/-- The function `free` on a well-formed heap, read off `afterFree`. -/
theorem afterFree_spec (H : Nat) (st : State) (l : List Nat) (hH : 0 < H) (h : Inv H st l)
    (b s : Nat) (V1 V2 : List (Nat × Nat × Bool))
    (hv : view st = V1 ++ (b, s, false) :: V2) :
    (free H st (b + H)).val? = some () ∧ (∃ l', Inv H (afterFree H st (b + H)) l') ∧
      view (afterFree H st (b + H)) = coalesced H V1 b s V2 := by
  obtain ⟨st', l', hf, hinv, hview, -⟩ := free_spec H st l hH h b s V1 V2 hv
  have hb : b ∈ l := by
    have : (b, s, false) ∈ view st := by rw [hv]; simp
    rw [h.view_eq hH] at this
    exact (viewOf_mem _ _ _ _ _ this).1
  rw [(h.block_data b hb).1] at hf
  have e : afterFree H st (b + H) = st' := by
    unfold afterFree; rw [hf]; rfl
  rw [e, hf]
  exact ⟨rfl, ⟨l', hinv⟩, hview⟩

/-- The coalescing scenario, for every block size: three blocks `A`, `B`, `C` of the aligned size
`r` are allocated in order on the empty heap; `free(B); free(A)` leaves a free block of size
`2 * r + H` followed by `C`, in use with size `r`; `free(C)` then leaves a single free block of size
`3 * r + 2 * H`. -/
theorem coalescing_scenario_all (fit : Fit) (H b0 lim s : Nat) (hfit : fit ≠ Fit.next)
    (hp : Params H b0 lim) (hsz : H + ALIGN4 s < W) (hr : ALIGN4 s ≠ 0)
    (hroom : b0 + 3 * (H + ALIGN4 s) ≤ lim) :
    view (scenarioABC fit H b0 lim s) =
        [(b0, ALIGN4 s, false), (b0 + (H + ALIGN4 s), ALIGN4 s, false),
          (b0 + 2 * (H + ALIGN4 s), ALIGN4 s, false)] ∧
      view (scenarioBA fit H b0 lim s) =
        [(b0, 2 * ALIGN4 s + H, true), (b0 + 2 * (H + ALIGN4 s), ALIGN4 s, false)] ∧
      view (scenarioBAC fit H b0 lim s) = [(b0, 3 * ALIGN4 s + 2 * H, true)] := by
  have hH := hp.hpos
  have h0 : Inv H (initState b0 lim) [] := Inv_init H b0 lim hp
  have hv0 : view (initState b0 lim) = [] := by rw [h0.view_eq hH]; rfl
  obtain ⟨-, hA, hvA, hbA, hlA⟩ := malloc_grows_wf fit H (initState b0 lim) [] s hfit hH h0 hsz hr
    (by rw [hv0]; simp) (by show b0 + H + ALIGN4 s ≤ lim; omega)
  rw [hv0] at hvA
  have hbA' : (afterMalloc fit H (initState b0 lim) s).brk = b0 + (H + ALIGN4 s) := hbA
  have hlA' : (afterMalloc fit H (initState b0 lim) s).limit = lim := hlA
  obtain ⟨-, hB, hvB, hbB, hlB⟩ := malloc_grows_wf fit H _ _ s hfit hH hA hsz hr
    (by rw [hvA]; simp) (by rw [hbA', hlA']; omega)
  rw [hvA, hbA'] at hvB
  rw [hbA'] at hbB
  rw [hlA'] at hlB
  obtain ⟨-, hC, hvC, -, -⟩ := malloc_grows_wf fit H _ _ s hfit hH hB hsz hr
    (by rw [hvB]; simp) (by rw [hbB, hlB]; omega)
  rw [hvB, hbB] at hvC
  have hvC' : view (scenarioABC fit H b0 lim s) =
      [(b0, ALIGN4 s, false), (b0 + (H + ALIGN4 s), ALIGN4 s, false),
        (b0 + 2 * (H + ALIGN4 s), ALIGN4 s, false)] := by
    unfold scenarioABC
    rw [hvC]
    have e1 : b0 + (H + ALIGN4 s) + (H + ALIGN4 s) = b0 + 2 * (H + ALIGN4 s) := by omega
    rw [e1]
    rfl
  refine ⟨hvC', ?_⟩
  -- free(B)
  obtain ⟨-, ⟨l1, h1⟩, hv1⟩ := afterFree_spec H (scenarioABC fit H b0 lim s) _ hH hC
    (b0 + (H + ALIGN4 s)) (ALIGN4 s) [(b0, ALIGN4 s, false)]
    [(b0 + 2 * (H + ALIGN4 s), ALIGN4 s, false)] (by rw [hvC']; rfl)
  have hv1' : view (afterFree H (scenarioABC fit H b0 lim s) (b0 + (H + ALIGN4 s) + H)) =
      [(b0, ALIGN4 s, false), (b0 + (H + ALIGN4 s), ALIGN4 s, true),
        (b0 + 2 * (H + ALIGN4 s), ALIGN4 s, false)] := by
    rw [hv1]; simp [coalesced, mergeLeft, mergeRight]
  -- free(A)
  obtain ⟨-, ⟨l2, h2⟩, hv2⟩ := afterFree_spec H _ _ hH h1 b0 (ALIGN4 s) []
    [(b0 + (H + ALIGN4 s), ALIGN4 s, true), (b0 + 2 * (H + ALIGN4 s), ALIGN4 s, false)]
    (by rw [hv1']; rfl)
  have hv2' : view (scenarioBA fit H b0 lim s) =
      [(b0, 2 * ALIGN4 s + H, true), (b0 + 2 * (H + ALIGN4 s), ALIGN4 s, false)] := by
    unfold scenarioBA
    rw [hv2]
    simp only [coalesced, mergeLeft, mergeRight, List.getLast?_nil, List.nil_append]
    congr 2
    simp only [Prod.mk.injEq, and_true, true_and]
    omega
  refine ⟨hv2', ?_⟩
  -- free(C)
  obtain ⟨-, -, hv3⟩ := afterFree_spec H (scenarioBA fit H b0 lim s) _ hH h2
    (b0 + 2 * (H + ALIGN4 s)) (ALIGN4 s) [(b0, 2 * ALIGN4 s + H, true)] []
    (by rw [hv2']; rfl)
  unfold scenarioBAC
  rw [hv3]
  simp [coalesced, mergeLeft, mergeRight]
  omega

/-! ## Concrete reachable states -/

theorem params0 : Params 32 1000 100000 := ⟨by decide, by decide, by decide, by decide⟩

theorem firstRun3_reach : Reach Fit.first 32 1000 100000 firstRun3 := by
  have r1 : Reach Fit.first 32 1000 100000 firstRun1 :=
    Reach.malloc_val 8 1032 Reach.init (by decide) (by decide) (by decide)
  have r2 : Reach Fit.first 32 1000 100000 firstRun2 :=
    Reach.malloc_val 8 1072 r1 (by decide) (by decide) (by decide)
  exact Reach.malloc_val 8 1112 r2 (by decide) (by decide) (by decide)

theorem firstRun4_reach : Reach Fit.first 32 1000 100000 firstRun4 :=
  Reach.free_val 1072 firstRun3_reach (Or.inr (by decide)) (by decide)

theorem oneFree_reach : Reach Fit.first 32 1000 100000 oneFree :=
  Reach.free_val 1032
    (Reach.malloc_val 100 1032 Reach.init (by decide) (by decide) (by decide))
    (Or.inr (by decide)) (by decide)

theorem firstRun1_reach : Reach Fit.first 32 1000 100000 firstRun1 :=
  Reach.malloc_val 8 1032 Reach.init (by decide) (by decide) (by decide)

/-! ## The claims on concrete runs -/

/-- C1 (the code at the failing input): under the next-fit policy, the valid calls
`A = malloc(8)`, `B = malloc(8)`, `C = malloc(8)`, `free(B)`, `malloc(8)` (which returns `B` and
leaves the cursor on it), `free(B)`, `free(A)` (which absorbs `B` into `A`), `malloc(8)` and
`malloc(48)` end in a state where the last two calls have returned 1072 and 1032: the block at
1040 is in use with the payload `[1072, 1080)` and the block at 1000 is in use with the payload
`[1032, 1080)`, so the byte at 1072 belongs to two live blocks. -/
theorem next_fit_overlap :
    Reach Fit.next 32 1000 100000 nextRun9 ∧
      (malloc Fit.next 32 nextRun7 8).val? = some 1072 ∧
      (malloc Fit.next 32 nextRun8 48).val? = some 1032 ∧
      BLOCK_DATA 32 1040 = 1072 ∧ (nextRun9.mem 1040).free = false ∧
      (nextRun9.mem 1040).size = 8 ∧
      BLOCK_DATA 32 1000 = 1032 ∧ (nextRun9.mem 1000).free = false ∧
      (nextRun9.mem 1000).size = 48 ∧
      1032 ≤ 1072 ∧ 1072 < 1032 + (nextRun9.mem 1000).size ∧
      1072 < 1072 + (nextRun9.mem 1040).size ∧
      view nextRun7 = [(1000, 48, true), (1080, 8, false)] ∧
      nextRun7.last_allocated = 1040 :=
  ⟨Reach.malloc_val 48 1032
      (Reach.malloc_val 8 1072 nextRun7_reach (by decide) (by decide) (by decide))
      (by decide) (by decide) (by decide),
    by decide, by decide, by decide, by decide, by decide, by decide, by decide, by decide,
    by decide, by decide, by decide, by decide, by decide⟩

/-- The four cases of the block list after `free`: no neighbour is free, the one before is, the
one after is, both are. -/
theorem coalesced_cases (H : Nat) (V V' : List (Nat × Nat × Bool)) (q sq z sz b s : Nat) :
    coalesced H [] b s [] = [(b, s, true)] ∧
    coalesced H (V ++ [(q, sq, false)]) b s ((z, sz, false) :: V') =
      V ++ (q, sq, false) :: (b, s, true) :: (z, sz, false) :: V' ∧
    coalesced H (V ++ [(q, sq, true)]) b s ((z, sz, false) :: V') =
      V ++ (q, sq + H + s, true) :: (z, sz, false) :: V' ∧
    coalesced H (V ++ [(q, sq, false)]) b s ((z, sz, true) :: V') =
      V ++ (q, sq, false) :: (b, s + H + sz, true) :: V' ∧
    coalesced H (V ++ [(q, sq, true)]) b s ((z, sz, true) :: V') =
      V ++ (q, sq + H + s + H + sz, true) :: V' := by
  refine ⟨rfl, ?_, ?_, ?_, ?_⟩
  · simp [coalesced, mergeLeft_concat_used, mergeRight]
  · simp [coalesced, mergeLeft_concat_free, mergeRight]
  · simp [coalesced, mergeLeft_concat_used, mergeRight]
  · simp [coalesced, mergeLeft_concat_free, mergeRight]

/-- The coalescing postcondition when every request is in range. Under the first-fit,
best-fit or worst-fit policy, in every state reached from the empty heap by valid calls with
`H + ALIGN4 s < W` for every size requested, let the block list be `V1`, then the
block at `b` of size `s`, in use, then `V2`. The call `free` of the payload of `b` returns, and
the block list after it is `coalesced H V1 b s V2`: one free block covers `b` and each of the two
neighbours of `b` that was free, its size is `s` plus the header size and the size of each
absorbed neighbour, the absorbed neighbours are no longer in the list and every other block is
as it was; `num_frees` has grown by 1, `num_coalesces` has grown and `num_blocks` has shrunk by the
number of absorbed neighbours. In particular, when three blocks `A`, `B`, `C` of the same aligned
size `r` are allocated in order on the empty heap, `free(B); free(A)` leaves the list of a free
block of size `2 * r + H` and of `C`, in use with size `r`, and a following `free(C)` leaves a single
free block of size `3 * r + 2 * H`. -/
theorem free_coalesces (fit : Fit) (H b0 lim : Nat) (st : State) (b s : Nat)
    (V1 V2 : List (Nat × Nat × Bool)) (hfit : fit ≠ Fit.next) (hp : Params H b0 lim)
    (hr : Reach fit H b0 lim st) (hv : view st = V1 ++ (b, s, false) :: V2) :
    (∃ st', free H st (BLOCK_DATA H b) = Outcome.ret () st' ∧
      view st' = coalesced H V1 b s V2 ∧
      st'.ctr =
        { st.ctr with
          num_frees := st.ctr.num_frees + 1
          num_coalesces := st.ctr.num_coalesces + (absorbedCount V1 V2 : Nat)
          num_blocks := st.ctr.num_blocks - (absorbedCount V1 V2 : Nat) }) ∧
    (∀ n, H + ALIGN4 n < W → ALIGN4 n ≠ 0 → b0 + 3 * (H + ALIGN4 n) ≤ lim →
      view (scenarioABC fit H b0 lim n) =
        [(b0, ALIGN4 n, false), (b0 + (H + ALIGN4 n), ALIGN4 n, false),
          (b0 + 2 * (H + ALIGN4 n), ALIGN4 n, false)] ∧
      view (scenarioBA fit H b0 lim n) =
        [(b0, 2 * ALIGN4 n + H, true), (b0 + 2 * (H + ALIGN4 n), ALIGN4 n, false)] ∧
      view (scenarioBAC fit H b0 lim n) = [(b0, 3 * ALIGN4 n + 2 * H, true)]) := by
  constructor
  · obtain ⟨l, hl⟩ := reach_inv fit H b0 lim st hfit hp hr
    obtain ⟨st', l', h1, -, h2, h3⟩ := free_spec H st l hp.hpos hl b s V1 V2 hv
    exact ⟨st', h1, h2, h3⟩
  · intro n h1 h2 h3
    exact coalescing_scenario_all fit H b0 lim n hfit hp h1 h2 h3

/-- Witness of `free_coalesces`: `free(B)` in the first-fit run with the three blocks `A`, `B`, `C`
of size 8 in use, and the scenario for the size 8. -/
theorem free_coalesces_witness :
    (∃ st', free 32 firstRun3 (BLOCK_DATA 32 1040) = Outcome.ret () st' ∧
      view st' = coalesced 32 [(1000, 8, false)] 1040 8 [(1080, 8, false)] ∧
      st'.ctr =
        { firstRun3.ctr with
          num_frees := firstRun3.ctr.num_frees + 1
          num_coalesces := firstRun3.ctr.num_coalesces +
            (absorbedCount [(1000, 8, false)] [(1080, 8, false)] : Nat)
          num_blocks := firstRun3.ctr.num_blocks -
            (absorbedCount [(1000, 8, false)] [(1080, 8, false)] : Nat) }) ∧
    (view (scenarioABC Fit.first 32 1000 100000 8) =
        [(1000, ALIGN4 8, false), (1000 + (32 + ALIGN4 8), ALIGN4 8, false),
          (1000 + 2 * (32 + ALIGN4 8), ALIGN4 8, false)] ∧
      view (scenarioBA Fit.first 32 1000 100000 8) =
        [(1000, 2 * ALIGN4 8 + 32, true), (1000 + 2 * (32 + ALIGN4 8), ALIGN4 8, false)] ∧
      view (scenarioBAC Fit.first 32 1000 100000 8) = [(1000, 3 * ALIGN4 8 + 2 * 32, true)]) :=
  ⟨(free_coalesces Fit.first 32 1000 100000 firstRun3 1040 8 [(1000, 8, false)]
      [(1080, 8, false)] (by decide) params0 firstRun3_reach (by decide)).1,
    (free_coalesces Fit.first 32 1000 100000 firstRun3 1040 8 [(1000, 8, false)]
      [(1080, 8, false)] (by decide) params0 firstRun3_reach (by decide)).2 8
      (by decide) (by decide) (by decide)⟩

/-- Witness of `link_consistency`: the first-fit run after `free(B)`. -/
theorem link_consistency_witness :
    (∀ b ∈ blockAddrs firstRun4,
      ((firstRun4.mem b).next ≠ 0 →
        (firstRun4.mem b).next ∈ blockAddrs firstRun4 ∧
          (firstRun4.mem (firstRun4.mem b).next).prev = b) ∧
      ((firstRun4.mem b).prev ≠ 0 →
        (firstRun4.mem b).prev ∈ blockAddrs firstRun4 ∧
          (firstRun4.mem (firstRun4.mem b).prev).next = b)) ∧
    (firstRun4.heapList ≠ 0 →
      firstRun4.heapList ∈ blockAddrs firstRun4 ∧ (firstRun4.mem firstRun4.heapList).prev = 0) ∧
    Tiles 32 firstRun4.mem 1000 (blockAddrs firstRun4) firstRun4.brk :=
  link_consistency Fit.first 32 1000 100000 firstRun4 (by decide) params0 firstRun4_reach

/-- Witness of `eager_coalescing`: the first-fit run after `free(B)`, whose list is a block in
use, a free block and a block in use. -/
theorem eager_coalescing_witness :
    view firstRun4 = [(1000, 8, false), (1040, 8, true), (1080, 8, false)] ∧
    ∀ b ∈ blockAddrs firstRun4,
      ¬ ((firstRun4.mem b).free = true ∧ (firstRun4.mem b).next ≠ 0 ∧
        (firstRun4.mem (firstRun4.mem b).next).free = true) :=
  ⟨by decide, eager_coalescing Fit.first 32 1000 100000 firstRun4 (by decide) params0
    firstRun4_reach⟩

theorem firstRun1w_reach : Reach Fit.first 32 1000 100000 firstRun1w :=
  @Reach.write Fit.first 32 1000 100000 firstRun1 1032 1033 7 firstRun1_reach (by decide)
    (by decide) (by decide)

theorem oneFree_inv : Inv 32 oneFree [1000] := by
  obtain ⟨l, hl⟩ := reach_inv Fit.first 32 1000 100000 oneFree (by decide) params0 oneFree_reach
  have e : blockAddrs oneFree = l := hl.blockAddrs (by decide)
  have e2 : blockAddrs oneFree = [1000] := by decide
  rw [← e, e2] at hl
  exact hl

/-- Witness of `split_rule`: `malloc(10)` on the heap whose only block is free with size 100.
The block is split: 12 bytes in use, then a new free block of size 56 at 1044. -/
theorem split_rule_witness :
    ∃ st' l1 l2, [1000] = l1 ++ 1000 :: l2 ∧
      (oneFree.mem 1000).free = true ∧ ALIGN4 10 ≤ (oneFree.mem 1000).size ∧
      malloc Fit.first 32 oneFree 10 = Outcome.ret (BLOCK_DATA 32 1000) st' ∧
      view oneFree =
        viewOf oneFree.mem l1 ++ (1000, (oneFree.mem 1000).size, true) :: viewOf oneFree.mem l2 ∧
      heapBytes 32 st' = heapBytes 32 oneFree ∧
      (ALIGN4 10 + 32 + 4 < (oneFree.mem 1000).size →
        view st' = viewOf oneFree.mem l1 ++ (1000, ALIGN4 10, false) ::
          (1000 + 32 + ALIGN4 10, (oneFree.mem 1000).size - ALIGN4 10 - 32, true) ::
            viewOf oneFree.mem l2 ∧
        (st'.mem 1000).next = 1000 + 32 + ALIGN4 10 ∧
        (st'.mem (1000 + 32 + ALIGN4 10)).prev = 1000 ∧
        (st'.mem (1000 + 32 + ALIGN4 10)).next = (oneFree.mem 1000).next ∧
        ((oneFree.mem 1000).next ≠ 0 →
          (st'.mem (oneFree.mem 1000).next).prev = 1000 + 32 + ALIGN4 10) ∧
        st'.ctr.num_splits = oneFree.ctr.num_splits + 1 ∧
        st'.ctr.num_blocks = oneFree.ctr.num_blocks + 1) ∧
      (¬ ALIGN4 10 + 32 + 4 < (oneFree.mem 1000).size →
        view st' = viewOf oneFree.mem l1 ++ (1000, (oneFree.mem 1000).size, false) ::
          viewOf oneFree.mem l2 ∧
        blockAddrs st' = blockAddrs oneFree ∧
        (st'.mem 1000).next = (oneFree.mem 1000).next ∧
        (st'.mem 1000).prev = (oneFree.mem 1000).prev ∧
        st'.ctr.num_splits = oneFree.ctr.num_splits ∧
        st'.ctr.num_blocks = oneFree.ctr.num_blocks) :=
  split_rule Fit.first 32 oneFree _ [1000] 10 1000 1000 (by decide) oneFree_inv (by decide)
    (Outcome.eq_ret_of_val _ (1000, 1000) (initState 0 0) (by decide)) (by decide)

/-- Witness of `reuse_over_growth`: `malloc(100)` on the empty heap returns 1032. -/
theorem reuse_over_growth_witness :
    ∃ st2, free 32 (afterMalloc Fit.first 32 heap0 100) 1032 = Outcome.ret () st2 ∧
      ∃ q st3, malloc Fit.first 32 st2 100 = Outcome.ret q st3 ∧ q ≠ 0 ∧
        st3.ctr.num_reuses = st2.ctr.num_reuses + 1 ∧
        st3.ctr.num_grows = st2.ctr.num_grows :=
  reuse_over_growth Fit.first 32 1000 100000 heap0 (afterMalloc Fit.first 32 heap0 100) 100 1032
    (by decide) params0 Reach.init (by decide)
    (Outcome.eq_ret_of_val _ 1032 heap0 (by decide)) (by decide)

/-- Witness of `realloc_round_trip`: after `A = malloc(8)` and a store of 7 at `A + 1`,
`realloc(A, 20)` returns 1072, and the byte at 1073 is 7. -/
theorem realloc_round_trip_witness :
    ((realloc Fit.first 32 firstRun1w 1032 20).stateD heap0).bytes 1073 = 7 ∧
    (firstRun1w.mem (BLOCK_HEADER 32 1032)).size = 8 ∧
    (∀ i, i < (firstRun1w.mem (BLOCK_HEADER 32 1032)).size →
      ((realloc Fit.first 32 firstRun1w 1032 20).stateD heap0).bytes (1072 + i) =
        firstRun1w.bytes (1032 + i)) ∧
    (∃ c ∈ blockAddrs ((realloc Fit.first 32 firstRun1w 1032 20).stateD heap0),
      BLOCK_DATA 32 c = 1072 ∧
      (((realloc Fit.first 32 firstRun1w 1032 20).stateD heap0).mem c).free = false ∧
      20 ≤ (((realloc Fit.first 32 firstRun1w 1032 20).stateD heap0).mem c).size) ∧
    ¬ Live 32 ((realloc Fit.first 32 firstRun1w 1032 20).stateD heap0) 1032 :=
  ⟨by decide, by decide,
    realloc_round_trip Fit.first 32 1000 100000 firstRun1w _ 1032 20 1072 (by decide) params0
      firstRun1w_reach (by decide) (by decide) (by decide) (by decide)
      (Outcome.eq_ret_of_val _ 1072 heap0 (by decide)) (by decide)⟩

theorem Seg_apart (H : Nat) (mem : Nat → Block) :
    ∀ (l : List Nat) (p n e : Nat), Seg H mem p l n e →
      l.Pairwise (fun x y => x + H + (mem x).size ≤ y) := by
  intro l
  induction l with
  | nil => intro p n e _; exact List.Pairwise.nil
  | cons x l ih =>
    intro p n e h
    exact List.Pairwise.cons (Seg_head_lt H mem x l p n e h) (ih _ _ _ h.2.2.2.2)

theorem pairwise_apart (H : Nat) (mem : Nat → Block) (l : List Nat)
    (h : l.Pairwise (fun x y => x + H + (mem x).size ≤ y)) :
    ∀ a ∈ l, ∀ b ∈ l, a ≠ b →
      a + H + (mem a).size ≤ b ∨ b + H + (mem b).size ≤ a := by
  induction l with
  | nil => intro a ha; simp at ha
  | cons x l ih =>
    intro a ha b hb hab
    rw [List.pairwise_cons] at h
    rcases List.mem_cons.1 ha with rfl | ha'
    · rcases List.mem_cons.1 hb with rfl | hb'
      · exact absurd rfl hab
      · exact Or.inl (h.1 b hb')
    · rcases List.mem_cons.1 hb with rfl | hb'
      · exact Or.inr (h.1 a ha')
      · exact ih h.2 a ha' b hb' hab

/-- No-overlap under the first-fit, best-fit and worst-fit policies: in every state reached
from the empty heap by valid calls, two distinct live pointers `p` and `q` are the payloads of
two blocks of the list, and the payload of one ends before the header of the other starts: the
regions `[p, p + size)` and `[q, q + size)` are disjoint, and neither contains a byte of the
other block's header. -/
theorem no_overlap_fits (fit : Fit) (H b0 lim : Nat) (st : State) (p q : Nat)
    (hfit : fit ≠ Fit.next) (hp : Params H b0 lim) (hr : Reach fit H b0 lim st)
    (hlp : Live H st p) (hlq : Live H st q) (hpq : p ≠ q) :
    p + (st.mem (BLOCK_HEADER H p)).size + H ≤ q ∨
      q + (st.mem (BLOCK_HEADER H q)).size + H ≤ p := by
  obtain ⟨l, hl⟩ := reach_inv fit H b0 lim st hfit hp hr
  obtain ⟨a, ha, hpa, -⟩ := hlp
  obtain ⟨b, hb, hqb, -⟩ := hlq
  rw [hl.blockAddrs hp.hpos] at ha hb
  obtain ⟨ha1, ha2, -, -⟩ := hl.block_data a ha
  obtain ⟨hb1, hb2, -, -⟩ := hl.block_data b hb
  rw [ha1] at hpa
  rw [hb1] at hqb
  subst hpa hqb
  rw [ha2, hb2]
  have hab : a ≠ b := by
    intro e
    exact hpq (by rw [e])
  rcases pairwise_apart H st.mem l (Seg_apart H st.mem l _ _ _ hl.seg) a ha b hb hab with h | h
  · left; omega
  · right; omega

/-- An instance of `no_overlap_fits`: the pointers `A = 1032` and `C = 1112` of the first-fit run
after `free(B)`. -/
theorem no_overlap_fits_witness :
    1032 + (firstRun4.mem (BLOCK_HEADER 32 1032)).size + 32 ≤ 1112 ∨
      1112 + (firstRun4.mem (BLOCK_HEADER 32 1112)).size + 32 ≤ 1032 :=
  no_overlap_fits Fit.first 32 1000 100000 firstRun4 1032 1112 (by decide) params0
    firstRun4_reach (by decide) (by decide) (by decide)

/-- In a state reached under the first-fit, best-fit or worst-fit policy, the headers followed
from the root are a well-formed list. -/
theorem Reach.inv_list {fit : Fit} {H b0 lim : Nat} {st : State} (hfit : fit ≠ Fit.next)
    (hp : Params H b0 lim) (hr : Reach fit H b0 lim st) : Inv H st (blockAddrs st) := by
  obtain ⟨l, hl⟩ := reach_inv fit H b0 lim st hfit hp hr
  rw [hl.blockAddrs hp.hpos]
  exact hl

/-- C11: realloc in place. For every state, under each policy, every non-null pointer `p` (a
live pointer is not null) whose header records the size `n` and every `newSize` with
`0 < newSize ≤ n`: `realloc(p, newSize)` returns `p` itself, and the state it returns with is the
state of the call: every header, the root, every payload byte, every counter, the cursor and
the break. -/
theorem realloc_in_place (fit : Fit) (H : Nat) (st : State) (p newSize : Nat)
    (hp : p ≠ 0) (hpos : 0 < newSize)
    (hle : newSize ≤ (st.mem (BLOCK_HEADER H p)).size) :
    realloc fit H st p newSize = Outcome.ret p st := by
  unfold realloc
  rw [if_neg hp, if_neg (Nat.pos_iff_ne_zero.1 hpos)]
  exact if_pos hle

/-- Witness of `realloc_in_place`: `realloc(A, 5)` after `A = malloc(8)`. -/
theorem realloc_in_place_witness :
    Live 32 firstRun1 1032 ∧ (firstRun1.mem (BLOCK_HEADER 32 1032)).size = 8 ∧
      realloc Fit.first 32 firstRun1 1032 5 = Outcome.ret 1032 firstRun1 :=
  ⟨by decide, by decide,
    realloc_in_place Fit.first 32 firstRun1 1032 5 (by decide) (by decide) (by decide)⟩

/-- C12: first-fit. On a well-formed block list `l` and for every request size `r`, under the
first-fit policy `findFreeBlock` returns, with the state it was called in (it modifies no
block). It returns null if and only if no block of the list is free with a size of at least
`r`. When it returns a block `f`, then `f` is a block of the list that is free with a size of at
least `r`, and every block before `f` in the list is in use or smaller than `r`. -/
theorem first_fit_earliest (H : Nat) (st : State) (l : List Nat) (r last : Nat)
    (hH : 0 < H) (h : Inv H st l) :
    ∃ f last1, findFreeBlock Fit.first st last r = Outcome.ret (f, last1) st ∧
      (f = 0 ↔ ∀ x ∈ l, ¬ Fits st.mem r x) ∧
      (f ≠ 0 → ∃ l1 l2, l = l1 ++ f :: l2 ∧ Fits st.mem r f ∧
        ∀ x ∈ l1, ¬ ((st.mem x).free = true ∧ r ≤ (st.mem x).size)) := by
  obtain ⟨f, last1, he, hres⟩ :=
    firstLoop_path st.mem r l _ last _ h.path (h.length_lt hH)
  refine ⟨f, last1, by simp [findFreeBlock, he], ?_⟩
  rcases hres with ⟨h0, hall, -⟩ | ⟨l1, l2, hl, hbefore, hfits, -⟩
  · exact ⟨⟨fun _ => hall, fun _ => h0⟩, fun hne => absurd h0 hne⟩
  · have hf0 : 0 < f := Seg_pos H st.mem l _ _ _ h.seg f (by simp [hl])
    refine ⟨⟨fun h0 => by omega, fun hall => absurd hfits (hall f (by simp [hl]))⟩, ?_⟩
    intro _
    exact ⟨l1, l2, hl, hfits, hbefore⟩

/-- Witness of `first_fit_earliest`: the list `A`, `B`, `C` with `B` free, request size 8. -/
theorem first_fit_earliest_witness :
    blockAddrs firstRun4 = [1000, 1040, 1080] ∧
    (findFreeBlock Fit.first firstRun4 firstRun4.heapList 8).val? = some (1040, 1000) ∧
    ∃ f last1, findFreeBlock Fit.first firstRun4 firstRun4.heapList 8 =
        Outcome.ret (f, last1) firstRun4 ∧
      (f = 0 ↔ ∀ x ∈ blockAddrs firstRun4, ¬ Fits firstRun4.mem 8 x) ∧
      (f ≠ 0 → ∃ l1 l2, blockAddrs firstRun4 = l1 ++ f :: l2 ∧ Fits firstRun4.mem 8 f ∧
        ∀ x ∈ l1, ¬ ((firstRun4.mem x).free = true ∧ 8 ≤ (firstRun4.mem x).size)) :=
  ⟨by decide, by decide, first_fit_earliest 32 firstRun4 (blockAddrs firstRun4) 8 firstRun4.heapList
    (by decide) (Reach.inv_list (by decide) params0 firstRun4_reach)⟩

theorem bestScan_earliest (mem : Nat → Block) (size : Nat) :
    ∀ (l : List Nat) (bb ss : Nat),
      ((∀ x ∈ l, ¬ (Fits mem size x ∧ (mem x).size < ss)) ∧
          bestScan mem size l (bb, ss) = (bb, ss)) ∨
      (∃ r l1 l2, (bestScan mem size l (bb, ss)) = (r, (mem r).size) ∧ l = l1 ++ r :: l2 ∧
          Fits mem size r ∧ (mem r).size < ss ∧
          (∀ x ∈ l, Fits mem size x → (mem r).size ≤ (mem x).size) ∧
          (∀ x ∈ l1, Fits mem size x → (mem r).size < (mem x).size)) := by
  intro l
  induction l with
  | nil => intro bb ss; exact Or.inl ⟨by simp, rfl⟩
  | cons y l ih =>
    intro bb ss
    by_cases hy : (mem y).free = true ∧ (mem y).size ≥ size ∧ (mem y).size < ss
    · have e : bestScan mem size (y :: l) (bb, ss) = bestScan mem size l (y, (mem y).size) := by
        simp only [bestScan]
        rw [if_pos hy]
      rw [e]
      right
      rcases ih y (mem y).size with ⟨hnone, hq⟩ | ⟨r, l1, l2, hq, hl, hfr, hlt, hmin, hbefore⟩
      · refine ⟨y, [], l, hq, rfl, ⟨hy.1, hy.2.1⟩, hy.2.2, ?_, by simp⟩
        intro x hx hfx
        rcases List.mem_cons.1 hx with rfl | hx'
        · exact le_rfl
        · have := hnone x hx'
          by_contra hc
          exact this ⟨hfx, by omega⟩
      · refine ⟨r, y :: l1, l2, hq, by rw [hl]; rfl, hfr, by omega, ?_, ?_⟩
        · intro x hx hfx
          rcases List.mem_cons.1 hx with rfl | hx'
          · omega
          · exact hmin x hx' hfx
        · intro x hx hfx
          rcases List.mem_cons.1 hx with rfl | hx'
          · exact hlt
          · exact hbefore x hx' hfx
    · have e : bestScan mem size (y :: l) (bb, ss) = bestScan mem size l (bb, ss) := by
        simp only [bestScan]
        rw [if_neg hy]
      rw [e]
      rcases ih bb ss with ⟨hnone, hq⟩ | ⟨r, l1, l2, hq, hl, hfr, hlt, hmin, hbefore⟩
      · left
        refine ⟨?_, hq⟩
        intro x hx
        rcases List.mem_cons.1 hx with rfl | hx'
        · intro hc
          exact hy ⟨hc.1.1, hc.1.2, hc.2⟩
        · exact hnone x hx'
      · right
        have hyb : Fits mem size y → (mem r).size < (mem y).size := by
          intro hfy
          by_contra hc
          exact hy ⟨hfy.1, hfy.2, by omega⟩
        refine ⟨r, y :: l1, l2, hq, by rw [hl]; rfl, hfr, hlt, ?_, ?_⟩
        · intro x hx hfx
          rcases List.mem_cons.1 hx with rfl | hx'
          · exact (hyb hfx).le
          · exact hmin x hx' hfx
        · intro x hx hfx
          rcases List.mem_cons.1 hx with rfl | hx'
          · exact hyb hfx
          · exact hbefore x hx' hfx

theorem worstScan_earliest (mem : Nat → Block) (size : Nat) :
    ∀ (l : List Nat) (bb ss : Nat),
      ((∀ x ∈ l, ¬ (Fits mem size x ∧ (mem x).size > ss)) ∧
          worstScan mem size l (bb, ss) = (bb, ss)) ∨
      (∃ r l1 l2, (worstScan mem size l (bb, ss)) = (r, (mem r).size) ∧ l = l1 ++ r :: l2 ∧
          Fits mem size r ∧ (mem r).size > ss ∧
          (∀ x ∈ l, Fits mem size x → (mem x).size ≤ (mem r).size) ∧
          (∀ x ∈ l1, Fits mem size x → (mem x).size < (mem r).size)) := by
  intro l
  induction l with
  | nil => intro bb ss; exact Or.inl ⟨by simp, rfl⟩
  | cons y l ih =>
    intro bb ss
    by_cases hy : (mem y).free = true ∧ (mem y).size ≥ size ∧ (mem y).size > ss
    · have e : worstScan mem size (y :: l) (bb, ss) =
          worstScan mem size l (y, (mem y).size) := by
        simp only [worstScan]
        rw [if_pos hy]
      rw [e]
      right
      rcases ih y (mem y).size with ⟨hnone, hq⟩ | ⟨r, l1, l2, hq, hl, hfr, hlt, hmin, hbefore⟩
      · refine ⟨y, [], l, hq, rfl, ⟨hy.1, hy.2.1⟩, hy.2.2, ?_, by simp⟩
        intro x hx hfx
        rcases List.mem_cons.1 hx with rfl | hx'
        · exact le_rfl
        · have := hnone x hx'
          by_contra hc
          exact this ⟨hfx, by omega⟩
      · refine ⟨r, y :: l1, l2, hq, by rw [hl]; rfl, hfr, by omega, ?_, ?_⟩
        · intro x hx hfx
          rcases List.mem_cons.1 hx with rfl | hx'
          · omega
          · exact hmin x hx' hfx
        · intro x hx hfx
          rcases List.mem_cons.1 hx with rfl | hx'
          · exact hlt
          · exact hbefore x hx' hfx
    · have e : worstScan mem size (y :: l) (bb, ss) = worstScan mem size l (bb, ss) := by
        simp only [worstScan]
        rw [if_neg hy]
      rw [e]
      rcases ih bb ss with ⟨hnone, hq⟩ | ⟨r, l1, l2, hq, hl, hfr, hlt, hmin, hbefore⟩
      · left
        refine ⟨?_, hq⟩
        intro x hx
        rcases List.mem_cons.1 hx with rfl | hx'
        · intro hc
          exact hy ⟨hc.1.1, hc.1.2, hc.2⟩
        · exact hnone x hx'
      · right
        have hyb : Fits mem size y → (mem y).size < (mem r).size := by
          intro hfy
          by_contra hc
          exact hy ⟨hfy.1, hfy.2, by omega⟩
        refine ⟨r, y :: l1, l2, hq, by rw [hl]; rfl, hfr, hlt, ?_, ?_⟩
        · intro x hx hfx
          rcases List.mem_cons.1 hx with rfl | hx'
          · exact (hyb hfx).le
          · exact hmin x hx' hfx
        · intro x hx hfx
          rcases List.mem_cons.1 hx with rfl | hx'
          · exact hyb hfx
          · exact hbefore x hx' hfx

theorem bestRun7_view : view bestRun7 =
    [(1000, 8, false), (1040, 24, true), (1096, 8, false), (1136, 16, true), (1184, 8, false)] := by
  decide

theorem bestRun7_reach : Reach Fit.best 32 1000 100000 bestRun7 := by
  have r1 : Reach Fit.best 32 1000 100000 bestRun1 :=
    Reach.malloc_val 8 1032 Reach.init (by decide) (by decide) (by decide)
  have r2 : Reach Fit.best 32 1000 100000 bestRun2 :=
    Reach.malloc_val 24 1072 r1 (by decide) (by decide) (by decide)
  have r3 : Reach Fit.best 32 1000 100000 bestRun3 :=
    Reach.malloc_val 8 1128 r2 (by decide) (by decide) (by decide)
  have r4 : Reach Fit.best 32 1000 100000 bestRun4 :=
    Reach.malloc_val 16 1168 r3 (by decide) (by decide) (by decide)
  have r5 : Reach Fit.best 32 1000 100000 bestRun5 :=
    Reach.malloc_val 8 1216 r4 (by decide) (by decide) (by decide)
  have r6 : Reach Fit.best 32 1000 100000 bestRun6 :=
    Reach.free_val 1072 r5 (Or.inr (by decide)) (by decide)
  exact Reach.free_val 1168 r6 (Or.inr (by decide)) (by decide)

/-- C13: best-fit and worst-fit. On a well-formed block list `l` (its sizes are then below
`SIZE_MAX`) and for every request size `r ≥ 1`, `findFreeBlock` returns, with the state it was
called in. Under best-fit it returns null if and only if no block of the list is free with a
size of at least `r`; when it returns a block `f`, then `f` is a block of the list that is free
with a size of at least `r`, no such block of the list is smaller than `f`, and every such block
before `f` in the list is larger than `f` (`f` is the earliest of the smallest). Under worst-fit
the same holds with larger and smaller exchanged. -/
theorem best_worst_fit (H : Nat) (st : State) (l : List Nat) (r last : Nat)
    (hH : 0 < H) (h : Inv H st l) (hr : 1 ≤ r) :
    (∃ f last1, findFreeBlock Fit.best st last r = Outcome.ret (f, last1) st ∧
      (f = 0 ↔ ∀ x ∈ l, ¬ Fits st.mem r x) ∧
      (f ≠ 0 → ∃ l1 l2, l = l1 ++ f :: l2 ∧ Fits st.mem r f ∧
        (∀ x ∈ l, Fits st.mem r x → (st.mem f).size ≤ (st.mem x).size) ∧
        (∀ x ∈ l1, Fits st.mem r x → (st.mem f).size < (st.mem x).size))) ∧
    (∃ f last1, findFreeBlock Fit.worst st last r = Outcome.ret (f, last1) st ∧
      (f = 0 ↔ ∀ x ∈ l, ¬ Fits st.mem r x) ∧
      (f ≠ 0 → ∃ l1 l2, l = l1 ++ f :: l2 ∧ Fits st.mem r f ∧
        (∀ x ∈ l, Fits st.mem r x → (st.mem x).size ≤ (st.mem f).size) ∧
        (∀ x ∈ l1, Fits st.mem r x → (st.mem x).size < (st.mem f).size))) := by
  have hW : W = 18446744073709551616 := rfl
  have hlen := h.length_lt hH
  have hpath := h.path
  constructor
  · have he := bestLoop_path st.mem r l _ last _ 0 (W - 1) hpath hlen
    refine ⟨(bestScan st.mem r l (0, W - 1)).1, l.getLastD last,
      by simp only [findFreeBlock, he], ?_⟩
    rcases bestScan_earliest st.mem r l 0 (W - 1) with
      ⟨hnone, hq⟩ | ⟨f, l1, l2, hq, hl, hfr, -, hmin, hbefore⟩
    · rw [hq]
      have hall : ∀ x ∈ l, ¬ Fits st.mem r x := by
        intro x hx hfx
        have := h.size_lt x hx
        exact hnone x hx ⟨hfx, by omega⟩
      exact ⟨⟨fun _ => hall, fun _ => rfl⟩, fun hne => absurd rfl hne⟩
    · rw [hq]
      have hf0 : 0 < f := Seg_pos H st.mem l _ _ _ h.seg f (by simp [hl])
      refine ⟨⟨fun h0 => ?_, fun hall => absurd hfr (hall f (by simp [hl]))⟩, ?_⟩
      · exact absurd h0 hf0.ne'
      · intro _
        exact ⟨l1, l2, hl, hfr, hmin, hbefore⟩
  · have he := worstLoop_path st.mem r l _ last _ 0 0 hpath hlen
    refine ⟨(worstScan st.mem r l (0, 0)).1, l.getLastD last,
      by simp only [findFreeBlock, he], ?_⟩
    rcases worstScan_earliest st.mem r l 0 0 with
      ⟨hnone, hq⟩ | ⟨f, l1, l2, hq, hl, hfr, -, hmin, hbefore⟩
    · rw [hq]
      have hall : ∀ x ∈ l, ¬ Fits st.mem r x := by
        intro x hx hfx
        have := hfx.2
        exact hnone x hx ⟨hfx, by omega⟩
      exact ⟨⟨fun _ => hall, fun _ => rfl⟩, fun hne => absurd rfl hne⟩
    · rw [hq]
      have hf0 : 0 < f := Seg_pos H st.mem l _ _ _ h.seg f (by simp [hl])
      refine ⟨⟨fun h0 => ?_, fun hall => absurd hfr (hall f (by simp [hl]))⟩, ?_⟩
      · exact absurd h0 hf0.ne'
      · intro _
        exact ⟨l1, l2, hl, hfr, hmin, hbefore⟩

/-- Witness of `best_worst_fit`: the list `A`, `B` (free, 24 bytes), `C`, `D` (free, 16 bytes),
`E` and the request size 12: best-fit returns `D`, worst-fit returns `B`. -/
theorem best_worst_fit_witness :
    view bestRun7 =
      [(1000, 8, false), (1040, 24, true), (1096, 8, false), (1136, 16, true),
        (1184, 8, false)] ∧
    (findFreeBlock Fit.best bestRun7 bestRun7.heapList 12).val? = some (1136, 1184) ∧
    (findFreeBlock Fit.worst bestRun7 bestRun7.heapList 12).val? = some (1040, 1184) ∧
    (∃ f last1, findFreeBlock Fit.best bestRun7 bestRun7.heapList 12 =
        Outcome.ret (f, last1) bestRun7 ∧
      (f = 0 ↔ ∀ x ∈ blockAddrs bestRun7, ¬ Fits bestRun7.mem 12 x) ∧
      (f ≠ 0 → ∃ l1 l2, blockAddrs bestRun7 = l1 ++ f :: l2 ∧ Fits bestRun7.mem 12 f ∧
        (∀ x ∈ blockAddrs bestRun7, Fits bestRun7.mem 12 x →
          (bestRun7.mem f).size ≤ (bestRun7.mem x).size) ∧
        (∀ x ∈ l1, Fits bestRun7.mem 12 x → (bestRun7.mem f).size < (bestRun7.mem x).size))) ∧
    (∃ f last1, findFreeBlock Fit.worst bestRun7 bestRun7.heapList 12 =
        Outcome.ret (f, last1) bestRun7 ∧
      (f = 0 ↔ ∀ x ∈ blockAddrs bestRun7, ¬ Fits bestRun7.mem 12 x) ∧
      (f ≠ 0 → ∃ l1 l2, blockAddrs bestRun7 = l1 ++ f :: l2 ∧ Fits bestRun7.mem 12 f ∧
        (∀ x ∈ blockAddrs bestRun7, Fits bestRun7.mem 12 x →
          (bestRun7.mem x).size ≤ (bestRun7.mem f).size) ∧
        (∀ x ∈ l1, Fits bestRun7.mem 12 x → (bestRun7.mem x).size < (bestRun7.mem f).size))) :=
  ⟨by decide, by decide, by decide,
    best_worst_fit 32 bestRun7 (blockAddrs bestRun7) 12 bestRun7.heapList (by decide)
      (Reach.inv_list (by decide) params0 bestRun7_reach) (by decide)⟩

theorem Seg_next_tiles (H : Nat) (mem : Nat → Block) (l : List Nat) (p e : Nat)
    (h : Seg H mem p l 0 e) :
    ∀ b ∈ l, (mem b).next ≠ 0 → b + H + (mem b).size = (mem b).next := by
  intro b hb hn
  obtain ⟨l1, l2, rfl⟩ := List.append_of_mem hb
  rw [Seg_append] at h
  obtain ⟨-, -, -, hbn, hbe, -⟩ := h
  rw [hbn] at hn ⊢
  cases l2 with
  | nil => exact absurd rfl hn
  | cons z l2' => simpa using hbe

/-- Address order when every request is in range. Under the first-fit, best-fit or worst-fit
policy, in every state reached from the empty heap by valid calls with `H + ALIGN4 s < W` for
every size requested, every block `b` of the list with a non-null
successor satisfies `b + H + b.size = b.next`: the payload of `b` ends where the header of the
block that follows starts. The addresses of the list are strictly ascending. -/
theorem address_order (fit : Fit) (H b0 lim : Nat) (st : State) (hfit : fit ≠ Fit.next)
    (hp : Params H b0 lim) (hr : Reach fit H b0 lim st) :
    (∀ b ∈ blockAddrs st, (st.mem b).next ≠ 0 →
      b + H + (st.mem b).size = (st.mem b).next ∧
      BLOCK_DATA H b + (st.mem b).size ≤ (st.mem b).next ∧ b < (st.mem b).next) ∧
    (blockAddrs st).Pairwise (fun a b => a < b) := by
  obtain ⟨l, hl⟩ := reach_inv fit H b0 lim st hfit hp hr
  rw [hl.blockAddrs hp.hpos]
  refine ⟨?_, Seg_sorted H st.mem hp.hpos l _ _ _ hl.seg⟩
  intro b hb hn
  have e := Seg_next_tiles H st.mem l 0 st.brk hl.seg b hb hn
  have hH := hp.hpos
  rw [(hl.block_data b hb).1]
  exact ⟨e, by omega, by omega⟩

/-- Witness of `address_order`: the first-fit run after `free(B)`, whose headers are at 1000,
1040 and 1080. -/
theorem address_order_witness :
    blockAddrs firstRun4 = [1000, 1040, 1080] ∧
    (∀ b ∈ blockAddrs firstRun4, (firstRun4.mem b).next ≠ 0 →
      b + 32 + (firstRun4.mem b).size = (firstRun4.mem b).next ∧
      BLOCK_DATA 32 b + (firstRun4.mem b).size ≤ (firstRun4.mem b).next ∧
      b < (firstRun4.mem b).next) ∧
    (blockAddrs firstRun4).Pairwise (fun a b => a < b) :=
  ⟨by decide,
    address_order Fit.first 32 1000 100000 firstRun4 (by decide) params0 firstRun4_reach⟩

theorem nextRun5_reach : Reach Fit.next 32 1000 100000 nextRun5 := by
  have r1 : Reach Fit.next 32 1000 100000 nextRun1 :=
    Reach.malloc_val 8 1032 Reach.init (by decide) (by decide) (by decide)
  have r2 : Reach Fit.next 32 1000 100000 nextRun2 :=
    Reach.malloc_val 8 1072 r1 (by decide) (by decide) (by decide)
  have r3 : Reach Fit.next 32 1000 100000 nextRun3 :=
    Reach.malloc_val 8 1112 r2 (by decide) (by decide) (by decide)
  have r4 : Reach Fit.next 32 1000 100000 nextRun4 :=
    Reach.free_val 1072 r3 (Or.inr (by decide)) (by decide)
  exact Reach.malloc_val 8 1072 r4 (by decide) (by decide) (by decide)

theorem nextRun8_reach : Reach Fit.next 32 1000 100000 nextRun8 :=
  Reach.malloc_val 8 1072 nextRun7_reach (by decide) (by decide) (by decide)

/-- The next-fit loop never ends when it alternates between two blocks `x` and `y` that do not
fit and are not the cursor: it returns for no bound on the number of iterations. -/
theorem nextLoop_cycle (mem : Nat → Block) (h size la x y : Nat)
    (hx : ¬ Fits mem size x) (hy : ¬ Fits mem size y)
    (hxy : (if (mem x).next ≠ 0 then (mem x).next else h) = y)
    (hyx : (if (mem y).next ≠ 0 then (mem y).next else h) = x)
    (hxl : x ≠ la) (hyl : y ≠ la) :
    ∀ fuel last, nextLoop mem h size la fuel x last = none ∧
      nextLoop mem h size la fuel y last = none := by
  intro fuel
  induction fuel with
  | zero => intro last; exact ⟨rfl, rfl⟩
  | succ n ih =>
    intro last
    constructor
    · have hx1 : ¬ ((mem x).free = true ∧ (mem x).size ≥ size) := hx
      unfold nextLoop
      rw [if_neg hx1]
      simp only [hxy]
      rw [if_pos hyl]
      exact (ih x).2
    · have hy1 : ¬ ((mem y).free = true ∧ (mem y).size ≥ size) := hy
      unfold nextLoop
      rw [if_neg hy1]
      simp only [hyx]
      rw [if_pos hxl]
      exact (ih y).1

set_option maxRecDepth 100000 in
/-- C14 (the code at the failing input): under the next-fit policy, after the valid calls
`A = malloc(8)`, `B = malloc(8)`, `C = malloc(8)`, `free(B)`, `malloc(8)`, `free(B)`, `free(A)`,
`malloc(8)` the list holds the blocks at 1000 and 1080 and the cursor is the absorbed header
1040. For the request size 1000 no block of the list fits, and the scan of `findFreeBlock`
does not return null: from 1040 it goes to 1080, wraps to the root 1000, goes to 1080 again, and
never meets the cursor; the loop returns for no bound on its number of iterations, and
`malloc(1000)` does not return. -/
theorem next_fit_scan_never_ends :
    Reach Fit.next 32 1000 100000 nextRun8 ∧
      blockAddrs nextRun8 = [1000, 1080] ∧ nextRun8.heapList = 1000 ∧
      nextRun8.last_allocated = 1040 ∧
      (∀ x ∈ blockAddrs nextRun8, ¬ Fits nextRun8.mem 1000 x) ∧
      ALIGN4 1000 = 1000 ∧
      (∀ fuel last, nextLoop nextRun8.mem 1000 1000 1040 fuel 1040 last = none) ∧
      (findFreeBlock Fit.next (registerAtexit nextRun8) nextRun8.heapList 1000).isDiverge
        = true ∧
      (malloc Fit.next 32 nextRun8 1000).isDiverge = true := by
  refine ⟨nextRun8_reach, by decide, by decide, by decide, by decide, by decide, ?_,
    by decide, by decide⟩
  intro fuel last
  cases fuel with
  | zero => rfl
  | succ n =>
    have hc := nextLoop_cycle nextRun8.mem 1000 1000 1040 1080 1000 (by decide) (by decide)
      (by decide) (by decide) (by decide) (by decide) n 1040
    unfold nextLoop
    rw [if_neg (by decide)]
    have e : (if (nextRun8.mem 1040).next ≠ 0 then (nextRun8.mem 1040).next else 1000) = 1080 := by
      decide
    simp only [e]
    rw [if_pos (by decide)]
    exact hc.1

/-- C17 (the code at the failing input): under the next-fit policy, after the valid calls
`A = malloc(8)`, `B = malloc(8)`, `C = malloc(8)`, `free(B)`, `malloc(8)` the blocks `A`, `B`, `C`
(at 1000, 1040, 1080) are in use and the cursor is `B`. For the request size 8 `findFreeBlock`
returns null and reports `A` through `*last`, which is not the tail `C`: the scan started at `B`
and wrapped. `growHeap` then overwrites the link from `A` to `B`: after `malloc(8)` the list
reached from the root holds `A` and the new block at 1120 only, the new block has `prev = A`,
and `B` and `C`, still in use, are no longer in the list. -/
theorem next_fit_growth_detaches :
    Reach Fit.next 32 1000 100000 nextRun5 ∧
      view nextRun5 = [(1000, 8, false), (1040, 8, false), (1080, 8, false)] ∧
      nextRun5.last_allocated = 1040 ∧
      (findFreeBlock Fit.next (registerAtexit nextRun5) nextRun5.heapList 8).val?
        = some (0, 1000) ∧
      (nextRun5.mem 1000).next = 1040 ∧ (nextRun5.mem 1080).next = 0 ∧
      (malloc Fit.next 32 nextRun5 8).val? = some 1152 ∧
      (nextGrow.mem 1000).next = 1120 ∧ (nextGrow.mem 1120).prev = 1000 ∧
      blockAddrs nextGrow = [1000, 1120] ∧
      (nextGrow.mem 1040).free = false ∧ (nextGrow.mem 1080).free = false ∧
      (nextGrow.mem 1080).next = 0 ∧ nextGrow.ctr.num_blocks = 4 :=
  ⟨nextRun5_reach, by decide, by decide, by decide, by decide, by decide, by decide, by decide,
    by decide, by decide, by decide, by decide, by decide, by decide⟩

/-- C20 (the code at the failing input): under the next-fit policy, after the valid calls
`A = malloc(8)`, `B = malloc(8)`, `C = malloc(8)`, `free(B)`, `malloc(8)` (which returns `B` and
sets the cursor to its header 1040), `free(B)`, `free(A)` (which absorbs `B` into `A`), the
cursor is not null and is not a block of the list: the list holds the blocks at 1000 and 1080.
The next `findFreeBlock`, for the request size 8, returns the header 1040, which is not a block
of the list. -/
theorem next_fit_cursor_stale :
    Reach Fit.next 32 1000 100000 nextRun7 ∧
      nextRun7.last_allocated = 1040 ∧ nextRun7.last_allocated ≠ 0 ∧
      blockAddrs nextRun7 = [1000, 1080] ∧
      nextRun7.last_allocated ∉ blockAddrs nextRun7 ∧
      (findFreeBlock Fit.next (registerAtexit nextRun7) nextRun7.heapList 8).val?
        = some (1040, 1000) ∧
      1040 ∉ blockAddrs nextRun7 :=
  ⟨nextRun7_reach, by decide, by decide, by decide, by decide, by decide, by decide⟩

/-- On the empty list every policy returns null and leaves `*last` and the state alone. -/
theorem findFreeBlock_empty (fit : Fit) (st : State) (last size : Nat)
    (h0 : st.heapList = 0) : findFreeBlock fit st last size = Outcome.ret (0, last) st := by
  cases fit with
  | first => simp [findFreeBlock, firstLoop, h0]
  | best => simp [findFreeBlock, bestLoop, h0]
  | worst => simp [findFreeBlock, worstLoop, h0]
  | next => simp [findFreeBlock, h0]

/-- On the empty list `malloc` grows the heap, under every policy. -/
theorem malloc_empty_wf (fit : Fit) (H : Nat) (st : State) (s : Nat) (hH : 0 < H)
    (h : Inv H st []) (hsz : H + ALIGN4 s < W) (hr : ALIGN4 s ≠ 0)
    (hroom : st.brk + H + ALIGN4 s ≤ st.limit) :
    malloc fit H st s = Outcome.ret (st.brk + H) (growResult H st 0 (ALIGN4 s)) := by
  have hW : W = 18446744073709551616 := rfl
  have hb := h.brk_le
  have hlim := h.lim_le
  have h0 : st.heapList = 0 := h.root
  have hloc : findFreeBlock fit (registerAtexit st) st.heapList (ALIGN4 s) =
      Outcome.ret (0, 0) (registerAtexit st) := by
    rw [h0]
    exact findFreeBlock_empty fit (registerAtexit st) 0 (ALIGN4 s) (by simpa using h0)
  have hg := growHeap_wf H (registerAtexit st) 0 (ALIGN4 s) hH
    (by simpa using h.brk_pos) (by simpa using hb) (by simpa using hlim) hsz
  simp only [registerAtexit_brk, registerAtexit_limit] at hg
  rw [if_pos hroom] at hg
  rw [malloc_notfound_ret fit H st _ _ s _ _ hr hloc hg h.brk_pos.ne']
  have : BLOCK_DATA H st.brk = st.brk + H := by
    unfold BLOCK_DATA
    exact Nat.mod_eq_of_lt (by omega)
  rw [this]
  simp only [growResult, registerAtexit_limit]

/-- On a list of one free block that fits, with the next-fit cursor null, every policy
returns that block. -/
theorem findFreeBlock_single (fit : Fit) (H : Nat) (st : State) (b r : Nat) (hH : 0 < H)
    (hr : 0 < r) (h : Inv H st [b]) (hfits : Fits st.mem r b) (hc : st.last_allocated = 0) :
    ∃ last1 st1, findFreeBlock fit st st.heapList r = Outcome.ret (b, last1) st1 := by
  by_cases hfit : fit = Fit.next
  · subst hfit
    have hroot : st.heapList = b := h.root
    have hb0 : b ≠ 0 := (Seg_pos H st.mem [b] _ _ _ h.seg b (by simp)).ne'
    have h1 := hfits.1
    have h2 : r ≤ (st.mem b).size := hfits.2
    refine ⟨b, { st with last_allocated := b }, ?_⟩
    simp [findFreeBlock, hroot, hb0, hc, nextLoop, h1, h2]
  · obtain ⟨f, last, hloc, hres⟩ := locate_spec fit H st [b] r hfit hH hr h
    rcases hres with ⟨-, hnone, -⟩ | ⟨hf, -⟩
    · exact absurd hfits (hnone b (by simp))
    · have : f = b := by simpa using hf
      subst this
      exact ⟨last, st, hloc⟩

theorem viewOf_single (mem : Nat → Block) (l : List Nat) (b s : Nat) (f : Bool)
    (h : viewOf mem l = [(b, s, f)]) : l = [b] := by
  cases l with
  | nil => simp [viewOf] at h
  | cons x l' =>
    cases l' with
    | nil =>
      simp only [viewOf, List.map_cons, List.map_nil, List.cons.injEq, Prod.mk.injEq,
        and_true] at h
      rw [h.1]
    | cons y l'' => simp [viewOf] at h

/-- C15 (amended): the split threshold scenario, for every policy and every header size `H`
with `H + 16 < 1000`. On the empty heap `malloc(1000)` is served by growth, and after `free` of
its pointer the list is one free block of size 1000. `malloc(10)`, whose aligned size is 12,
then returns the same pointer and produces a split: the list is a block of 12 bytes in use
followed by a free block whose size is `1000 - 12 - H`, and `num_splits` is 1. -/
theorem split_threshold (fit : Fit) (H b0 lim : Nat) (hp : Params H b0 lim)
    (hroom : b0 + H + 1000 ≤ lim) (hH16 : H + 16 < 1000) :
    (malloc fit H (initState b0 lim) 1000).val? = some (b0 + H) ∧
      (afterMalloc fit H (initState b0 lim) 1000).ctr.num_grows = 1 ∧
      view (afterMalloc fit H (initState b0 lim) 1000) = [(b0, 1000, false)] ∧
      (free H (afterMalloc fit H (initState b0 lim) 1000) (b0 + H)).val? = some () ∧
      view (splitScenarioFreed fit H b0 lim) = [(b0, 1000, true)] ∧
      (malloc fit H (splitScenarioFreed fit H b0 lim) 10).val? = some (b0 + H) ∧
      view (splitScenario fit H b0 lim) =
        [(b0, 12, false), (b0 + H + 12, 1000 - 12 - H, true)] ∧
      (splitScenario fit H b0 lim).ctr.num_splits = 1 := by
  have hW : W = 18446744073709551616 := rfl
  have hH := hp.hpos
  have hlimW := hp.limW
  have hA1000 : ALIGN4 1000 = 1000 := by decide
  have hA10 : ALIGN4 10 = 12 := by decide
  have h0 : Inv H (initState b0 lim) [] := Inv_init H b0 lim hp
  have hv0 : view (initState b0 lim) = [] := by rw [h0.view_eq hH]; rfl
  -- malloc(1000)
  have hm1 := malloc_empty_wf fit H (initState b0 lim) 1000 hH h0 (by rw [hA1000]; omega)
    (by rw [hA1000]; decide) (by rw [hA1000]; exact hroom)
  rw [hA1000] at hm1
  have hb0 : (initState b0 lim).brk = b0 := rfl
  rw [hb0] at hm1
  have e1 : afterMalloc fit H (initState b0 lim) 1000 = growResult H (initState b0 lim) 0 1000 := by
    unfold afterMalloc; rw [hm1]; rfl
  have hinv1 : Inv H (growResult H (initState b0 lim) 0 1000) [b0] :=
    Inv_grow H (initState b0 lim) hH [] 1000 h0 hroom
  have hview1 : view (growResult H (initState b0 lim) 0 1000) = [(b0, 1000, false)] := by
    have := growResult_view H (initState b0 lim) hH [] 1000 h0 hroom
    rw [hv0] at this
    exact this
  have hctr1 := growResult_ctr H (initState b0 lim) 0 1000 (by omega)
  have hcur1 : (growResult H (initState b0 lim) 0 1000).last_allocated = 0 := by
    simp [growResult, growState, markUsed, initState]
  -- free
  obtain ⟨st2, l2, hf2, hinv2, hview2, hctr2⟩ :=
    free_spec H _ [b0] hH hinv1 b0 1000 [] [] hview1
  rw [(hinv1.block_data b0 (by simp)).1] at hf2
  have hview2' : view st2 = [(b0, 1000, true)] := by rw [hview2]; rfl
  have e2 : splitScenarioFreed fit H b0 lim = st2 := by
    unfold splitScenarioFreed afterFree; rw [e1, hf2]; rfl
  have hl2 : l2 = [b0] := by
    have := hinv2.view_eq hH
    rw [hview2'] at this
    exact viewOf_single st2.mem l2 b0 1000 true this.symm
  subst hl2
  have hcur2 : st2.last_allocated = 0 := by
    rw [(free_frame H _ _ _ hf2).2.2.2.2.1]; exact hcur1
  have hmem2 := viewOf_mem st2.mem [b0] b0 1000 true
    (by rw [← hinv2.view_eq hH, hview2']; simp)
  -- malloc(10)
  obtain ⟨last1, st3, hloc⟩ := findFreeBlock_single fit H (registerAtexit st2) b0 12 hH
    (by decide) (Inv_registerAtexit hinv2)
    (by rw [registerAtexit_mem]; exact ⟨hmem2.2.2, by rw [hmem2.2.1]; decide⟩)
    (by rw [registerAtexit_last_allocated]; exact hcur2)
  rw [registerAtexit_heapList] at hloc
  have hm3 := (malloc_found_wf fit H st2 st3 [b0] 10 b0 last1 hinv2 (by rw [hA10]; decide)
    (by rw [hA10]; exact hloc) (by simp)).2
  rw [hA10, hmem2.2.1, if_pos (by omega)] at hm3
  have e3 : splitScenario fit H b0 lim =
      withCursor (splitResult H st2 b0 12) st3.last_allocated := by
    unfold splitScenario afterMalloc; rw [e2, hm3]; rfl
  have hview3 := splitResult_view H st2 hH [] [] b0 12 hinv2 hmem2.2.2
    (by rw [hmem2.2.1]; omega)
  rw [hmem2.2.1] at hview3
  have hb0ne : b0 ≠ 0 := hp.bpos.ne'
  refine ⟨by rw [hm1]; rfl, by rw [e1, hctr1]; rfl, by rw [e1]; exact hview1,
    by rw [e1, hf2]; rfl, by rw [e2]; exact hview2', by rw [e2, hm3]; rfl,
    by rw [e3, view_cursor, hview3]; rfl, ?_⟩
  rw [e3, withCursor_ctr, splitResult_ctr H st2 b0 12 hb0ne, hctr2, hctr1]
  rfl

/-- Witness of `split_threshold`: the header size 32, the break at 1000, first-fit. -/
theorem split_threshold_witness :
    (malloc Fit.first 32 (initState 1000 100000) 1000).val? = some (1000 + 32) ∧
      (afterMalloc Fit.first 32 (initState 1000 100000) 1000).ctr.num_grows = 1 ∧
      view (afterMalloc Fit.first 32 (initState 1000 100000) 1000) = [(1000, 1000, false)] ∧
      (free 32 (afterMalloc Fit.first 32 (initState 1000 100000) 1000) (1000 + 32)).val?
        = some () ∧
      view (splitScenarioFreed Fit.first 32 1000 100000) = [(1000, 1000, true)] ∧
      (malloc Fit.first 32 (splitScenarioFreed Fit.first 32 1000 100000) 10).val?
        = some (1000 + 32) ∧
      view (splitScenario Fit.first 32 1000 100000) =
        [(1000, 12, false), (1000 + 32 + 12, 1000 - 12 - 32, true)] ∧
      (splitScenario Fit.first 32 1000 100000).ctr.num_splits = 1 :=
  split_threshold Fit.first 32 1000 100000 params0 (by decide) (by decide)

/-- C15 (counterexample): with the header size 32, `malloc(1000)`, `free`, `malloc(10)` on the
empty heap leave a block of 12 bytes in use and a free remainder of size 956, under each of the
four policies. The aligned size of 10 is 12, not 16, and 956 is not `1000 - 16 - 32`. -/
theorem split_threshold_counterexample :
    view (splitScenario Fit.first 32 1000 100000) = [(1000, 12, false), (1044, 956, true)] ∧
      view (splitScenario Fit.best 32 1000 100000) = [(1000, 12, false), (1044, 956, true)] ∧
      view (splitScenario Fit.worst 32 1000 100000) = [(1000, 12, false), (1044, 956, true)] ∧
      view (splitScenario Fit.next 32 1000 100000) = [(1000, 12, false), (1044, 956, true)] ∧
      ALIGN4 10 = 12 ∧ 956 ≠ 1000 - 16 - 32 := by
  decide

/-! ## Induction over the reachable states -/

/-- Induction over the states reached under the first-fit, best-fit or worst-fit policy: a
property that holds of the empty heap, that `malloc` and `free` keep on a well-formed heap, and
that does not depend on the payload bytes, holds of every reached state. -/
theorem reach_induct (fit : Fit) (H b0 lim : Nat) (hfit : fit ≠ Fit.next)
    (hp : Params H b0 lim) (P : State → Prop) (hinit : P (initState b0 lim))
    (hmalloc : ∀ (st st' : State) (l : List Nat) (s p : Nat), Inv H st l → P st →
      H + ALIGN4 s < W → malloc fit H st s = Outcome.ret p st' → P st')
    (hfree : ∀ (st st' : State) (l : List Nat) (p : Nat), Inv H st l → P st →
      (p = 0 ∨ Live H st p) → free H st p = Outcome.ret () st' → P st')
    (hbytes : ∀ (st : State) (b : Nat → Nat), P st → P { st with bytes := b }) :
    ∀ st, Reach fit H b0 lim st → P st := by
  have hH := hp.hpos
  have key : ∀ st, Reach fit H b0 lim st → (∃ l, Inv H st l) ∧ P st := by
    intro st hr
    induction hr with
    | init => exact ⟨⟨[], Inv_init H b0 lim hp⟩, hinit⟩
    | malloc _ _ hsz hm ih =>
      obtain ⟨⟨l, hl⟩, hP⟩ := ih
      exact ⟨malloc_preserves fit H _ _ l _ _ hfit hH hl hsz hm,
        hmalloc _ _ l _ _ hl hP hsz hm⟩
    | calloc _ hsz hm ih =>
      obtain ⟨⟨l, hl⟩, hP⟩ := ih
      refine ⟨calloc_preserves fit H _ _ l _ _ _ hfit hH hl hsz hm, ?_⟩
      obtain ⟨st1, hmal, hres⟩ := calloc_inv fit H _ _ _ _ _ hm
      have := hmalloc _ _ l _ _ hl hP hsz hmal
      rcases hres with ⟨-, rfl⟩ | ⟨-, rfl⟩
      · exact this
      · exact hbytes _ _ this
    | realloc hreach hlive _ hsz hm ih =>
      obtain ⟨⟨l, hl⟩, hP⟩ := ih
      refine ⟨realloc_preserves fit H _ _ l _ _ _ hfit hH hl hlive hsz hm, ?_⟩
      rcases realloc_inv fit H _ _ _ _ _ hm with
        ⟨-, hmal⟩ | ⟨-, -, -, hf⟩ | ⟨-, -, -, -, rfl⟩ | ⟨hp0, -, -, st1, hmal, hres⟩
      · exact hmalloc _ _ l _ _ hl hP hsz hmal
      · exact hfree _ _ l _ hl hP hlive hf
      · exact hP
      · have hP1 := hmalloc _ _ l _ _ hl hP hsz hmal
        rcases hres with ⟨-, rfl⟩ | ⟨-, hf⟩
        · exact hP1
        · obtain ⟨a, ha, hpa, hfree1⟩ := hlive.resolve_left hp0
          rw [hl.blockAddrs hH] at ha
          obtain ⟨l1, hl1, hal1, hf1, -, -⟩ :=
            malloc_live fit H _ st1 l _ _ hfit hH hl hsz hmal a ha hfree1
          refine hfree _ _ l1 _ (Inv_bytes _ hl1) (hbytes _ _ hP1) (Or.inr ?_) hf
          refine ⟨a, ?_, hpa, hf1⟩
          rw [blockAddrs_bytes, hl1.blockAddrs hH]
          exact hal1
    | free _ hlive hm ih =>
      obtain ⟨⟨l, hl⟩, hP⟩ := ih
      exact ⟨free_preserves H _ _ l _ hH hl hlive hm, hfree _ _ l _ hl hP hlive hm⟩
    | write _ _ _ _ ih =>
      obtain ⟨⟨l, hl⟩, hP⟩ := ih
      exact ⟨⟨l, Inv_bytes _ hl⟩, hbytes _ _ hP⟩
  intro st hr
  exact (key st hr).2

theorem view_registerAtexit (st : State) : view (registerAtexit st) = view st := by
  unfold view blockAddrs
  simp only [registerAtexit_mem, registerAtexit_brk, registerAtexit_heapList]

/-- The block list and the counters after a call of `malloc` that returns, on a well-formed
heap under the first-fit, best-fit or worst-fit policy: nothing changes (the aligned size is
zero), or a block is appended (growth), or a free block is split, or a free block is handed
out whole. -/
theorem malloc_view (fit : Fit) (H : Nat) (st st' : State) (l : List Nat) (s p : Nat)
    (hfit : fit ≠ Fit.next) (hH : 0 < H) (h : Inv H st l) (hsz : H + ALIGN4 s < W)
    (hm : malloc fit H st s = Outcome.ret p st') :
    (ALIGN4 s = 0 ∧ view st' = view st ∧ st'.ctr = st.ctr) ∨
    (ALIGN4 s ≠ 0 ∧ view st' = view st ++ [(st.brk, ALIGN4 s, false)] ∧
      st'.ctr = (growResult H st (l.getLastD 0) (ALIGN4 s)).ctr) ∨
    (ALIGN4 s ≠ 0 ∧ ∃ f V1 V2 S, f ≠ 0 ∧ view st = V1 ++ (f, S, true) :: V2 ∧
      ALIGN4 s + H + 4 < S ∧
      view st' = V1 ++ (f, ALIGN4 s, false) :: (f + H + ALIGN4 s, S - ALIGN4 s - H, true) :: V2 ∧
      st'.ctr = (splitResult H st f (ALIGN4 s)).ctr) ∨
    (ALIGN4 s ≠ 0 ∧ ∃ f V1 V2 S, f ≠ 0 ∧ view st = V1 ++ (f, S, true) :: V2 ∧
      view st' = V1 ++ (f, S, false) :: V2 ∧
      st'.ctr = (reuseResult st f (ALIGN4 s)).ctr) := by
  by_cases hr : ALIGN4 s = 0
  · rcases malloc_inv _ _ _ _ _ _ hm with ⟨-, -, rfl⟩ | ⟨hne, -⟩
    · exact Or.inl ⟨hr, view_registerAtexit st, registerAtexit_ctr st⟩
    · exact absurd hr hne
  · rcases malloc_wf fit H st l s hfit hH h hsz hr with
      ⟨-, ⟨hroom, he⟩ | ⟨-, he⟩⟩ | ⟨f, l1, l2, hl, hff, ⟨hbig, he⟩ | ⟨-, he⟩⟩
    · rw [he] at hm
      injection hm with h1 h2
      subst h1 h2
      exact Or.inr (Or.inl ⟨hr, growResult_view H st hH l _ h hroom, rfl⟩)
    · rw [he] at hm; cases hm
    · rw [he] at hm
      injection hm with h1 h2
      subst h1 h2 hl
      have hf0 : f ≠ 0 := (Seg_pos H st.mem _ _ _ _ h.seg f (by simp)).ne'
      refine Or.inr (Or.inr (Or.inl ⟨hr, f, viewOf st.mem l1, viewOf st.mem l2,
        (st.mem f).size, hf0, ?_, hbig, splitResult_view H st hH l1 l2 f _ h hff.1 hbig, rfl⟩))
      rw [h.view_eq hH, viewOf_append, viewOf_cons, hff.1]
    · rw [he] at hm
      injection hm with h1 h2
      subst h1 h2 hl
      have hf0 : f ≠ 0 := (Seg_pos H st.mem _ _ _ _ h.seg f (by simp)).ne'
      refine Or.inr (Or.inr (Or.inr ⟨hr, f, viewOf st.mem l1, viewOf st.mem l2,
        (st.mem f).size, hf0, ?_, reuseResult_view H st hH l1 l2 f _ h, rfl⟩))
      rw [h.view_eq hH, viewOf_append, viewOf_cons, hff.1]

/-- The block list and the counters after a call of `free` that returns, on a well-formed
heap: nothing changes (the pointer is null), or the block is marked free and merged with its
free neighbours. -/
theorem free_view_ctr (H : Nat) (st st' : State) (l : List Nat) (p : Nat) (hH : 0 < H)
    (h : Inv H st l) (hp : p = 0 ∨ Live H st p)
    (hf : free H st p = Outcome.ret () st') :
    st' = st ∨
    ∃ b s V1 V2, view st = V1 ++ (b, s, false) :: V2 ∧ view st' = coalesced H V1 b s V2 ∧
      st'.ctr =
        { st.ctr with
          num_frees := st.ctr.num_frees + 1
          num_coalesces := st.ctr.num_coalesces + (absorbedCount V1 V2 : Nat)
          num_blocks := st.ctr.num_blocks - (absorbedCount V1 V2 : Nat) } := by
  rcases hp with rfl | ⟨a, ha, hpa, hfree⟩
  · simp only [free, if_true] at hf
    injection hf with h1 h2
    exact Or.inl h2.symm
  · right
    rw [h.blockAddrs hH] at ha
    obtain ⟨l1, l2, rfl⟩ := List.append_of_mem ha
    have hv : view st =
        viewOf st.mem l1 ++ (a, (st.mem a).size, false) :: viewOf st.mem l2 := by
      rw [h.view_eq hH, viewOf_append, viewOf_cons, hfree]
    obtain ⟨st2, l', hf2, -, hview, hctr⟩ := free_spec H st _ hH h a _ _ _ hv
    rw [hpa, hf] at hf2
    injection hf2 with h1 h2
    subst h2
    exact ⟨a, _, _, _, hv, hview, hctr⟩

theorem rightFree_nil : rightFree [] = false := rfl

theorem rightFree_cons (z sz : Nat) (f : Bool) (V : List (Nat × Nat × Bool)) :
    rightFree ((z, sz, f) :: V) = f := rfl

theorem coalesced_split (V1 V2 : List (Nat × Nat × Bool)) :
    (V1 = [] ∨ ∃ V q sq fq, V1 = V ++ [(q, sq, fq)]) ∧
    (V2 = [] ∨ ∃ z sz fz V', V2 = (z, sz, fz) :: V') := by
  constructor
  · rcases List.eq_nil_or_concat V1 with h | ⟨V, ⟨q, sq, fq⟩, h⟩
    · exact Or.inl h
    · exact Or.inr ⟨V, q, sq, fq, by rw [h, List.concat_eq_append]⟩
  · cases V2 with
    | nil => exact Or.inl rfl
    | cons e V' =>
      obtain ⟨z, sz, fz⟩ := e
      exact Or.inr ⟨z, sz, fz, V', rfl⟩

/-- The number of blocks after `free`: the freed block is kept, every absorbed neighbour
goes. -/
theorem coalesced_length (H : Nat) (V1 V2 : List (Nat × Nat × Bool)) (b s : Nat) :
    (coalesced H V1 b s V2).length + absorbedCount V1 V2 = V1.length + 1 + V2.length := by
  obtain ⟨h1, h2⟩ := coalesced_split V1 V2
  rcases h1 with rfl | ⟨V, q, sq, fq, rfl⟩ <;> rcases h2 with rfl | ⟨z, sz, fz, V', rfl⟩
  · simp [coalesced, mergeLeft_nil, mergeRight, absorbedCount, leftFree_nil, rightFree_nil]
  · cases fz <;>
      simp [coalesced, mergeLeft_nil, mergeRight, absorbedCount, leftFree_nil, rightFree_cons]
    all_goals omega
  · cases fq <;>
      simp [coalesced, mergeLeft_concat_free, mergeLeft_concat_used, mergeRight, absorbedCount,
        leftFree_concat, rightFree_nil]
  · cases fq <;> cases fz <;>
      simp [coalesced, mergeLeft_concat_free, mergeLeft_concat_used, mergeRight, absorbedCount,
        leftFree_concat, rightFree_cons]
    all_goals omega

/-- Coalescing does not change the sum over the blocks of header size plus size. -/
theorem coalesced_sum (H : Nat) (V1 V2 : List (Nat × Nat × Bool)) (b s : Nat) :
    ((coalesced H V1 b s V2).map fun e => H + e.2.1).sum =
      ((V1 ++ (b, s, false) :: V2).map fun e => H + e.2.1).sum := by
  obtain ⟨h1, h2⟩ := coalesced_split V1 V2
  rcases h1 with rfl | ⟨V, q, sq, fq, rfl⟩ <;> rcases h2 with rfl | ⟨z, sz, fz, V', rfl⟩
  · simp [coalesced, mergeLeft_nil, mergeRight]
  · cases fz <;> simp [coalesced, mergeLeft_nil, mergeRight]
    all_goals omega
  · cases fq <;>
      simp [coalesced, mergeLeft_concat_free, mergeLeft_concat_used, mergeRight]
    all_goals omega
  · cases fq <;> cases fz <;>
      simp [coalesced, mergeLeft_concat_free, mergeLeft_concat_used, mergeRight]
    all_goals omega

/-- A property of sizes that the merge of two blocks keeps holds of every size after
`free`. -/
theorem coalesced_sizes (H : Nat) (Q : Nat → Prop) (hQ : ∀ a c, Q a → Q c → Q (a + H + c))
    (V1 V2 : List (Nat × Nat × Bool)) (b s : Nat)
    (h1 : ∀ e ∈ V1, Q e.2.1) (hs : Q s) (h2 : ∀ e ∈ V2, Q e.2.1) :
    ∀ e ∈ coalesced H V1 b s V2, Q e.2.1 := by
  obtain ⟨c1, c2⟩ := coalesced_split V1 V2
  have hleft : (∀ e ∈ (mergeLeft H V1 b s).1, Q e.2.1) ∧ Q (mergeLeft H V1 b s).2.2 := by
    rcases c1 with rfl | ⟨V, q, sq, fq, rfl⟩
    · exact ⟨h1, hs⟩
    · have hV : ∀ e ∈ V, Q e.2.1 := fun e he => h1 e (by simp [he])
      have hq : Q sq := h1 (q, sq, fq) (by simp)
      cases fq
      · rw [mergeLeft_concat_used]
        exact ⟨h1, hs⟩
      · rw [mergeLeft_concat_free]
        exact ⟨hV, hQ _ _ hq hs⟩
  have hright : ∀ (c sc : Nat), Q sc → ∀ e ∈ mergeRight H c sc V2, Q e.2.1 := by
    intro c sc hsc e he
    rcases c2 with rfl | ⟨z, sz, fz, V', rfl⟩
    · simp only [mergeRight, List.mem_singleton] at he
      rw [he]; exact hsc
    · have hz : Q sz := h2 (z, sz, fz) (by simp)
      have hV : ∀ e ∈ V', Q e.2.1 := fun e he => h2 e (by simp [he])
      cases fz
      · simp only [mergeRight, List.mem_cons] at he
        rcases he with rfl | rfl | he
        · exact hsc
        · exact hz
        · exact hV e he
      · simp only [mergeRight, List.mem_cons] at he
        rcases he with rfl | he
        · exact hQ _ _ hsc hz
        · exact hV e he
  intro e he
  unfold coalesced at he
  rcases List.mem_append.1 he with he | he
  · exact hleft.1 e he
  · exact hright _ _ hleft.2 e he

theorem view_init (b0 lim : Nat) : view (initState b0 lim) = [] := by
  simp [view, blockAddrs, chainFrom, initState]

/-- Under the first-fit, best-fit or worst-fit policy, when the header size is a multiple
of 4, every size of the list of a reached state is a multiple of 4. -/
theorem reach_sizes_mod4 (fit : Fit) (H b0 lim : Nat) (hfit : fit ≠ Fit.next)
    (hp : Params H b0 lim) (h4 : H % 4 = 0) :
    ∀ st, Reach fit H b0 lim st → ∀ e ∈ view st, e.2.1 % 4 = 0 := by
  have hH := hp.hpos
  refine reach_induct fit H b0 lim hfit hp (fun st => ∀ e ∈ view st, e.2.1 % 4 = 0) ?_ ?_ ?_ ?_
  · intro e he
    rw [view_init] at he
    simp at he
  · intro st st' l s p hl hP hsz hm
    have hP' : ∀ e ∈ view st, e.2.1 % 4 = 0 := hP
    show ∀ e ∈ view st', e.2.1 % 4 = 0
    have hA := ALIGN4_mod4 s
    rcases malloc_view fit H st st' l s p hfit hH hl hsz hm with
      ⟨-, hv, -⟩ | ⟨-, hv, -⟩ | ⟨-, f, V1, V2, S, -, hv0, hbig, hv, -⟩ |
      ⟨-, f, V1, V2, S, -, hv0, hv, -⟩
    · rw [hv]; exact hP'
    · rw [hv]
      intro e he
      rcases List.mem_append.1 he with he | he
      · exact hP' e he
      · simp only [List.mem_singleton] at he
        rw [he]; exact hA
    · rw [hv0] at hP'
      have hS : S % 4 = 0 := hP' (f, S, true) (by simp)
      rw [hv]
      intro e he
      simp only [List.mem_append, List.mem_cons] at he
      rcases he with he | rfl | rfl | he
      · exact hP' e (by simp [he])
      · exact hA
      · show (S - ALIGN4 s - H) % 4 = 0
        omega
      · exact hP' e (by simp [he])
    · rw [hv0] at hP'
      have hS : S % 4 = 0 := hP' (f, S, true) (by simp)
      rw [hv]
      intro e he
      simp only [List.mem_append, List.mem_cons] at he
      rcases he with he | rfl | he
      · exact hP' e (by simp [he])
      · exact hS
      · exact hP' e (by simp [he])
  · intro st st' l p hl hP hlive hf
    have hP' : ∀ e ∈ view st, e.2.1 % 4 = 0 := hP
    show ∀ e ∈ view st', e.2.1 % 4 = 0
    rcases free_view_ctr H st st' l p hH hl hlive hf with rfl | ⟨b, s, V1, V2, hv0, hv, -⟩
    · exact hP'
    · rw [hv0] at hP'
      rw [hv]
      refine coalesced_sizes H (fun n => n % 4 = 0) ?_ V1 V2 b s
        (fun e he => hP' e (by simp [he])) (hP' (b, s, false) (by simp))
        (fun e he => hP' e (by simp [he]))
      intro a c ha hc
      show (a + H + c) % 4 = 0
      have ha' : a % 4 = 0 := ha
      have hc' : c % 4 = 0 := hc
      omega
  · intro st b hP
    exact hP

theorem Seg_aligned (H : Nat) (mem : Nat → Block) (h4 : H % 4 = 0) :
    ∀ (l : List Nat) (p n e : Nat), Seg H mem p l n e → (∀ x ∈ l, (mem x).size % 4 = 0) →
      ∀ x ∈ l, l.headD 0 ≤ x ∧ (x - l.headD 0) % 4 = 0 := by
  intro l
  induction l with
  | nil => intro p n e _ _ x hx; simp at hx
  | cons a l ih =>
    intro p n e h hs x hx
    obtain ⟨-, -, -, h3, h4'⟩ := h
    simp only [List.headD_cons]
    rcases List.mem_cons.1 hx with rfl | hx'
    · exact ⟨le_rfl, by simp⟩
    · have hsa := hs a (List.mem_cons_self _ _)
      have := ih a n e h4' (fun y hy => hs y (List.mem_cons_of_mem _ hy)) x hx'
      cases l with
      | nil => simp at hx'
      | cons z l' =>
        simp only [List.headD_cons] at this h3
        omega

/-- The alignment invariant when every request is in range. When the header size is a
multiple of 4, under the first-fit, best-fit or worst-fit policy, in every state reached from
the empty heap by valid calls to `malloc`, `calloc`, `realloc` and `free` with `H + ALIGN4 s < W` for
every size requested, every block of the list has a size that is a
multiple of 4, lies at or after the root header, and its payload address minus the address of
the root header is a multiple of 4. -/
theorem alignment_invariant (fit : Fit) (H b0 lim : Nat) (st : State) (hfit : fit ≠ Fit.next)
    (hp : Params H b0 lim) (h4 : H % 4 = 0) (hr : Reach fit H b0 lim st) :
    ∀ b ∈ blockAddrs st, (st.mem b).size % 4 = 0 ∧ st.heapList ≤ b ∧
      (BLOCK_DATA H b - st.heapList) % 4 = 0 := by
  have hH := hp.hpos
  obtain ⟨l, hl⟩ := reach_inv fit H b0 lim st hfit hp hr
  have hsz := reach_sizes_mod4 fit H b0 lim hfit hp h4 st hr
  rw [hl.view_eq hH] at hsz
  rw [hl.blockAddrs hH]
  have hs : ∀ x ∈ l, (st.mem x).size % 4 = 0 := by
    intro x hx
    exact hsz (x, (st.mem x).size, (st.mem x).free)
      (by unfold viewOf; exact List.mem_map.2 ⟨x, hx, rfl⟩)
  intro b hb
  obtain ⟨h1, h2⟩ := Seg_aligned H st.mem h4 l _ _ _ hl.seg hs b hb
  rw [hl.root, (hl.block_data b hb).1]
  exact ⟨hs b hb, h1, by omega⟩

/-- Witness of `alignment_invariant`: the header size 32 and the best-fit run with five
blocks of sizes 8, 24, 8, 16, 8. -/
theorem alignment_invariant_witness :
    blockAddrs bestRun7 = [1000, 1040, 1096, 1136, 1184] ∧
    ∀ b ∈ blockAddrs bestRun7, (bestRun7.mem b).size % 4 = 0 ∧ bestRun7.heapList ≤ b ∧
      (BLOCK_DATA 32 b - bestRun7.heapList) % 4 = 0 :=
  ⟨by decide, alignment_invariant Fit.best 32 1000 100000 bestRun7 (by decide) params0
    (by decide) bestRun7_reach⟩

theorem heapBytes_congr (H : Nat) (st st' : State) (hv : view st' = view st) :
    heapBytes H st' = heapBytes H st := by
  unfold heapBytes
  rw [hv]

theorem sum_view_snoc (H : Nat) (V : List (Nat × Nat × Bool)) (a r : Nat) (b : Bool) :
    ((V ++ [(a, r, b)]).map fun e => H + e.2.1).sum =
      (V.map fun e => H + e.2.1).sum + (H + r) := by
  simp

theorem sum_view_flag (H : Nat) (V1 V2 : List (Nat × Nat × Bool)) (f S : Nat) (b1 b2 : Bool) :
    ((V1 ++ (f, S, b1) :: V2).map fun e => H + e.2.1).sum =
      ((V1 ++ (f, S, b2) :: V2).map fun e => H + e.2.1).sum := by
  simp

theorem grow_fields (H : Nat) (st : State) (last r : Nat) (hr : r + H < W) :
    (growResult H st last r).ctr.num_coalesces = st.ctr.num_coalesces ∧
    (growResult H st last r).ctr.num_blocks = st.ctr.num_blocks + 1 ∧
    (growResult H st last r).ctr.num_grows = st.ctr.num_grows + 1 ∧
    (growResult H st last r).ctr.num_splits = st.ctr.num_splits ∧
    (growResult H st last r).ctr.max_heap = st.ctr.max_heap + ((H + r : Nat) : Int) := by
  rw [growResult_ctr H st last r hr]
  refine ⟨rfl, rfl, rfl, rfl, ?_⟩
  show st.ctr.max_heap + ((r + H : Nat) : Int) = st.ctr.max_heap + ((H + r : Nat) : Int)
  rw [Nat.add_comm]

theorem split_fields (H : Nat) (st : State) (f r : Nat) (hf : f ≠ 0) :
    (splitResult H st f r).ctr.num_coalesces = st.ctr.num_coalesces ∧
    (splitResult H st f r).ctr.num_blocks = st.ctr.num_blocks + 1 ∧
    (splitResult H st f r).ctr.num_grows = st.ctr.num_grows ∧
    (splitResult H st f r).ctr.num_splits = st.ctr.num_splits + 1 ∧
    (splitResult H st f r).ctr.max_heap = st.ctr.max_heap := by
  rw [splitResult_ctr H st f r hf]
  exact ⟨rfl, rfl, rfl, rfl, rfl⟩

theorem reuse_fields (st : State) (f r : Nat) (hf : f ≠ 0) :
    (reuseResult st f r).ctr.num_coalesces = st.ctr.num_coalesces ∧
    (reuseResult st f r).ctr.num_blocks = st.ctr.num_blocks ∧
    (reuseResult st f r).ctr.num_grows = st.ctr.num_grows ∧
    (reuseResult st f r).ctr.num_splits = st.ctr.num_splits ∧
    (reuseResult st f r).ctr.max_heap = st.ctr.max_heap := by
  rw [reuseResult_ctr st f r hf]
  exact ⟨rfl, rfl, rfl, rfl, rfl⟩

/-- What one call of `malloc` does to the list and to the counters of the accounting, on a
well-formed heap: the number of blocks, the sum of header size plus size, and the counters
`num_blocks`, `num_grows`, `num_splits`, `num_coalesces` and `max_heap`. -/
theorem malloc_account (fit : Fit) (H : Nat) (st st' : State) (l : List Nat) (s p : Nat)
    (hfit : fit ≠ Fit.next) (hH : 0 < H) (h : Inv H st l) (hsz : H + ALIGN4 s < W)
    (hm : malloc fit H st s = Outcome.ret p st') :
    st'.ctr.num_coalesces = st.ctr.num_coalesces ∧
    (((view st').length = (view st).length ∧ heapBytes H st' = heapBytes H st ∧
        st'.ctr.num_blocks = st.ctr.num_blocks ∧ st'.ctr.num_grows = st.ctr.num_grows ∧
        st'.ctr.num_splits = st.ctr.num_splits ∧ st'.ctr.max_heap = st.ctr.max_heap) ∨
      ((view st').length = (view st).length + 1 ∧
        heapBytes H st' = heapBytes H st + (H + ALIGN4 s) ∧
        st'.ctr.num_blocks = st.ctr.num_blocks + 1 ∧
        st'.ctr.num_grows = st.ctr.num_grows + 1 ∧
        st'.ctr.num_splits = st.ctr.num_splits ∧
        st'.ctr.max_heap = st.ctr.max_heap + ((H + ALIGN4 s : Nat) : Int)) ∨
      ((view st').length = (view st).length + 1 ∧ heapBytes H st' = heapBytes H st ∧
        st'.ctr.num_blocks = st.ctr.num_blocks + 1 ∧ st'.ctr.num_grows = st.ctr.num_grows ∧
        st'.ctr.num_splits = st.ctr.num_splits + 1 ∧
        st'.ctr.max_heap = st.ctr.max_heap)) := by
  rcases malloc_view fit H st st' l s p hfit hH h hsz hm with
    ⟨-, hv, hc⟩ | ⟨-, hv, hc⟩ | ⟨-, f, V1, V2, S, hf0, hv0, hbig, hv, hc⟩ |
    ⟨-, f, V1, V2, S, hf0, hv0, hv, hc⟩
  · have e1 : heapBytes H st' = heapBytes H st := heapBytes_congr H st st' hv
    have e2 : (view st').length = (view st).length := by rw [hv]
    have c1 : st'.ctr.num_coalesces = st.ctr.num_coalesces := by rw [hc]
    have c2 : st'.ctr.num_blocks = st.ctr.num_blocks := by rw [hc]
    have c3 : st'.ctr.num_grows = st.ctr.num_grows := by rw [hc]
    have c4 : st'.ctr.num_splits = st.ctr.num_splits := by rw [hc]
    have c5 : st'.ctr.max_heap = st.ctr.max_heap := by rw [hc]
    exact ⟨c1, Or.inl ⟨e2, e1, c2, c3, c4, c5⟩⟩
  · have hr : ALIGN4 s + H < W := by omega
    obtain ⟨c1, c2, c3, c4, c5⟩ := grow_fields H st (l.getLastD 0) (ALIGN4 s) hr
    rw [← hc] at c1 c2 c3 c4 c5
    have e1 : heapBytes H st' = heapBytes H st + (H + ALIGN4 s) := by
      rw [heapBytes_eq H st' _ hv, heapBytes_eq H st _ rfl]
      exact sum_view_snoc H (view st) st.brk (ALIGN4 s) false
    have e2 : (view st').length = (view st).length + 1 := by
      rw [hv, List.length_append, List.length_singleton]
    exact ⟨c1, Or.inr (Or.inl ⟨e2, e1, c2, c3, c4, c5⟩)⟩
  · obtain ⟨c1, c2, c3, c4, c5⟩ := split_fields H st f (ALIGN4 s) hf0
    rw [← hc] at c1 c2 c3 c4 c5
    have e1 : heapBytes H st' = heapBytes H st := by
      rw [heapBytes_eq H st' _ hv, heapBytes_eq H st _ hv0]
      exact sum_view_split H V1 V2 f (ALIGN4 s) S _ false true true hbig
    have e2 : (view st').length = (view st).length + 1 := by
      rw [hv, hv0]
      simp only [List.length_append, List.length_cons]
      omega
    exact ⟨c1, Or.inr (Or.inr ⟨e2, e1, c2, c3, c4, c5⟩)⟩
  · obtain ⟨c1, c2, c3, c4, c5⟩ := reuse_fields st f (ALIGN4 s) hf0
    rw [← hc] at c1 c2 c3 c4 c5
    have e1 : heapBytes H st' = heapBytes H st := by
      rw [heapBytes_eq H st' _ hv, heapBytes_eq H st _ hv0]
      exact sum_view_flag H V1 V2 f S false true
    have e2 : (view st').length = (view st).length := by
      rw [hv, hv0]
      simp only [List.length_append, List.length_cons]
    exact ⟨c1, Or.inl ⟨e2, e1, c2, c3, c4, c5⟩⟩

/-- What one call of `free` does to the list and to the counters of the accounting, on a
well-formed heap. -/
theorem free_account (H : Nat) (st st' : State) (l : List Nat) (p : Nat) (hH : 0 < H)
    (h : Inv H st l) (hp : p = 0 ∨ Live H st p)
    (hf : free H st p = Outcome.ret () st') :
    heapBytes H st' = heapBytes H st ∧ st'.ctr.num_grows = st.ctr.num_grows ∧
      st'.ctr.num_splits = st.ctr.num_splits ∧ st'.ctr.max_heap = st.ctr.max_heap ∧
      ∃ k : Nat, (view st').length + k = (view st).length ∧
        st'.ctr.num_blocks = st.ctr.num_blocks - (k : Int) ∧
        st'.ctr.num_coalesces = st.ctr.num_coalesces + (k : Int) := by
  rcases free_view_ctr H st st' l p hH h hp hf with rfl | ⟨b, s, V1, V2, hv0, hv, hc⟩
  · exact ⟨rfl, rfl, rfl, rfl, 0, by simp, by simp, by simp⟩
  · refine ⟨?_, by rw [hc], by rw [hc], by rw [hc], absorbedCount V1 V2, ?_, by rw [hc],
      by rw [hc]⟩
    · unfold heapBytes; rw [hv, hv0]
      exact coalesced_sum H V1 V2 b s
    · rw [hv, hv0]
      have := coalesced_length H V1 V2 b s
      simp only [List.length_append, List.length_cons]
      omega

/-- The accounting of a reached state, under the first-fit, best-fit or worst-fit policy. -/
theorem reach_account (fit : Fit) (H b0 lim : Nat) (hfit : fit ≠ Fit.next)
    (hp : Params H b0 lim) :
    ∀ st, Reach fit H b0 lim st →
      st.ctr.num_blocks = ((view st).length : Int) ∧
      st.ctr.num_blocks = st.ctr.num_grows + st.ctr.num_splits - st.ctr.num_coalesces ∧
      st.ctr.max_heap = ((heapBytes H st : Nat) : Int) := by
  have hH := hp.hpos
  refine reach_induct fit H b0 lim hfit hp
    (fun st => st.ctr.num_blocks = ((view st).length : Int) ∧
      st.ctr.num_blocks = st.ctr.num_grows + st.ctr.num_splits - st.ctr.num_coalesces ∧
      st.ctr.max_heap = ((heapBytes H st : Nat) : Int)) ?_ ?_ ?_ ?_
  · have hv := view_init b0 lim
    have hb : heapBytes H (initState b0 lim) = 0 := by
      rw [heapBytes_eq H _ _ hv]; rfl
    show (initState b0 lim).ctr.num_blocks = ((view (initState b0 lim)).length : Int) ∧
      (initState b0 lim).ctr.num_blocks = (initState b0 lim).ctr.num_grows +
        (initState b0 lim).ctr.num_splits - (initState b0 lim).ctr.num_coalesces ∧
      (initState b0 lim).ctr.max_heap = ((heapBytes H (initState b0 lim) : Nat) : Int)
    rw [hv, hb]
    exact ⟨rfl, rfl, rfl⟩
  · intro st st' l s p hl hP hsz hm
    obtain ⟨p1, p2, p3⟩ := hP
    obtain ⟨c0, hcase⟩ := malloc_account fit H st st' l s p hfit hH hl hsz hm
    show st'.ctr.num_blocks = ((view st').length : Int) ∧
      st'.ctr.num_blocks = st'.ctr.num_grows + st'.ctr.num_splits - st'.ctr.num_coalesces ∧
      st'.ctr.max_heap = ((heapBytes H st' : Nat) : Int)
    rcases hcase with ⟨e2, e1, c2, c3, c4, c5⟩ | ⟨e2, e1, c2, c3, c4, c5⟩ |
      ⟨e2, e1, c2, c3, c4, c5⟩
    · rw [e2, e1, c0, c2, c3, c4, c5]
      exact ⟨p1, p2, p3⟩
    · rw [e2, e1, c0, c2, c3, c4, c5]
      refine ⟨?_, ?_, ?_⟩
      · push_cast; omega
      · omega
      · push_cast; omega
    · rw [e2, e1, c0, c2, c3, c4, c5]
      refine ⟨?_, ?_, p3⟩
      · push_cast; omega
      · omega
  · intro st st' l p hl hP hlive hf
    obtain ⟨p1, p2, p3⟩ := hP
    obtain ⟨e1, c3, c4, c5, k, e2, c2, c0⟩ := free_account H st st' l p hH hl hlive hf
    show st'.ctr.num_blocks = ((view st').length : Int) ∧
      st'.ctr.num_blocks = st'.ctr.num_grows + st'.ctr.num_splits - st'.ctr.num_coalesces ∧
      st'.ctr.max_heap = ((heapBytes H st' : Nat) : Int)
    rw [e1, c0, c2, c3, c4, c5]
    refine ⟨?_, ?_, p3⟩
    · omega
    · omega
  · intro st b hP
    exact hP

/-- The accounting invariant when every request is in range. Under the first-fit, best-fit
or worst-fit policy, in every state reached from the empty heap by valid calls with
`H + ALIGN4 s < W` for every size requested, with the counters taken as unbounded
integers: `num_blocks` is the number of blocks reached from the root, it is also
`num_grows + num_splits - num_coalesces`, and `max_heap` is the sum over the blocks of the list of
header size plus size. That sum is not changed by a call of `free` (coalescing), and not by a
call of `malloc` that does not grow the heap (splitting or handing a block out whole). -/
theorem accounting_invariant (fit : Fit) (H b0 lim : Nat) (st : State) (hfit : fit ≠ Fit.next)
    (hp : Params H b0 lim) (hr : Reach fit H b0 lim st) :
    st.ctr.num_blocks = ((blockAddrs st).length : Int) ∧
    st.ctr.num_blocks = st.ctr.num_grows + st.ctr.num_splits - st.ctr.num_coalesces ∧
    st.ctr.max_heap = ((heapBytes H st : Nat) : Int) ∧
    (∀ p st', (p = 0 ∨ Live H st p) → free H st p = Outcome.ret () st' →
      heapBytes H st' = heapBytes H st) ∧
    (∀ s q st', H + ALIGN4 s < W → malloc fit H st s = Outcome.ret q st' →
      st'.ctr.num_grows = st.ctr.num_grows → heapBytes H st' = heapBytes H st) := by
  have hH := hp.hpos
  obtain ⟨p1, p2, p3⟩ := reach_account fit H b0 lim hfit hp st hr
  obtain ⟨l, hl⟩ := reach_inv fit H b0 lim st hfit hp hr
  have hlen : (view st).length = (blockAddrs st).length := by
    unfold view
    rw [List.length_map]
  rw [hlen] at p1
  refine ⟨p1, p2, p3, ?_, ?_⟩
  · intro p st' hlive hf
    exact (free_account H st st' l p hH hl hlive hf).1
  · intro s q st' hsz hm hg
    obtain ⟨-, hcase⟩ := malloc_account fit H st st' l s q hfit hH hl hsz hm
    rcases hcase with ⟨-, e1, -⟩ | ⟨-, -, -, c3, -⟩ | ⟨-, e1, -⟩
    · exact e1
    · omega
    · exact e1

theorem splitScenario_reach : Reach Fit.first 32 1000 100000
    (splitScenario Fit.first 32 1000 100000) :=
  Reach.malloc_val 10 1032
    (Reach.free_val 1032
      (Reach.malloc_val 1000 1032 Reach.init (by decide) (by decide) (by decide))
      (Or.inr (by decide)) (by decide))
    (by decide) (by decide) (by decide)

/-- Witness of `accounting_invariant`: the state after `malloc(1000)`, `free`, `malloc(10)`, with
one growth, one split and two blocks, of sizes 12 and 956. -/
theorem accounting_invariant_witness :
    (splitScenario Fit.first 32 1000 100000).ctr.num_blocks = 2 ∧
    (splitScenario Fit.first 32 1000 100000).ctr.num_grows = 1 ∧
    (splitScenario Fit.first 32 1000 100000).ctr.num_splits = 1 ∧
    (splitScenario Fit.first 32 1000 100000).ctr.max_heap = 1032 ∧
    (splitScenario Fit.first 32 1000 100000).ctr.num_blocks =
      ((blockAddrs (splitScenario Fit.first 32 1000 100000)).length : Int) ∧
    (splitScenario Fit.first 32 1000 100000).ctr.num_blocks =
      (splitScenario Fit.first 32 1000 100000).ctr.num_grows +
        (splitScenario Fit.first 32 1000 100000).ctr.num_splits -
        (splitScenario Fit.first 32 1000 100000).ctr.num_coalesces ∧
    (splitScenario Fit.first 32 1000 100000).ctr.max_heap =
      ((heapBytes 32 (splitScenario Fit.first 32 1000 100000) : Nat) : Int) ∧
    (∀ p st', (p = 0 ∨ Live 32 (splitScenario Fit.first 32 1000 100000) p) →
      free 32 (splitScenario Fit.first 32 1000 100000) p = Outcome.ret () st' →
      heapBytes 32 st' = heapBytes 32 (splitScenario Fit.first 32 1000 100000)) ∧
    (∀ s q st', 32 + ALIGN4 s < W →
      malloc Fit.first 32 (splitScenario Fit.first 32 1000 100000) s = Outcome.ret q st' →
      st'.ctr.num_grows = (splitScenario Fit.first 32 1000 100000).ctr.num_grows →
      heapBytes 32 st' = heapBytes 32 (splitScenario Fit.first 32 1000 100000)) :=
  ⟨by decide, by decide, by decide, by decide,
    accounting_invariant Fit.first 32 1000 100000 (splitScenario Fit.first 32 1000 100000)
      (by decide) params0 splitScenario_reach⟩

/-- Growth appends at the tail under the first-fit, best-fit and worst-fit policies: in
every state reached from the empty heap by valid calls whose list is not empty, and for every
request size `r > 0` that no block of the list fits, `findFreeBlock` returns null and reports
through `*last` the tail of the list, whose `next` is null. When the break can be moved,
`malloc` then appends the new block at the old break: the list after the call is the list
before it followed by the new block, the `prev` of the new block is the old tail and the `next`
of the old tail is the new block. -/
theorem growth_at_tail (fit : Fit) (H b0 lim : Nat) (st : State) (s : Nat)
    (hfit : fit ≠ Fit.next) (hp : Params H b0 lim) (hr : Reach fit H b0 lim st)
    (hne : blockAddrs st ≠ []) (hs : ALIGN4 s ≠ 0) (hsz : H + ALIGN4 s < W)
    (hnone : ∀ x ∈ blockAddrs st, ¬ Fits st.mem (ALIGN4 s) x)
    (hroom : st.brk + H + ALIGN4 s ≤ st.limit) :
    ∃ last, findFreeBlock fit st st.heapList (ALIGN4 s) = Outcome.ret (0, last) st ∧
      (blockAddrs st).getLast? = some last ∧ (st.mem last).next = 0 ∧
      ∃ st', malloc fit H st s = Outcome.ret (st.brk + H) st' ∧
        blockAddrs st' = blockAddrs st ++ [st.brk] ∧
        (st'.mem st.brk).prev = last ∧ (st'.mem st.brk).next = 0 ∧
        (st'.mem last).next = st.brk := by
  have hH := hp.hpos
  obtain ⟨l, hl⟩ := reach_inv fit H b0 lim st hfit hp hr
  rw [hl.blockAddrs hH] at hne hnone ⊢
  obtain ⟨f, last, hloc, hres⟩ :=
    locate_spec fit H st l (ALIGN4 s) hfit hH (Nat.pos_of_ne_zero hs) hl
  rcases hres with ⟨hf0, -, hlast⟩ | ⟨hfl, hffit⟩
  swap
  · exact absurd hffit (hnone f hfl)
  subst hf0
  obtain ⟨l', t, rfl⟩ : ∃ l' t, l = l' ++ [t] := by
    rcases List.eq_nil_or_concat l with h0 | ⟨l', t, h1⟩
    · exact absurd h0 hne
    · exact ⟨l', t, by rw [h1, List.concat_eq_append]⟩
  have hlt : last = t := by rw [hlast]; simp [List.getLastD_eq_getLast?]
  subst hlt
  have hmid := Seg_mid H st.mem l' [] last st.brk hl.seg
  refine ⟨last, hloc, by simp, hmid.2.1, ?_⟩
  rcases malloc_wf fit H st _ s hfit hH hl hsz hs with
    ⟨-, ⟨-, he⟩ | ⟨hno, -⟩⟩ | ⟨f, l1, l2, hl2, hff, -⟩
  · have hinv := Inv_grow H st hH _ (ALIGN4 s) hl hroom
    have hgl : (l' ++ [last]).getLastD 0 = last := by simp [List.getLastD_eq_getLast?]
    rw [hgl] at he hinv
    refine ⟨_, he, hinv.blockAddrs hH, ?_⟩
    have hmid2 := Seg_mid H _ (l' ++ [last]) [] st.brk _ hinv.seg
    have hmid3 := Seg_mid H _ l' [st.brk] last _
      (by simpa [List.append_assoc] using hinv.seg)
    refine ⟨?_, hmid2.2.1, hmid3.2.1⟩
    rw [hmid2.1]
    simp [List.getLastD_eq_getLast?]
  · exact absurd hroom hno
  · exact absurd hff (hnone f (by simp [hl2]))

/-- Witness of `growth_at_tail`: the first-fit run with `A`, `B`, `C` in use and `malloc(8)`. -/
theorem growth_at_tail_witness :
    ∃ last, findFreeBlock Fit.first firstRun3 firstRun3.heapList (ALIGN4 8) =
        Outcome.ret (0, last) firstRun3 ∧
      (blockAddrs firstRun3).getLast? = some last ∧ (firstRun3.mem last).next = 0 ∧
      ∃ st', malloc Fit.first 32 firstRun3 8 = Outcome.ret (firstRun3.brk + 32) st' ∧
        blockAddrs st' = blockAddrs firstRun3 ++ [firstRun3.brk] ∧
        (st'.mem firstRun3.brk).prev = last ∧ (st'.mem firstRun3.brk).next = 0 ∧
        (st'.mem last).next = firstRun3.brk :=
  growth_at_tail Fit.first 32 1000 100000 firstRun3 8 (by decide) params0 firstRun3_reach
    (by decide) (by decide) (by decide) (by decide) (by decide)

theorem nextLoop_succ (mem : Nat → Block) (hl size la fuel curr last : Nat) :
    nextLoop mem hl size la (fuel + 1) curr last =
      if Fits mem size curr then some (curr, last, curr)
      else if nextStep mem hl curr ≠ la then
        nextLoop mem hl size la fuel (nextStep mem hl curr) curr
      else some (nextStep mem hl curr, curr, la) := by
  rw [nextLoop]
  by_cases h : Fits mem size curr
  · have h1 : (mem curr).free = true ∧ (mem curr).size ≥ size := h
    rw [if_pos h, if_pos h1]
  · have h1 : ¬ ((mem curr).free = true ∧ (mem curr).size ≥ size) := h
    rw [if_neg h, if_neg h1]
    rfl

/-- The next-fit loop on a cyclic chain: it returns the first block of the chain that fits,
with the block visited before it, or it comes back to the cursor with the last block of the
chain. -/
theorem nextLoop_scan (mem : Nat → Block) (hl size la : Nat) :
    ∀ (o : List Nat) (cur last fuel : Nat), CycChain mem hl la cur o → o.length < fuel →
      ((∀ x ∈ cur :: o, ¬ Fits mem size x) ∧
        nextLoop mem hl size la fuel cur last = some (la, o.getLastD cur, la)) ∨
      (∃ o1 f o2, cur :: o = o1 ++ f :: o2 ∧ (∀ x ∈ o1, ¬ Fits mem size x) ∧
        Fits mem size f ∧
        nextLoop mem hl size la fuel cur last = some (f, o1.getLastD last, f)) := by
  intro o
  induction o with
  | nil =>
    intro cur last fuel hch hf
    obtain ⟨n, rfl⟩ : ∃ n, fuel = n + 1 := ⟨fuel - 1, by simp at hf; omega⟩
    rw [nextLoop_succ]
    by_cases hfit : Fits mem size cur
    · right
      refine ⟨[], cur, [], rfl, by simp, hfit, ?_⟩
      rw [if_pos hfit]
      rfl
    · left
      have hch' : nextStep mem hl cur = la := hch
      refine ⟨by simpa using hfit, ?_⟩
      rw [if_neg hfit, hch', if_neg (by simp)]
      rfl
  | cons y o ih =>
    intro cur last fuel hch hf
    obtain ⟨n, rfl⟩ : ∃ n, fuel = n + 1 := ⟨fuel - 1, by simp at hf; omega⟩
    obtain ⟨h1, h2, h3⟩ := hch
    rw [nextLoop_succ]
    by_cases hfit : Fits mem size cur
    · right
      refine ⟨[], cur, y :: o, rfl, by simp, hfit, ?_⟩
      rw [if_pos hfit]
      rfl
    · rw [if_neg hfit, h1, if_pos h2]
      have hlen : o.length < n := by simp at hf; omega
      rcases ih y cur n h3 hlen with ⟨hnone, he⟩ | ⟨o1, f, o2, ho, hbefore, hff, he⟩
      · left
        refine ⟨?_, ?_⟩
        · intro x hx
          rcases List.mem_cons.1 hx with rfl | hx'
          · exact hfit
          · exact hnone x hx'
        · rw [he, List.getLastD_cons]
      · right
        refine ⟨cur :: o1, f, o2, by rw [ho]; rfl, ?_, hff, ?_⟩
        · intro x hx
          rcases List.mem_cons.1 hx with rfl | hx'
          · exact hfit
          · exact hbefore x hx'
        · rw [he, List.getLastD_cons]

theorem CycChain_seg (H : Nat) (mem : Nat → Block) (hl la n e : Nat) (rest : List Nat) :
    ∀ (m : List Nat) (x p : Nat), Seg H mem p (x :: m) n e → (∀ y ∈ m, y ≠ la) →
      (∀ t, (mem t).next = n → CycChain mem hl la t rest) →
      CycChain mem hl la x (m ++ rest) := by
  intro m
  induction m with
  | nil =>
    intro x p hseg _ hcont
    exact hcont x hseg.2.2.1
  | cons y m ih =>
    intro x p hseg hne hcont
    obtain ⟨-, -, hn, -, htail⟩ := hseg
    simp only [List.headD_cons] at hn
    have hy0 : 0 < y := htail.1
    have hstep : nextStep mem hl x = y := by
      unfold nextStep
      rw [hn, if_pos hy0.ne']
    exact ⟨hstep, hne y (List.mem_cons_self _ _),
      ih y x htail (fun z hz => hne z (List.mem_cons_of_mem _ hz)) hcont⟩

/-- On a well-formed list `l1 ++ c :: l2` the next-fit scan that starts at `c` visits `l2`, wraps
to the root, visits `l1` and is back at `c`. -/
theorem CycChain_of_inv (H : Nat) (st : State) (l1 l2 : List Nat) (c : Nat) (hH : 0 < H)
    (h : Inv H st (l1 ++ c :: l2)) :
    CycChain st.mem st.heapList c c (l2 ++ l1) := by
  have hnd := Seg_nodup H st.mem hH _ _ _ _ h.seg
  have hseg := h.seg
  rw [Seg_append] at hseg
  obtain ⟨hs1, hs2⟩ := hseg
  simp only [List.headD_cons] at hs1
  have hroot := h.root
  have hc2 : ∀ y ∈ l2, y ≠ c := by
    intro y hy hyc
    subst hyc
    have := (List.nodup_append.1 hnd).2.1
    exact (List.nodup_cons.1 this).1 hy
  have hc1 : ∀ y ∈ l1, y ≠ c := by
    intro y hy hyc
    subst hyc
    exact (List.nodup_append.1 hnd).2.2 hy (List.mem_cons_self _ _)
  refine CycChain_seg H st.mem st.heapList c 0 st.brk l1 l2 c _ hs2 hc2 ?_
  intro t ht
  have hstep : nextStep st.mem st.heapList t = st.heapList := by
    unfold nextStep
    rw [ht]
    simp
  cases l1 with
  | nil =>
    show nextStep st.mem st.heapList t = c
    rw [hstep, hroot]
    rfl
  | cons a l1' =>
    have hra : st.heapList = a := by rw [hroot]; rfl
    refine ⟨by rw [hstep, hra], hc1 a (List.mem_cons_self _ _), ?_⟩
    have := CycChain_seg H st.mem st.heapList c c c [] l1' a 0 hs1
      (fun z hz => hc1 z (List.mem_cons_of_mem _ hz)) ?_
    · simpa using this
    · intro t' ht'
      show nextStep st.mem st.heapList t' = c
      unfold nextStep
      have hc0 : c ≠ 0 := (Seg_pos H st.mem _ _ _ _ h.seg c (by simp)).ne'
      rw [ht', if_pos hc0]

theorem not_fits_iff (mem : Nat → Block) (r x : Nat) :
    ((mem x).free = false ∨ (mem x).size < r) ↔ ¬ Fits mem r x := by
  unfold Fits
  cases (mem x).free <;> simp

/-- Next-fit on a well-formed list whose cursor is a block of the list, or null with the
root taking its place: the scan starts at the cursor block `c` itself, visits the blocks after
it in list order, wraps to the root and stops before `c`. `findFreeBlock` returns the first
visited block that fits and moves the cursor to it, or it returns null when no block of the
list fits, and then reports through `*last` the block visited last, the one before `c` in that
order. -/
theorem next_fit_scan (H : Nat) (st : State) (l1 l2 : List Nat) (c r last : Nat) (hH : 0 < H)
    (h : Inv H st (l1 ++ c :: l2))
    (hc : st.last_allocated = c ∨ (st.last_allocated = 0 ∧ l1 = [])) :
    ((∀ x ∈ c :: (l2 ++ l1), ¬ Fits st.mem r x) ∧
      findFreeBlock Fit.next st last r =
        Outcome.ret (0, (l2 ++ l1).getLastD c) (withCursor st c)) ∨
    (∃ o1 f o2, c :: (l2 ++ l1) = o1 ++ f :: o2 ∧ (∀ x ∈ o1, ¬ Fits st.mem r x) ∧
      Fits st.mem r f ∧
      findFreeBlock Fit.next st last r =
        Outcome.ret (f, o1.getLastD last) (withCursor st f)) := by
  have hc0 : c ≠ 0 := (Seg_pos H st.mem _ _ _ _ h.seg c (by simp)).ne'
  have hroot0 : st.heapList ≠ 0 := by
    intro h0
    have := (h.root_zero_iff).1 h0
    simp at this
  have hla : (if st.last_allocated = 0 then st.heapList else st.last_allocated) = c := by
    rcases hc with h1 | ⟨h1, h2⟩
    · rw [h1, if_neg hc0]
    · rw [if_pos h1, h.root, h2]
      rfl
  have hlen : (l2 ++ l1).length < st.brk + 1 := by
    have := h.length_lt hH
    simp only [List.length_append, List.length_cons] at this ⊢
    omega
  have hchain := CycChain_of_inv H st l1 l2 c hH h
  rcases nextLoop_scan st.mem st.heapList r c (l2 ++ l1) c last (st.brk + 1) hchain hlen with
    ⟨hnone, he⟩ | ⟨o1, f, o2, ho, hbefore, hff, he⟩
  · left
    refine ⟨hnone, ?_⟩
    have hcf := (not_fits_iff st.mem r c).2 (hnone c (List.mem_cons_self _ _))
    simp only [findFreeBlock, if_neg hroot0, hla, he, if_pos hcf]
    rfl
  · right
    refine ⟨o1, f, o2, ho, hbefore, hff, ?_⟩
    have hcf : ¬ ((st.mem f).free = false ∨ (st.mem f).size < r) := by
      rw [not_fits_iff]
      exact fun hn => hn hff
    simp only [findFreeBlock, if_neg hroot0, hla, he, if_neg hcf]
    rfl

theorem nextRun6_inv : Inv 32 nextRun6 ([1000] ++ 1040 :: [1080]) :=
  ⟨by simp only [Seg, List.cons_append, List.nil_append]; decide, by decide,
    by simp only [NoAdjFree, List.cons_append, List.nil_append]; decide, by decide, by decide,
    by decide⟩

/-- Witness of `next_fit_scan`: the next-fit run after `free(B)`, with `A` in use, `B` free, `C` in
use and the cursor on `B`; for the request size 8 the scan returns `B` at once. -/
theorem next_fit_scan_witness :
    view nextRun6 = [(1000, 8, false), (1040, 8, true), (1080, 8, false)] ∧
    nextRun6.last_allocated = 1040 ∧
    (findFreeBlock Fit.next nextRun6 1000 8).val? = some (1040, 1000) ∧
    (((∀ x ∈ 1040 :: ([1080] ++ [1000]), ¬ Fits nextRun6.mem 8 x) ∧
      findFreeBlock Fit.next nextRun6 1000 8 =
        Outcome.ret (0, ([1080] ++ [1000]).getLastD 1040) (withCursor nextRun6 1040)) ∨
    (∃ o1 f o2, 1040 :: ([1080] ++ [1000]) = o1 ++ f :: o2 ∧
      (∀ x ∈ o1, ¬ Fits nextRun6.mem 8 x) ∧ Fits nextRun6.mem 8 f ∧
      findFreeBlock Fit.next nextRun6 1000 8 =
        Outcome.ret (f, o1.getLastD 1000) (withCursor nextRun6 f))) :=
  ⟨by decide, by decide, by decide,
    next_fit_scan 32 nextRun6 [1000] [1080] 1040 8 1000 (by decide) nextRun6_inv
      (Or.inl (by decide))⟩

/-! ## Requests whose size wraps: valid calls that break the invariants -/

theorem Run.malloc_ret {fit : Fit} {H b0 lim : Nat} {st : State} (s p : Nat)
    (hr : Run fit H b0 lim st) (hs : s < W)
    (hv : (Malloc.malloc fit H st s).val? = some p) :
    Run fit H b0 lim (afterMalloc fit H st s) :=
  Run.malloc hr hs (Outcome.eq_ret_of_val _ p st hv)

theorem Run.free_ret {fit : Fit} {H b0 lim : Nat} {st : State} (p : Nat)
    (hr : Run fit H b0 lim st) (hl : p = 0 ∨ Live H st p)
    (hv : (Malloc.free H st p).val? = some ()) :
    Run fit H b0 lim (afterFree H st p) :=
  Run.free hr hl (Outcome.eq_ret_of_val _ () st hv)

theorem calloc_mod (fit : Fit) (H : Nat) (st : State) (n s : Nat) :
    calloc fit H st n s = calloc fit H st (n % W) (s % W) := by
  have e : (n * s) % W = ((n % W) * (s % W)) % W := Nat.mul_mod n s W
  unfold calloc
  rw [e]

/-- A sequence of valid calls with every request in range is a sequence of valid calls. -/
theorem Reach.toRun {fit : Fit} {H b0 lim : Nat} {st : State}
    (hr : Reach fit H b0 lim st) : Run fit H b0 lim st := by
  have hW : 0 < W := by decide
  induction hr with
  | init => exact Run.init
  | malloc _ hs _ hm ih => exact Run.malloc ih hs hm
  | calloc _ _ hm ih =>
    rw [calloc_mod] at hm
    exact Run.calloc ih (Nat.mod_lt _ hW) (Nat.mod_lt _ hW) hm
  | realloc _ hl hs _ hm ih => exact Run.realloc ih hl hs hm
  | free _ hl hm ih => exact Run.free ih hl hm
  | write _ hl h1 h2 ih => exact Run.write ih hl h1 h2

theorem firstRun1_run : Run Fit.first 32 1000 100000 firstRun1 :=
  Run.malloc_ret 8 1032 Run.init (by decide) (by decide)

theorem wrapRun2_run : Run Fit.first 32 1000 100000 wrapRun2 :=
  Run.malloc_ret bigSize 1072 firstRun1_run (by decide) (by decide)

theorem wrapRun3_run : Run Fit.first 32 1000 100000 wrapRun3 :=
  Run.malloc_ret 8 1072 wrapRun2_run (by decide) (by decide)

theorem wrapRun5_run : Run Fit.first 32 1000 100000 wrapRun5 :=
  Run.free_ret 1072 (Run.malloc_ret 8 1112 wrapRun3_run (by decide) (by decide))
    (Or.inr (by decide)) (by decide)

theorem wrapFree2_run : Run Fit.first 32 1000 100000 wrapFree2 :=
  Run.free_ret 1072 (Run.free_ret 1032 wrapRun3_run (Or.inr (by decide)) (by decide))
    (Or.inr (by decide)) (by decide)

theorem mergeRun3_run : Run Fit.first 32 1000 100000 mergeRun3 :=
  Run.malloc_ret bigSize 1072
    (Run.free_ret 1032 firstRun1_run (Or.inr (by decide)) (by decide))
    (by decide) (by decide)

theorem mergeRun5_run : Run Fit.first 32 1000 100000 mergeRun5 :=
  Run.malloc_ret bigSize 1072
    (Run.free_ret 1072 mergeRun3_run (Or.inr (by decide)) (by decide))
    (by decide) (by decide)

theorem splitRun3_run : Run Fit.first 32 1000 100000 splitRun3 :=
  Run.free_ret 1072
    (Run.malloc_ret 18446744073709551612 1072 firstRun1_run (by decide) (by decide))
    (Or.inr (by decide)) (by decide)

theorem splitRun4_run : Run Fit.first 32 1000 100000 splitRun4 :=
  Run.malloc_ret 18446744073709551612 1072 splitRun3_run (by decide) (by decide)

/-- C2 (the code at the failing input): under first-fit with the header size 32, the valid calls
`malloc(8)`, `malloc(2 ^ 64 - 32)`, `malloc(8)` break link consistency. In the second call
`sizeof(struct _block) + size` wraps to 0, so `growHeap` calls `sbrk(0)` twice, its `assert` holds,
and the header of the new block is written at the break 1040, which does not move. The third
call finds no free block, reports the block at 1040 as `*last`, and `growHeap` gets the same
address 1040 from `sbrk(0)`: it writes `last->next = curr` and then the new header on the block
at 1040 itself. Afterwards the block at 1040 is in the list, its `prev` is not null (it is 1040
itself), and `prev->next` is null, not the block. Both calls returned the pointer 1072. -/
theorem link_consistency_wraps :
    Run Fit.first 32 1000 100000 wrapRun3 ∧
      (32 + ALIGN4 bigSize) % W = 0 ∧
      (malloc Fit.first 32 firstRun1 bigSize).val? = some 1072 ∧
      firstRun1.brk = 1040 ∧ wrapRun2.brk = 1040 ∧
      (malloc Fit.first 32 wrapRun2 8).val? = some 1072 ∧
      blockAddrs wrapRun3 = [1000, 1040] ∧
      (wrapRun3.mem 1040).prev = 1040 ∧ (wrapRun3.mem 1040).prev ≠ 0 ∧
      (wrapRun3.mem (wrapRun3.mem 1040).prev).next = 0 ∧
      (wrapRun3.mem (wrapRun3.mem 1040).prev).next ≠ 1040 :=
  ⟨wrapRun3_run, by decide, by decide, by decide, by decide, by decide, by decide, by decide,
    by decide, by decide, by decide⟩

/-- C3 (the code at the failing input): under first-fit with the header size 32, after the valid
calls `malloc(8)`, `malloc(2 ^ 64 - 32)`, `malloc(8)` (the last two return 1072, see C2), `free(1032)`
and `free(1072)` the list holds two blocks, at 1000 and at 1040, that follow each other and are
both free. In `free(1072)` the block at 1040 has itself as `prev`; it has just been marked free,
so the left merge adds its own header and size to its size (48) and finds no free successor. -/
theorem eager_coalescing_wraps :
    Run Fit.first 32 1000 100000 wrapFree2 ∧
      Live 32 wrapRun3 1032 ∧ Live 32 wrapFree1 1072 ∧
      view wrapFree2 = [(1000, 8, true), (1040, 48, true)] ∧
      1000 ∈ blockAddrs wrapFree2 ∧ (wrapFree2.mem 1000).free = true ∧
      (wrapFree2.mem 1000).next = 1040 ∧ (wrapFree2.mem 1000).next ≠ 0 ∧
      (wrapFree2.mem (wrapFree2.mem 1000).next).free = true :=
  ⟨wrapFree2_run, by decide, by decide, by decide, by decide, by decide, by decide, by decide,
    by decide⟩

/-- C7 (the code at the failing input): under first-fit with the header size 32, after the valid
calls `A = malloc(8)`, `free(A)`, `p = malloc(2 ^ 64 - 32)` the list is the free block at 1000 of
size 8 followed by the block at 1040 of size `2 ^ 64 - 32`, in use, with `p = 1072`. `free(p)` merges
the block into its free predecessor: `prev->size += sizeof(struct _block) + curr->size` is
`8 + 32 + 2 ^ 64 - 32` in `size_t`, which wraps to 8. The list after the call is one free block of
size 8, not of the size `2 ^ 64 + 8` that the sum of the two blocks and one header gives. -/
theorem free_coalesces_wraps :
    Run Fit.first 32 1000 100000 mergeRun3 ∧
      view mergeRun3 = [(1000, 8, true), (1040, bigSize, false)] ∧
      Live 32 mergeRun3 1072 ∧ BLOCK_DATA 32 1040 = 1072 ∧
      (free 32 mergeRun3 1072).val? = some () ∧
      view mergeRun4 = [(1000, 8, true)] ∧
      coalesced 32 [(1000, 8, true)] 1040 bigSize [] = [(1000, 8 + 32 + bigSize, true)] ∧
      view mergeRun4 ≠ coalesced 32 [(1000, 8, true)] 1040 bigSize [] ∧
      8 + 32 + bigSize = W + 8 ∧ (mergeRun4.mem 1000).size ≠ bigSize + (32 + 8) :=
  ⟨mergeRun3_run, by decide, by decide, by decide, by decide, by decide, by decide, by decide,
    by decide, by decide⟩

/-- C8 (the code at the failing input): under first-fit with the header size 32, after the valid
calls `A = malloc(8)`, `p = malloc(2 ^ 64 - 4)`, `free(p)` the list is `A` followed by the free block
at 1040 of size `S = 2 ^ 64 - 4`. For `malloc(2 ^ 64 - 4)` the Locator returns that block for the
aligned size `r = 2 ^ 64 - 4`. `S` is not larger than `r + 32 + 4`, so the block is to be handed out
whole; but `size + sizeof(struct _block) + 4` wraps to 32 in `size_t`, the test
`next->size > size + sizeof(struct _block) + 4` holds, and the code splits: it writes a new free
block of size `2 ^ 64 - 32` at 1068, makes it the successor of the block at 1040, and counts a
split and a block. The sum over the list of header size plus size grows by `2 ^ 64`. -/
theorem split_rule_wraps :
    Run Fit.first 32 1000 100000 splitRun4 ∧
      view splitRun3 = [(1000, 8, false), (1040, 18446744073709551612, true)] ∧
      ALIGN4 18446744073709551612 = 18446744073709551612 ∧
      (findFreeBlock Fit.first (registerAtexit splitRun3) splitRun3.heapList
        (ALIGN4 18446744073709551612)).val? = some (1040, 1000) ∧
      ¬ (splitRun3.mem 1040).size > ALIGN4 18446744073709551612 + 32 + 4 ∧
      (ALIGN4 18446744073709551612 + 32 + 4) % W = 32 ∧
      (malloc Fit.first 32 splitRun3 18446744073709551612).val? = some 1072 ∧
      view splitRun4 =
        [(1000, 8, false), (1040, 18446744073709551612, false), (1068, bigSize, true)] ∧
      blockAddrs splitRun4 ≠ blockAddrs splitRun3 ∧
      (splitRun3.mem 1040).next = 0 ∧ (splitRun4.mem 1040).next = 1068 ∧
      splitRun4.ctr.num_splits = splitRun3.ctr.num_splits + 1 ∧
      splitRun4.ctr.num_blocks = splitRun3.ctr.num_blocks + 1 ∧
      heapBytes 32 splitRun4 = heapBytes 32 splitRun3 + W ∧
      heapBytes 32 splitRun4 ≠ heapBytes 32 splitRun3 :=
  ⟨splitRun4_run, by decide, by decide, by decide, by decide, by decide, by decide, by decide,
    by decide, by decide, by decide, by decide, by decide, by decide, by decide⟩

/-- C9 (the code at the failing input): under first-fit with the header size 32, in the state
after the valid calls `A = malloc(8)`, `free(A)`, and for `s = 2 ^ 64 - 32`: `malloc(s)` returns
`p = 1072` (by growth; the break does not move), `free(p)` returns and merges the block into the
free block at 1000, whose size wraps to 8, and the second `malloc(s)` finds no block of size `s`:
it returns 1072 by growth again, `num_reuses` is unchanged and `num_grows` is one more. -/
theorem reuse_over_growth_wraps :
    Run Fit.first 32 1000 100000 mergeRun2 ∧ Run Fit.first 32 1000 100000 mergeRun5 ∧
      0 < bigSize ∧ bigSize < W ∧
      (malloc Fit.first 32 mergeRun2 bigSize).val? = some 1072 ∧
      (free 32 mergeRun3 1072).val? = some () ∧
      view mergeRun4 = [(1000, 8, true)] ∧
      (malloc Fit.first 32 mergeRun4 bigSize).val? = some 1072 ∧
      mergeRun5.ctr.num_reuses = mergeRun4.ctr.num_reuses ∧
      mergeRun5.ctr.num_reuses ≠ mergeRun4.ctr.num_reuses + 1 ∧
      mergeRun5.ctr.num_grows = mergeRun4.ctr.num_grows + 1 :=
  ⟨Run.free_ret 1032 firstRun1_run (Or.inr (by decide)) (by decide), mergeRun5_run, by decide,
    by decide, by decide, by decide, by decide, by decide, by decide, by decide, by decide⟩

/-- C16 (the code at the failing input): under first-fit with the header size 32, after the
valid calls `malloc(8)`, `malloc(2 ^ 64 - 32)`, `malloc(8)` (the last two return 1072, see C2),
`malloc(8)` and `free(1072)` the block at 1040 has the size 48 and the successor 1080:
`1040 + 32 + 48` is 1120, not 1080, and the payload `[1072, 1120)` of the block covers the header
of its successor. -/
theorem address_order_wraps :
    Run Fit.first 32 1000 100000 wrapRun5 ∧
      (malloc Fit.first 32 wrapRun3 8).val? = some 1112 ∧ Live 32 wrapRun4 1072 ∧
      blockAddrs wrapRun5 = [1000, 1040, 1080] ∧
      (wrapRun5.mem 1040).size = 48 ∧ (wrapRun5.mem 1040).next = 1080 ∧
      (wrapRun5.mem 1040).next ≠ 0 ∧
      1040 + 32 + (wrapRun5.mem 1040).size ≠ (wrapRun5.mem 1040).next ∧
      ¬ 1040 + 32 + (wrapRun5.mem 1040).size ≤ (wrapRun5.mem 1040).next ∧
      (wrapRun5.mem 1040).next < BLOCK_DATA 32 1040 + (wrapRun5.mem 1040).size :=
  ⟨wrapRun5_run, by decide, by decide, by decide, by decide, by decide, by decide, by decide,
    by decide, by decide⟩

/-- C19 (the code at the failing input): under first-fit with the header size 32, after the
valid calls `malloc(8)`, `malloc(2 ^ 64 - 32)`, `malloc(8)` the counter `num_blocks` is 3 (three
growths, no split, no merge), and the list reached from the root has 2 blocks: the third call
wrote its header on the header of the second block (see C2). -/
theorem accounting_wraps :
    Run Fit.first 32 1000 100000 wrapRun3 ∧
      wrapRun3.ctr.num_blocks = 3 ∧ wrapRun3.ctr.num_grows = 3 ∧
      wrapRun3.ctr.num_splits = 0 ∧ wrapRun3.ctr.num_coalesces = 0 ∧
      blockAddrs wrapRun3 = [1000, 1040] ∧ (blockAddrs wrapRun3).length = 2 ∧
      wrapRun3.ctr.num_blocks ≠ ((blockAddrs wrapRun3).length : Int) :=
  ⟨wrapRun3_run, by decide, by decide, by decide, by decide, by decide, by decide, by decide⟩

end Malloc
